import Mathlib

/-! Quine–McCluskey minimiser (`DZ1/MKMK/main.go`).

A shallow embedding of the minimisation engine of `main.go` and the properties
of it that the specification states.

Conventions of the embedding.

* A Go `Term` (`[]Bit`) is a `List Bit`; the three `Bit` constants are the three
  constructors of `Bit`.
* A Go `panic` is the value `none` of an `Option` result (`Run.panicked` for
  `Step1`).
* A Go `map[int]...` is iterated in an unspecified order.  Every `range` over a
  map is embedded with an explicit `MapOrder`: a function that rearranges the
  stored keys, together with the proof that it is a rearrangement.  Theorems
  quantify over every `MapOrder`, so they hold for every run.
* `Step1` is recursive without a syntactic bound.  `Step1Fuel` is the same
  function with a bound on the number of calls; `Run.outOfFuel` reports that the
  bound was reached.  Termination is the theorem that some bound suffices.
-/

namespace MKMK

/-! ## Term model -/

/-- One variable of an implicant: absent (`Tilde = -1`), inverted (`False = 0`)
or direct (`True = 1`). -/
inductive Bit
  | Tilde
  | False
  | True
  deriving DecidableEq, Repr

/-- An implicant: one `Bit` per variable. -/
abbrev Term := List Bit

/-- `Term.Equals`: equal lengths and equal bits at every position. -/
def Term.Equals (a b : Term) : Bool :=
  if a.length ≠ b.length then false
  else (a.zip b).all fun p => p.1 == p.2

/-- `Term.Distance`: panics (`none`) on different lengths, otherwise counts the
positions where the bits differ. -/
def Term.Distance (a b : Term) : Option Nat :=
  if a.length ≠ b.length then none
  else some ((a.zip b).countP fun p => p.1 != p.2)

/-- `Term.Weight`: the number of `True` bits. -/
def Term.Weight (a : Term) : Nat :=
  a.countP fun bit => bit == Bit.True

/-- The loop of `DifferentBitIndex` from position `i` on: the first position
where the bits differ, or `-1` when there is none. -/
def firstDifferent : Term → Term → Nat → Int
  | x :: xs, y :: ys, i => if x ≠ y then (i : Int) else firstDifferent xs ys (i + 1)
  | _, _, _ => -1

/-- `Term.DifferentBitIndex`: panics (`none`) on different lengths, otherwise the
first position where the bits differ, or `-1` when there is none. -/
def Term.DifferentBitIndex (a b : Term) : Option Int :=
  if a.length ≠ b.length then none
  else some (firstDifferent a b 0)

/-- `Term.Covers`: `false` on different lengths, otherwise every bit of `a` that
is not `Tilde` equals the bit of `b` at the same position. -/
def Term.Covers (a b : Term) : Bool :=
  if a.length ≠ b.length then false
  else (a.zip b).all fun p => p.1 == Bit.Tilde || p.1 == p.2

/-! ## Merge engine (`Step1`) -/

/-- A term of a weight group with the mark "took part in a merge". -/
structure GroupItem where
  Term : Term
  IsGlued : Bool
  deriving DecidableEq, Repr

/-- `NewGroupItem`: an unmarked item. -/
def NewGroupItem (term : Term) : GroupItem :=
  { Term := term, IsGlued := false }

/-- The Go `map[int][]GroupItem`: the stored keys and the group of every key
(the empty group for a key that is not stored). -/
structure Groups where
  keys : List Nat
  items : Nat → List GroupItem

/-- The empty (or `nil`) map. -/
def Groups.empty : Groups :=
  { keys := [], items := fun _ => [] }

/-- The stored keys of a Go map after a store under the key `k`: a new key is
added, a stored one is kept. -/
def insertKey (ks : List Nat) (k : Nat) : List Nat :=
  if k ∈ ks then ks else ks ++ [k]

/-- The statement `groups[weight] = append(groups[weight], item)`. -/
def Groups.add (g : Groups) (weight : Nat) (item : GroupItem) : Groups :=
  { keys := insertKey g.keys weight
    items := fun k => if k = weight then g.items weight ++ [item] else g.items k }

/-- `GroupByWeight`: the `nil` map for no terms, otherwise every term is
appended to the group of its weight. -/
def GroupByWeight (terms : List Term) : Groups :=
  if terms.length = 0 then Groups.empty
  else terms.foldl (fun g term => g.add (Term.Weight term) (NewGroupItem term)) Groups.empty

/-- The inner loop of `GlueGroups` (`for j := range b`) for one item `x = a[i]`:
returns the item `x`, the group `b` with the new marks, and the terms created. -/
def glueRow (x : GroupItem) : List GroupItem → Option (GroupItem × List GroupItem × List Term)
  | [] => some (x, [], [])
  | y :: ys =>
    match Term.Distance x.Term y.Term with
    | none => none
    | some d =>
      if d = 1 then
        match Term.DifferentBitIndex x.Term y.Term with
        | some (Int.ofNat k) =>
          if k < x.Term.length then
            match glueRow { x with IsGlued := true } ys with
            | none => none
            | some (x1, ys1, ts) =>
              some (x1, { y with IsGlued := true } :: ys1, x.Term.set k Bit.Tilde :: ts)
          else none
        | _ => none
      else
        match glueRow x ys with
        | none => none
        | some (x1, ys1, ts) => some (x1, y :: ys1, ts)

/-- `GlueGroups`: every pair of an item of `a` and an item of `b` at distance 1
is marked, and the term of `a` with the differing position set to `Tilde` is
emitted.  Returns both groups with their new marks and the emitted terms;
`none` is a panic (of `Distance`, `DifferentBitIndex` or of the index store). -/
def GlueGroups : List GroupItem → List GroupItem →
    Option (List GroupItem × List GroupItem × List Term)
  | [], b => some ([], b, [])
  | x :: xs, b =>
    match glueRow x b with
    | none => none
    | some (x1, b1, ts) =>
      match GlueGroups xs b1 with
      | none => none
      | some (xs1, b2, ts1) => some (x1 :: xs1, b2, ts ++ ts1)

/-- An order in which a `range` over a map visits the stored keys. -/
structure MapOrder where
  visit : List Nat → List Nat
  perm : ∀ ks, (visit ks).Perm ks

/-- The order in which the keys were stored. -/
def MapOrder.stored : MapOrder :=
  { visit := fun ks => ks, perm := fun ks => List.Perm.refl ks }

/-- The reverse of the order in which the keys were stored. -/
def MapOrder.reversed : MapOrder :=
  { visit := fun ks => ks.reverse, perm := fun ks => List.reverse_perm ks }

/-- One iteration of the first loop of `Step1` for the key `weight`: when the key
`weight - 1` is stored, the two groups are glued (their marks are updated in
place) and the new terms are appended to `glued`.  Weights are not negative, so
no key precedes the key `0`. -/
def glueStep (g : Groups) (glued : List Term) : Nat → Option (Groups × List Term)
  | 0 => some (g, glued)
  | w + 1 =>
    if w ∈ g.keys then
      match GlueGroups (g.items w) (g.items (w + 1)) with
      | none => none
      | some (a, b, newGlued) =>
        some ({ keys := g.keys
                items := fun k => if k = w then a else if k = w + 1 then b else g.items k },
              glued ++ newGlued)
    else some (g, glued)

/-- The first loop of `Step1` over the visited keys. -/
def glueLoop (g : Groups) (glued : List Term) : List Nat → Option (Groups × List Term)
  | [] => some (g, glued)
  | w :: ws =>
    match glueStep g glued w with
    | none => none
    | some (g1, glued1) => glueLoop g1 glued1 ws

/-- The second loop of `Step1`: the terms of the unmarked items, group by group
in the order visited. -/
def unaffectedTerms (g : Groups) (visited : List Nat) : List Term :=
  visited.flatMap fun w => ((g.items w).filter fun it => !it.IsGlued).map fun it => it.Term

/-- `MakeUniqueSet`: the first occurrence of every term, in order. -/
def MakeUniqueSet (terms : List Term) : List Term :=
  terms.foldl
    (fun uniqueSet term =>
      if uniqueSet.any (fun termInSet => Term.Equals termInSet term) then uniqueSet
      else uniqueSet ++ [term])
    []

/-- The outcome of a run bounded in the number of calls. -/
inductive Run (α : Type)
  | done (value : α)
  | panicked
  | outOfFuel
  deriving DecidableEq, Repr

/-- `Step1` with a bound on the number of calls (the first call included).
`ord 0` and `ord 1` are the orders of the two map loops of this call; the
recursive call continues with the later orders. -/
def Step1Fuel (ord : Nat → MapOrder) : Nat → List Term → Run (List Term)
  | 0, _ => Run.outOfFuel
  | fuel + 1, impls =>
    let groups := GroupByWeight impls
    match glueLoop groups [] ((ord 0).visit groups.keys) with
    | none => Run.panicked
    | some (groups1, glued) =>
      if glued.length = 0 then Run.done impls
      else
        Step1Fuel (fun k => ord (k + 2)) fuel
          (MakeUniqueSet (unaffectedTerms groups1 ((ord 1).visit groups1.keys) ++ glued))

/-! ## Coverage table (steps 2, 3 and 4) -/

/-- A row or a column of the table: its term and the mark "essential". -/
structure Line where
  Term : Term
  IsMarked : Bool
  deriving DecidableEq, Repr

/-- The table of steps 2, 3 and 4. -/
structure Table where
  Columns : List Line
  Rows : List Line
  Marks : List (List Bool)
  deriving DecidableEq, Repr

/-- `NewTable`: a row for every prime implicant, a column for every source
implicant, and the mark `Marks[i][j]` set where row `i` covers column `j`. -/
def NewTable (prime source : List Term) : Table :=
  let rows := prime.map fun row => ({ Term := row, IsMarked := false } : Line)
  let columns := source.map fun column => ({ Term := column, IsMarked := false } : Line)
  { Columns := columns
    Rows := rows
    Marks := rows.map fun r => columns.map fun c => Term.Covers r.Term c.Term }

/-- The read `t.Marks[i][j]`; `none` is the index panic of Go. -/
def Table.mark (t : Table) (i j : Nat) : Option Bool :=
  match t.Marks[i]? with
  | none => none
  | some row => row[j]?

/-- The inner loop of `IsRowsCovers` for the row `i`: every column marked in the
row becomes covered. -/
def coverColumns (t : Table) (i : Nat) (covered : List Bool) : List Nat → Option (List Bool)
  | [] => some covered
  | j :: js =>
    match t.mark i j with
    | none => none
    | some m => coverColumns t i (if m = true then covered.set j true else covered) js

/-- The outer loop of `IsRowsCovers`: the rows that are not in `rows` are
skipped. -/
def coverRows (t : Table) (rows : List Nat) (covered : List Bool) : List Nat → Option (List Bool)
  | [] => some covered
  | i :: is =>
    if i ∈ rows then
      match coverColumns t i covered (List.range t.Columns.length) with
      | none => none
      | some covered1 => coverRows t rows covered1 is
    else coverRows t rows covered is

/-- `Table.IsRowsCovers`: whether the rows whose numbers are in `rows` cover
every column.  The set `rows` (a Go `map[int]struct{}`) is the list of its
keys. -/
def Table.IsRowsCovers (t : Table) (rows : List Nat) : Option Bool :=
  match coverRows t rows (List.replicate t.Columns.length false) (List.range t.Rows.length) with
  | none => none
  | some covered => some (covered.all fun c => c)

/-- The count of marks in column `j` and the last row that has one
(`marksInColumn`, `rowWithMark`). -/
def scanColumn (t : Table) (j : Nat) : Nat × Nat :=
  (List.range t.Rows.length).foldl
    (fun acc i => if t.mark i j = some true then (acc.1 + 1, i) else acc)
    (0, 0)

/-- The body of the essential-marking loop for column `j`. -/
def markEssential (t : Table) (j : Nat) : Table :=
  let scan := scanColumn t j
  if scan.1 = 1 then
    { t with
      Columns := t.Columns.modify (fun c => { c with IsMarked := true }) j
      Rows := t.Rows.modify (fun r => { r with IsMarked := true }) scan.2 }
  else t

/-- `Steps2and3and4`: the table with its essential rows and columns marked, and
the set of the numbers of the essential rows. -/
def Steps2and3and4 (prime source : List Term) : Table × List Nat :=
  let t0 := NewTable prime source
  let t := (List.range t0.Columns.length).foldl markEssential t0
  let essentials :=
    (List.range t.Rows.length).foldl
      (fun es i => if (t.Rows[i]?.map fun r => r.IsMarked) = some true then insertKey es i else es)
      []
  (t, essentials)

/-! ## Minimal cover search (step 5) -/

/-- Modelled from the spec: `itertools.CombinationsInt` belongs to an external
package that is not part of the sources.  Section 4.4 has it "enumerate every
size-k subset of the non-essential row indices (order irrelevant, no
repetition)"; the subsets are listed here in lexicographic order of
positions. -/
def CombinationsInt : List Nat → Nat → List (List Nat)
  | _, 0 => [[]]
  | [], _ + 1 => []
  | x :: xs, k + 1 => (CombinationsInt xs k).map (fun c => x :: c) ++ CombinationsInt xs (k + 1)

/-- `GetCombinations`: every combination of `n` non-essential rows, united with
the essential rows. -/
def GetCombinations (t : Table) (n : Nat) (essential : List Nat) : List (List Nat) :=
  let essentials := essential
  let indices := (List.range t.Rows.length).filter fun i => !(essential.contains i)
  (CombinationsInt indices n).map fun indexCombination =>
    essentials.foldl insertKey (indexCombination.foldl insertKey [])

/-- `math.MaxInt32`. -/
def MaxInt32 : Nat := 2147483647

/-- The terms `t.Rows[index].Term` for the indices given; `none` is the index
panic of Go. -/
def rowTerms (t : Table) : List Nat → Option (List Term)
  | [] => some []
  | index :: rest =>
    match t.Rows[index]?, rowTerms t rest with
    | some row, some terms => some (row.Term :: terms)
    | _, _ => none

/-- The candidates contributed by the combinations of one size: those that pass
`IsRowsCovers`, each listed in the order `ord` visits its rows. -/
def coveringResults (ord : MapOrder) (t : Table) : List (List Nat) → Option (List (List Term))
  | [] => some []
  | combination :: rest =>
    match t.IsRowsCovers combination with
    | none => none
    | some true =>
      match rowTerms t (ord.visit combination), coveringResults ord t rest with
      | some result, some results => some (result :: results)
      | _, _ => none
    | some false => coveringResults ord t rest

/-- The candidates of the sizes `sizes`, in order. -/
def possibleResults (ord : MapOrder) (t : Table) (essential : List Nat) :
    List Nat → Option (List (List Term))
  | [] => some []
  | i :: sizes =>
    match coveringResults ord t (GetCombinations t i essential),
          possibleResults ord t essential sizes with
    | some results, some more => some (results ++ more)
    | _, _ => none

/-- The `complexity` of a candidate: the sum of the lengths of its terms.  (Go's
`int` has 64 bits; the lengths of terms held in memory sum to less than `2 ^ 63`,
so the sum is a natural number here.) -/
def complexity (result : List Term) : Nat :=
  result.foldl (fun c term => c + term.length) 0

/-- The selection loop of `Step5`: the first candidate of strictly lowest
complexity, starting from `minComplexity = math.MaxInt32` and `minResult = nil`. -/
def selectMin (results : List (List Term)) : List Term :=
  (results.foldl
    (fun (acc : Nat × List Term) result =>
      if complexity result < acc.1 then (complexity result, result) else acc)
    (MaxInt32, [])).2

/-- `Step5`: the candidates are the covering combinations of `1`, ...,
`len(t.Rows) - len(essential) - 1` non-essential rows with the essential rows,
and last the list of all rows; the first one of lowest complexity is returned.
`ord` is the order in which `range combination` visits a combination. -/
def Step5 (ord : MapOrder) (t : Table) (essential : List Nat) : Option (List Term) :=
  match possibleResults ord t essential
      (List.range' 1 (t.Rows.length - essential.length - 1)) with
  | none => none
  | some results =>
    let trivial := t.Rows.map fun row => row.Term
    some (selectMin (results ++ [trivial]))

/-! ## Minterms of a truth table (`MakeSDNF`) -/

/-- Halving `k` until it is below 2, at most `fuel` times; the number of
halvings. -/
def halvings : Nat → Nat → Nat
  | 0, _ => 0
  | fuel + 1, k => if k < 2 then 0 else halvings fuel (k / 2) + 1

/-- The integer part of the binary logarithm, `int(math.Log2(float64(n)))`; the
floating-point logarithm is exact on the powers of two, the only lengths the
specification considers. -/
def log2Floor (n : Nat) : Nat :=
  halvings n n

/-- The binary digits of `v`, most significant first, put in front of `acc`. -/
def binaryDigits : Nat → Nat → List Bit → List Bit
  | 0, _, acc => acc
  | fuel + 1, v, acc =>
    if v = 0 then acc
    else binaryDigits fuel (v / 2) ((if v % 2 = 1 then Bit.True else Bit.False) :: acc)

/-- The bits of `fmt.Sprintf("%0<width>b", i)`: the binary digits of `i` (one
digit `0` for `i = 0`), padded with zeros on the left to `width` digits. -/
def formatBinary (width i : Nat) : Term :=
  let digits := if i = 0 then [Bit.False] else binaryDigits i i []
  List.replicate (width - digits.length) Bit.False ++ digits

/-- `MakeSDNF`: the term of the binary representation of every index `i` with
`f[i] == 1`, in increasing order of `i`. -/
def MakeSDNF (f : List Int) : List Term :=
  let variableNumber := log2Floor f.length
  (List.range f.length).filterMap fun i =>
    if f[i]? = some 1 then some (formatBinary variableNumber i) else none

/-! ## Printing (`PrettyString`, `Format`) -/

/-- `Bit.PrettyString`: nothing for an absent position, `!x<index>` for `False`,
`x<index>` for `True`; `toString` is `strconv.Itoa` on an index. -/
def Bit.PrettyString (b : Bit) (index : Nat) : String :=
  match b with
  | Bit.Tilde => ""
  | Bit.False => "!x" ++ toString index
  | Bit.True => "x" ++ toString index

/-- The loop of `Term.PrettyString` from position `i` on: the text of every
position is put in front of what is already written. -/
def prettyLoop : Nat → List Bit → String → String
  | _, [], prettyString => prettyString
  | i, bit :: rest, prettyString => prettyLoop (i + 1) rest (bit.PrettyString i ++ prettyString)

/-- `Term.PrettyString`: the variables of a term, printed in reverse order of
the positions. -/
def Term.PrettyString (a : Term) : String :=
  prettyLoop 0 a ""

/-- The loop of `Format` from the index `i` on. -/
def formatLoop : Nat → List Term → String → String
  | _, [], result => result
  | i, impl :: rest, result =>
    formatLoop (i + 1) rest ((if i ≠ 0 then result ++ " + " else result) ++ Term.PrettyString impl)

/-- `Format`: the terms printed by `PrettyString`, separated by `" + "`. -/
def Format (impls : List Term) : String :=
  formatLoop 0 impls ""

/-! ## Notions used to state the properties -/

/-- The number of absent positions of a term. -/
def absentCount (t : Term) : Nat :=
  t.countP fun bit => bit == Bit.Tilde

/-- A term without absent positions (a minterm is such a term). -/
def fullySpecified (t : Term) : Bool :=
  t.all fun bit => bit != Bit.Tilde

/-- The pair `(a, b)` is merged by `Step1`: `b` lies in the weight group next
after the one of `a`, and their distance is 1. -/
def mergeable (a b : Term) : Bool :=
  decide (Term.Weight b = Term.Weight a + 1) && (Term.Distance a b == some 1)

/-- The term `GlueGroups` emits for the pair `(a, b)`: a copy of `a` with the
first position where `b` differs set to `Tilde`. -/
def mergeTerm (a b : Term) : Term :=
  match Term.DifferentBitIndex a b with
  | some (Int.ofNat k) => a.set k Bit.Tilde
  | _ => a

/-- The term `t` is marked by the first loop of `Step1` run on `impls`: it is
merged with some term of `impls`. -/
def hasPartner (impls : List Term) (t : Term) : Bool :=
  impls.any fun y => mergeable t y || mergeable y t

/-- The test `a.Distance(b) == 1` of `GlueGroups`. -/
def distanceOne (a b : Term) : Bool :=
  Term.Distance a b == some 1

/-- An item with its mark raised when `flag` holds. -/
def raiseMark (flag : Bool) (x : GroupItem) : GroupItem :=
  { x with IsGlued := x.IsGlued || flag }

/-- The terms `GlueGroups a b` emits, in order. -/
def gluedOf (a b : List GroupItem) : List Term :=
  a.flatMap fun x =>
    (b.filter fun y => distanceOne x.Term y.Term).map fun y => mergeTerm x.Term y.Term

/-- The keys `GroupByWeight` stores: the weights of the terms, in the order of
their first occurrence. -/
def weightKeys (impls : List Term) : List Nat :=
  impls.foldl (fun ks t => insertKey ks (Term.Weight t)) []

/-- The terms of `impls` of weight `k`, in order. -/
def ofWeight (impls : List Term) (k : Nat) : List Term :=
  impls.filter fun t => Term.Weight t == k

/-- The weight groups of `impls` with the marks given by `flag`. -/
def markedGroups (impls : List Term) (keys : List Nat) (flag : Nat → Term → Bool) : Groups :=
  { keys := keys
    items := fun k => (ofWeight impls k).map fun t => { Term := t, IsGlued := flag k t } }

/-- The mark that the iteration of the first loop of `Step1` for the key `v`
raises on the term `t` of the group `k`. -/
def stepFlag (impls : List Term) (keys : List Nat) (v k : Nat) (t : Term) : Bool :=
  match v with
  | 0 => false
  | w + 1 =>
    decide (w ∈ keys) &&
      ((k == w && (ofWeight impls (w + 1)).any fun y => distanceOne t y) ||
        (k == w + 1 && (ofWeight impls w).any fun x => distanceOne x t))

/-- The terms emitted when the terms `as` are glued with the terms `bs`. -/
def termsGlued (as bs : List Term) : List Term :=
  as.flatMap fun x => (bs.filter fun y => distanceOne x y).map fun y => mergeTerm x y

/-- The terms that the iteration of the first loop of `Step1` for the key `v`
emits. -/
def stepGlued (impls : List Term) (keys : List Nat) (v : Nat) : List Term :=
  match v with
  | 0 => []
  | w + 1 => if w ∈ keys then termsGlued (ofWeight impls w) (ofWeight impls (w + 1)) else []

/-- The list `glued` after the first loop of `Step1`, run on `impls` with the
keys visited in the order `o`. -/
def gluedTerms (o : MapOrder) (impls : List Term) : List Term :=
  (o.visit (weightKeys impls)).flatMap (stepGlued impls (weightKeys impls))

/-- The marks after the first loop of `Step1`, run on `impls` with the keys
visited in the order `o`. -/
def finalFlag (o : MapOrder) (impls : List Term) (k : Nat) (t : Term) : Bool :=
  (o.visit (weightKeys impls)).any fun v => stepFlag impls (weightKeys impls) v k t

/-- The list `unaffectedTerms` of `Step1`, run on `impls` with the keys visited
in the order `o0` by the first loop and in the order `o1` by the second. -/
def unaffectedOf (o0 o1 : MapOrder) (impls : List Term) : List Term :=
  (o1.visit (weightKeys impls)).flatMap fun w =>
    (ofWeight impls w).filter fun t => !finalFlag o0 impls w t

/-- The argument of the recursive call of `Step1`. -/
def nextImpls (o0 o1 : MapOrder) (impls : List Term) : List Term :=
  MakeUniqueSet (unaffectedOf o0 o1 impls ++ gluedTerms o0 impls)

/-- The number of terms of `impls` with exactly `i` absent positions. -/
def countAtLevel (impls : List Term) (i : Nat) : Nat :=
  impls.countP fun t => absentCount t == i

/-- The shape of a table: one row of marks for every row, one mark in it for
every column (the shape `NewTable` builds). -/
def Table.WellFormed (t : Table) : Prop :=
  t.Marks.length = t.Rows.length ∧ ∀ row ∈ t.Marks, row.length = t.Columns.length

/-- The term `p` of `n` variables is an implicant of the function with the
minterms `M`: every fully specified term it covers is a minterm. -/
def isImplicant (M : List Term) (n : Nat) (p : Term) : Prop :=
  p.length = n ∧
    ∀ x : Term, x.length = n → fullySpecified x = true → Term.Covers p x = true → x ∈ M

/-- The implicant `p` is prime: making any of its present positions absent
yields a term that is not an implicant. -/
def isPrime (M : List Term) (n : Nat) (p : Term) : Prop :=
  ∀ (pre post : Term) (z : Bit), p = pre ++ z :: post → z ≠ Bit.Tilde →
    ¬ isImplicant M n (pre ++ Bit.Tilde :: post)

/-- The state of the merge engine after `r` merging calls on the minterms `M`:
the implicants with `r` absent positions, and the prime implicants with
fewer. -/
def mergeState (M : List Term) (n r : Nat) (S : List Term) : Prop :=
  (∀ t ∈ S, isImplicant M n t) ∧
    (∀ q, isImplicant M n q → absentCount q = r → q ∈ S) ∧
    (∀ t ∈ S, absentCount t ≤ r) ∧
    (∀ t ∈ S, absentCount t < r → isPrime M n t)

/-- A truth table of three variables (ones at the indices 3, 4, 6 and 7) whose
prime implicants are `1~0`, `~11` and `11~`; the first two are essential and
cover every minterm. -/
def redundantTable : List Int := [0, 0, 0, 1, 1, 0, 1, 1]

/-- The prime implicants of `redundantTable`, as `Step1` returns them. -/
def redundantPrimes : List Term :=
  [[Bit.True, Bit.Tilde, Bit.False], [Bit.Tilde, Bit.True, Bit.True],
    [Bit.True, Bit.True, Bit.Tilde]]

/-- A term of `math.MaxInt32` absent positions. -/
def longTerm : Term := List.replicate MaxInt32 Bit.Tilde

/-- The number a fully specified term spells in binary, most significant bit
first (`True` is the digit 1). -/
def termValue (t : Term) : Nat :=
  t.foldl (fun acc bit => 2 * acc + (if bit = Bit.True then 1 else 0)) 0

/-- The step of the selection loop of `Step5`. -/
def selectStep (acc : Nat × List Term) (result : List Term) : Nat × List Term :=
  if complexity result < acc.1 then (complexity result, result) else acc

/-- The state `(minComplexity, minResult)` of the selection loop of `Step5`
after the candidates `seen`: still the initial one, with no candidate below
`math.MaxInt32` seen, or a seen candidate of least complexity. -/
def selectInvariant (seen : List (List Term)) (acc : Nat × List Term) : Prop :=
  (acc = (MaxInt32, []) ∧ ∀ c ∈ seen, MaxInt32 ≤ complexity c) ∨
    (acc.2 ∈ seen ∧ acc.1 = complexity acc.2 ∧ acc.1 < MaxInt32 ∧
      ∀ c ∈ seen, acc.1 ≤ complexity c)

/-- The truth table of `n` variables that is 1 exactly at the indices divisible
by 3.  No two of its minterms differ in one position only. -/
def thirdsTable (n : Nat) : List Int :=
  (List.range (2 ^ n)).map fun i => if i % 3 = 0 then 1 else 0

/-- The four minterms of two variables. -/
def fourMinterms : List Term :=
  [[Bit.False, Bit.False], [Bit.False, Bit.True], [Bit.True, Bit.False], [Bit.True, Bit.True]]

/-- Four terms of length 2, two of them with an absent position: `Step1` merges
`1~` with `11` and emits `1~` again, and needs three merging calls. -/
def reEmittedTerms : List Term :=
  [[Bit.Tilde, Bit.False], [Bit.False, Bit.True], [Bit.True, Bit.Tilde], [Bit.True, Bit.True]]

/-- The truth table of "not both" of two variables. -/
def notBothTable : List Int := [1, 1, 1, 0]

/-- The row `i` of the table is marked essential. -/
def rowMarked (t : Table) (i : Nat) : Prop :=
  (t.Rows[i]?.map fun r => r.IsMarked) = some true

/-- The column `j` of the table is marked essential. -/
def columnMarked (t : Table) (j : Nat) : Prop :=
  (t.Columns[j]?.map fun r => r.IsMarked) = some true

/-- The row `i` is the only row of the table with a mark in the column `j`. -/
def onlyRowMarking (t : Table) (i j : Nat) : Prop :=
  i < t.Rows.length ∧ t.mark i j = some true ∧
    ∀ k, k < t.Rows.length → k ≠ i → t.mark k j = some false

/-- From the words of the specification: the term of the `n`-digit zero-padded
binary representation of `i`, most significant digit first; the position `k` is
`True` when the digit is 1 and `False` when it is 0. -/
def binaryTerm (n i : Nat) : Term :=
  (List.range n).map fun k => if (i / 2 ^ (n - 1 - k)) % 2 = 1 then Bit.True else Bit.False

/-- The truth table of scenario C, exclusive or of two variables. -/
def xorTable : List Int := [0, 1, 1, 0]

/-- The minterms `01` and `10` of `xorTable`, in the order of their indices. -/
def xorMinterms : List Term := [[Bit.False, Bit.True], [Bit.True, Bit.False]]

/-- The truth table of scenario D, the tautology of two variables. -/
def tautologyTable : List Int := [1, 1, 1, 1]

/-- The term of length 2 with both positions absent. -/
def allAbsent : Term := [Bit.Tilde, Bit.Tilde]

/-- From the words of the specification: the row set `rows` (a list without
repetition of valid row indices) is a candidate of `Step5` on the table `t` with
the essential rows `e`: it is the set of all rows, or, for some `k` with
`1 ≤ k < R - E`, the rows of `e` together with `k` non-essential rows, and it
passes `IsRowsCovers`. -/
def isCandidate (t : Table) (e rows : List Nat) : Prop :=
  rows.Nodup ∧ (∀ i ∈ rows, i < t.Rows.length) ∧
    ((∀ i, i < t.Rows.length → i ∈ rows) ∨
      ∃ k, 1 ≤ k ∧ k < t.Rows.length - e.length ∧ (∀ i ∈ e, i ∈ rows) ∧
        rows.length = e.length + k ∧ t.IsRowsCovers rows = some true)

/-- A table of one row, the term `longTerm`, and no column. -/
def longTable : Table :=
  { Columns := [], Rows := [{ Term := longTerm, IsMarked := false }], Marks := [[]] }

/-- The bytes a Go program can address on the 64-bit platforms, where a heap
address has 48 bits: a bound for everything a run holds in memory at once. -/
def heapBytes : Nat := 2 ^ 48

/-- The bytes of a truth table of type `[]int`: 8 for every entry. -/
def vectorBytes (f : List Int) : Nat := 8 * f.length

/-- The bytes of the marks that `NewTable` allocates for the rows `prime` and
the columns `source`: one `bool` for every row and column. -/
def tableBytes (prime source : List Term) : Nat := prime.length * source.length

/-! ## Facts about the term model -/

theorem Covers_cons (x y : Bit) (xs ys : Term) :
    Term.Covers (x :: xs) (y :: ys) = ((x == Bit.Tilde || x == y) && Term.Covers xs ys) := by
  unfold Term.Covers
  by_cases h : xs.length = ys.length <;> simp [h]

theorem Covers_nil_left (b : Term) : Term.Covers [] b = decide (b = []) := by
  cases b <;> simp [Term.Covers]

theorem Covers_nil_right (a : Term) : Term.Covers a [] = decide (a = []) := by
  cases a <;> simp [Term.Covers]

theorem Covers_length {a b : Term} (h : Term.Covers a b = true) : a.length = b.length := by
  unfold Term.Covers at h
  by_contra hne
  simp [hne] at h

theorem Covers_refl (a : Term) : Term.Covers a a = true := by
  induction a with
  | nil => simp [Covers_nil_left]
  | cons x xs ih => simp [Covers_cons, ih]

theorem Covers_trans {a b c : Term} (hab : Term.Covers a b = true) (hbc : Term.Covers b c = true) :
    Term.Covers a c = true := by
  induction a generalizing b c with
  | nil =>
    cases b with
    | nil => exact hbc
    | cons y ys => simp [Covers_nil_left] at hab
  | cons x xs ih =>
    cases b with
    | nil => simp [Covers_nil_right] at hab
    | cons y ys =>
      cases c with
      | nil => simp [Covers_nil_right] at hbc
      | cons z zs =>
        simp only [Covers_cons, Bool.and_eq_true, Bool.or_eq_true, beq_iff_eq] at hab hbc ⊢
        refine ⟨?_, ih hab.2 hbc.2⟩
        rcases hab.1 with h | h
        · exact Or.inl h
        · rcases hbc.1 with h2 | h2
          · exact Or.inl (h.trans h2)
          · exact Or.inr (h.trans h2)

theorem Equals_cons (x y : Bit) (xs ys : Term) :
    Term.Equals (x :: xs) (y :: ys) = ((x == y) && Term.Equals xs ys) := by
  unfold Term.Equals
  by_cases h : xs.length = ys.length <;> simp [h]

theorem Equals_iff_eq (a b : Term) : Term.Equals a b = true ↔ a = b := by
  induction a generalizing b with
  | nil => cases b <;> simp [Term.Equals]
  | cons x xs ih =>
    cases b with
    | nil => simp [Term.Equals]
    | cons y ys => simp [Equals_cons, ih]

theorem Covers_antisymm {a b : Term} (hab : Term.Covers a b = true) (hba : Term.Covers b a = true) :
    a = b := by
  induction a generalizing b with
  | nil =>
    cases b with
    | nil => rfl
    | cons y ys => simp [Covers_nil_left] at hab
  | cons x xs ih =>
    cases b with
    | nil => simp [Covers_nil_right] at hab
    | cons y ys =>
      simp only [Covers_cons, Bool.and_eq_true, Bool.or_eq_true, beq_iff_eq] at hab hba
      have hrest := ih hab.2 hba.2
      have hx : x = y := by
        rcases hab.1 with h | h
        · rcases hba.1 with h2 | h2
          · rw [h, h2]
          · exact h2.symm
        · exact h
      rw [hx, hrest]

theorem Covers_iff_get (a b : Term) :
    Term.Covers a b = true ↔
      a.length = b.length ∧
        ∀ (i : Nat) (ha : i < a.length) (hb : i < b.length),
          a[i] ≠ Bit.Tilde → a[i] = b[i] := by
  induction a generalizing b with
  | nil =>
    cases b <;> simp [Covers_nil_left]
  | cons x xs ih =>
    cases b with
    | nil => simp [Covers_nil_right]
    | cons y ys =>
      rw [Covers_cons, Bool.and_eq_true, ih]
      constructor
      · rintro ⟨hx, hl, hrest⟩
        refine ⟨by simp [hl], ?_⟩
        intro i ha hb
        cases i with
        | zero =>
          simp only [List.getElem_cons_zero]
          intro hne
          simp at hx
          rcases hx with hx | hx
          · exact absurd hx hne
          · exact hx
        | succ j =>
          simp only [List.getElem_cons_succ]
          exact hrest j (by simpa using ha) (by simpa using hb)
      · rintro ⟨hl, hall⟩
        refine ⟨?_, by simpa using hl, ?_⟩
        · have := hall 0 (by simp) (by simp)
          simp only [List.getElem_cons_zero] at this
          by_cases hx : x = Bit.Tilde
          · simp [hx]
          · simp [this hx]
        · intro i ha hb
          have := hall (i + 1) (by simpa using ha) (by simpa using hb)
          simpa using this

/-- C9. `a.Covers(b)` is true exactly when the lengths are equal and every
position of `a` that is not absent holds the bit of `b`; on different lengths
the answer is `false` (the function is total, it has no failing branch). -/
theorem Covers_spec (a b : Term) :
    (Term.Covers a b = true ↔
      a.length = b.length ∧
        ∀ (i : Nat) (ha : i < a.length) (hb : i < b.length),
          a[i] ≠ Bit.Tilde → a[i] = b[i]) ∧
      (a.length ≠ b.length → Term.Covers a b = false) := by
  refine ⟨Covers_iff_get a b, ?_⟩
  intro hne
  unfold Term.Covers
  simp [hne]

/-- C10. `Covers` is reflexive, transitive and antisymmetric (two terms that
cover each other are `Equals`), and it is not symmetric. -/
theorem Covers_partial_order :
    (∀ a : Term, Term.Covers a a = true) ∧
      (∀ a b c : Term, Term.Covers a b = true → Term.Covers b c = true →
        Term.Covers a c = true) ∧
      (∀ a b : Term, Term.Covers a b = true → Term.Covers b a = true →
        Term.Equals a b = true) ∧
      (∃ a b : Term, Term.Covers a b = true ∧ Term.Covers b a = false) := by
  refine ⟨Covers_refl, fun a b c => Covers_trans, ?_, ?_⟩
  · intro a b hab hba
    exact (Equals_iff_eq a b).2 (Covers_antisymm hab hba)
  · exact ⟨[Bit.Tilde], [Bit.True], by decide, by decide⟩

theorem Distance_cons (x y : Bit) (xs ys : Term) :
    Term.Distance (x :: xs) (y :: ys) =
      (Term.Distance xs ys).map fun d => if x = y then d else d + 1 := by
  unfold Term.Distance
  by_cases h : xs.length = ys.length
  · by_cases hxy : x = y <;> simp [h, hxy, List.countP_cons]
  · simp [h]

theorem Distance_eq_some_length {a b : Term} {d : Nat} (h : Term.Distance a b = some d) :
    a.length = b.length := by
  unfold Term.Distance at h
  by_contra hne
  simp [hne] at h

theorem Distance_of_length {a b : Term} (h : a.length = b.length) :
    ∃ d, Term.Distance a b = some d := by
  unfold Term.Distance
  simp [h]

theorem Distance_eq_zero {a b : Term} (h : Term.Distance a b = some 0) : a = b := by
  induction a generalizing b with
  | nil =>
    cases b with
    | nil => rfl
    | cons y ys => simp [Term.Distance] at h
  | cons x xs ih =>
    cases b with
    | nil => simp [Term.Distance] at h
    | cons y ys =>
      rw [Distance_cons] at h
      cases hd : Term.Distance xs ys with
      | none => simp [hd] at h
      | some d =>
        by_cases hxy : x = y
        · simp [hd, hxy] at h
          rw [hxy, ih (h ▸ hd)]
        · simp [hd, hxy] at h

theorem Distance_self (a : Term) : Term.Distance a a = some 0 := by
  induction a with
  | nil => simp [Term.Distance]
  | cons x xs ih => simp [Distance_cons, ih]

/-- Two terms at distance 1 agree everywhere but at one position. -/
theorem Distance_eq_one {a b : Term} (h : Term.Distance a b = some 1) :
    ∃ (pre post : Term) (x y : Bit), a = pre ++ x :: post ∧ b = pre ++ y :: post ∧ x ≠ y := by
  induction a generalizing b with
  | nil =>
    cases b with
    | nil => simp [Term.Distance] at h
    | cons y ys => simp [Term.Distance] at h
  | cons x xs ih =>
    cases b with
    | nil => simp [Term.Distance] at h
    | cons y ys =>
      rw [Distance_cons] at h
      cases hd : Term.Distance xs ys with
      | none => simp [hd] at h
      | some d =>
        by_cases hxy : x = y
        · simp [hd, hxy] at h
          obtain ⟨pre, post, u, v, h1, h2, h3⟩ := ih (h ▸ hd)
          exact ⟨y :: pre, post, u, v, by simp [hxy, h1], by simp [h2], h3⟩
        · simp [hd, hxy] at h
          have := Distance_eq_zero (h ▸ hd)
          exact ⟨[], xs, x, y, by simp, by simp [this], hxy⟩

theorem Distance_append_cons (pre post : Term) (x y : Bit) :
    Term.Distance (pre ++ x :: post) (pre ++ y :: post) = some (if x = y then 0 else 1) := by
  induction pre with
  | nil => simp [Distance_cons, Distance_self]
  | cons z zs ih => simp [Distance_cons, ih]

theorem firstDifferent_append_cons (pre post post2 : Term) (x y : Bit) (hxy : x ≠ y) (i : Nat) :
    firstDifferent (pre ++ x :: post) (pre ++ y :: post2) i = ((i + pre.length : Nat) : Int) := by
  induction pre generalizing i with
  | nil => simp [firstDifferent, hxy]
  | cons z zs ih =>
    have h1 : firstDifferent (z :: zs ++ x :: post) (z :: zs ++ y :: post2) i
        = firstDifferent (zs ++ x :: post) (zs ++ y :: post2) (i + 1) := by
      simp [firstDifferent]
    rw [h1, ih (i + 1)]
    congr 1
    simp only [List.length_cons]
    omega

theorem Weight_append_cons (pre post : Term) (x : Bit) :
    Term.Weight (pre ++ x :: post) =
      Term.Weight pre + (if x = Bit.True then 1 else 0) + Term.Weight post := by
  unfold Term.Weight
  by_cases hx : x = Bit.True
  · simp [List.countP_append, List.countP_cons, hx]
    omega
  · simp [List.countP_append, List.countP_cons, hx]

theorem absentCount_append_cons (pre post : Term) (x : Bit) :
    absentCount (pre ++ x :: post) =
      absentCount pre + (if x = Bit.Tilde then 1 else 0) + absentCount post := by
  unfold absentCount
  by_cases hx : x = Bit.Tilde
  · simp [List.countP_append, List.countP_cons, hx]
    omega
  · simp [List.countP_append, List.countP_cons, hx]

theorem absentCount_le_length (t : Term) : absentCount t ≤ t.length := by
  unfold absentCount
  exact List.countP_le_length _

theorem mergeTerm_append_cons (pre post : Term) (x y : Bit) (hxy : x ≠ y) :
    mergeTerm (pre ++ x :: post) (pre ++ y :: post) = pre ++ Bit.Tilde :: post := by
  unfold mergeTerm Term.DifferentBitIndex
  simp only [List.length_append, List.length_cons, ne_eq, not_true_eq_false, if_false,
    firstDifferent_append_cons pre post post x y hxy 0, Nat.zero_add]
  show (pre ++ x :: post).set pre.length Bit.Tilde = _
  simp

/-- The shape of a merged pair: the terms agree but at one position, where the
second has `True` and the first has `False` or is absent. -/
theorem mergeable_iff (a b : Term) :
    mergeable a b = true ↔
      ∃ (pre post : Term) (x : Bit),
        a = pre ++ x :: post ∧ b = pre ++ Bit.True :: post ∧ x ≠ Bit.True := by
  unfold mergeable
  simp only [Bool.and_eq_true, decide_eq_true_eq, beq_iff_eq]
  constructor
  · rintro ⟨hw, hd⟩
    obtain ⟨pre, post, x, y, ha, hb, hxy⟩ := Distance_eq_one hd
    subst ha hb
    rw [Weight_append_cons, Weight_append_cons] at hw
    have hy : y = Bit.True := by
      by_contra hy
      simp only [hy, if_false] at hw
      split at hw <;> omega
    subst hy
    exact ⟨pre, post, x, rfl, rfl, hxy⟩
  · rintro ⟨pre, post, x, ha, hb, hx⟩
    subst ha hb
    rw [Weight_append_cons, Weight_append_cons, Distance_append_cons]
    simp [hx]
    omega

theorem Covers_append (p1 p2 s1 s2 : Term) (h : p1.length = p2.length) :
    Term.Covers (p1 ++ s1) (p2 ++ s2) = (Term.Covers p1 p2 && Term.Covers s1 s2) := by
  induction p1 generalizing p2 with
  | nil =>
    cases p2 with
    | nil => simp [Covers_nil_left]
    | cons y ys => simp at h
  | cons x xs ih =>
    cases p2 with
    | nil => simp at h
    | cons y ys =>
      simp only [List.cons_append, Covers_cons, ih ys (by simpa using h), Bool.and_assoc]

theorem mergeTerm_covers {a b : Term} (h : mergeable a b = true) :
    Term.Covers (mergeTerm a b) a = true ∧ Term.Covers (mergeTerm a b) b = true := by
  obtain ⟨pre, post, x, ha, hb, hx⟩ := (mergeable_iff a b).1 h
  subst ha hb
  rw [mergeTerm_append_cons pre post x Bit.True hx]
  simp [Covers_append, Covers_cons, Covers_refl]

theorem mergeTerm_length {a b : Term} (h : mergeable a b = true) :
    (mergeTerm a b).length = a.length := by
  obtain ⟨pre, post, x, ha, hb, hx⟩ := (mergeable_iff a b).1 h
  subst ha hb
  rw [mergeTerm_append_cons pre post x Bit.True hx]
  simp

theorem mergeable_length {a b : Term} (h : mergeable a b = true) : a.length = b.length := by
  obtain ⟨pre, post, x, ha, hb, _⟩ := (mergeable_iff a b).1 h
  subst ha hb
  simp

theorem mergeTerm_absentCount {a b : Term} (h : mergeable a b = true) :
    absentCount (mergeTerm a b) = absentCount b + 1 := by
  obtain ⟨pre, post, x, ha, hb, hx⟩ := (mergeable_iff a b).1 h
  subst ha hb
  rw [mergeTerm_append_cons pre post x Bit.True hx]
  simp [absentCount_append_cons]
  omega

/-! ## Closed forms of the loops of `Step1` -/

theorem DifferentBitIndex_of_distanceOne {a b : Term} (h : distanceOne a b = true) :
    ∃ k, Term.DifferentBitIndex a b = some (Int.ofNat k) ∧ k < a.length ∧
      a.set k Bit.Tilde = mergeTerm a b := by
  unfold distanceOne at h
  obtain ⟨pre, post, x, y, ha, hb, hxy⟩ := Distance_eq_one (by simpa using h)
  subst ha hb
  refine ⟨pre.length, ?_, by simp, ?_⟩
  · unfold Term.DifferentBitIndex
    simp [firstDifferent_append_cons pre post post x y hxy 0]
  · rw [mergeTerm_append_cons pre post x y hxy]
    simp

theorem raiseMark_Term (flag : Bool) (x : GroupItem) : (raiseMark flag x).Term = x.Term := rfl

theorem raiseMark_raiseMark (f1 f2 : Bool) (x : GroupItem) :
    raiseMark f2 (raiseMark f1 x) = raiseMark (f1 || f2) x := by
  simp [raiseMark, Bool.or_assoc]

theorem raiseMark_false (x : GroupItem) : raiseMark false x = x := by
  simp [raiseMark]

theorem glueRow_eq (x : GroupItem) (b : List GroupItem)
    (hlen : ∀ y ∈ b, y.Term.length = x.Term.length) :
    glueRow x b =
      some (raiseMark (b.any fun y => distanceOne x.Term y.Term) x,
        b.map (fun y => raiseMark (distanceOne x.Term y.Term) y),
        (b.filter fun y => distanceOne x.Term y.Term).map fun y => mergeTerm x.Term y.Term) := by
  induction b generalizing x with
  | nil => simp [glueRow, raiseMark_false]
  | cons y ys ih =>
    have hy : y.Term.length = x.Term.length := hlen y (by simp)
    have hys : ∀ z ∈ ys, z.Term.length = x.Term.length := fun z hz => hlen z (by simp [hz])
    obtain ⟨d, hd⟩ := Distance_of_length hy.symm
    by_cases h1 : d = 1
    · subst h1
      have hone : distanceOne x.Term y.Term = true := by simp [distanceOne, hd]
      obtain ⟨k, hk, hklt, hset⟩ := DifferentBitIndex_of_distanceOne hone
      have := ih { x with IsGlued := true } hys
      simp only [glueRow, hd, hk, hklt, if_true, this, hone, List.any_cons, List.map_cons,
        List.filter_cons, hset]
      simp [raiseMark]
    · have hone : distanceOne x.Term y.Term = false := by simp [distanceOne, hd, h1]
      have := ih x hys
      simp only [glueRow, hd, h1, if_false, this, hone, List.any_cons, List.map_cons,
        List.filter_cons, raiseMark_false]
      simp

theorem GlueGroups_eq (a b : List GroupItem)
    (hlen : ∀ x ∈ a, ∀ y ∈ b, y.Term.length = x.Term.length) :
    GlueGroups a b =
      some (a.map (fun x => raiseMark (b.any fun y => distanceOne x.Term y.Term) x),
        b.map (fun y => raiseMark (a.any fun x => distanceOne x.Term y.Term) y),
        gluedOf a b) := by
  induction a generalizing b with
  | nil => simp [GlueGroups, gluedOf, raiseMark_false]
  | cons x xs ih =>
    have hx : ∀ y ∈ b, y.Term.length = x.Term.length := fun y hy => hlen x (by simp) y hy
    have hxs : ∀ x1 ∈ xs, ∀ y ∈ b.map (fun y => raiseMark (distanceOne x.Term y.Term) y),
        y.Term.length = x1.Term.length := by
      intro x1 hx1 y hy
      obtain ⟨y0, hy0, rfl⟩ := List.mem_map.1 hy
      exact hlen x1 (by simp [hx1]) y0 hy0
    simp only [GlueGroups, glueRow_eq x b hx, ih _ hxs]
    simp [gluedOf, List.any_map, List.filter_map, Function.comp_def, raiseMark_Term,
      raiseMark_raiseMark]

theorem Groups.ext_iff2 (g h : Groups) (hk : g.keys = h.keys) (hi : ∀ k, g.items k = h.items k) :
    g = h := by
  cases g
  cases h
  simp only [Groups.mk.injEq]
  exact ⟨hk, funext hi⟩

theorem foldl_add_eq (impls : List Term) (g : Groups) :
    impls.foldl (fun g term => g.add (Term.Weight term) (NewGroupItem term)) g =
      { keys := impls.foldl (fun ks t => insertKey ks (Term.Weight t)) g.keys
        items := fun k => g.items k ++ (ofWeight impls k).map NewGroupItem } := by
  induction impls generalizing g with
  | nil =>
    apply Groups.ext_iff2 <;> simp [ofWeight]
  | cons t ts ih =>
    rw [List.foldl_cons, ih]
    apply Groups.ext_iff2
    · simp [Groups.add]
    · intro k
      by_cases hk : k = Term.Weight t
      · subst hk
        simp [Groups.add, ofWeight, List.filter_cons]
      · have hk2 : ¬ Term.Weight t = k := fun h => hk h.symm
        simp [Groups.add, ofWeight, List.filter_cons, hk, hk2]

theorem GroupByWeight_eq (impls : List Term) :
    GroupByWeight impls = markedGroups impls (weightKeys impls) (fun _ _ => false) := by
  unfold GroupByWeight
  by_cases h : impls.length = 0
  · have : impls = [] := List.length_eq_zero.1 h
    subst this
    apply Groups.ext_iff2 <;> simp [Groups.empty, markedGroups, weightKeys, ofWeight]
  · rw [if_neg h, foldl_add_eq]
    apply Groups.ext_iff2
    · simp [Groups.empty, markedGroups, weightKeys]
    · intro k
      simp [Groups.empty, markedGroups, NewGroupItem]

theorem mem_foldl_insertKey (ws : List Nat) (acc : List Nat) (k : Nat) :
    k ∈ ws.foldl insertKey acc ↔ k ∈ acc ∨ k ∈ ws := by
  induction ws generalizing acc with
  | nil => simp
  | cons w ws ih =>
    rw [List.foldl_cons, ih]
    unfold insertKey
    by_cases hw : w ∈ acc
    · simp only [hw, if_true, List.mem_cons]
      constructor
      · rintro (h | h)
        · exact Or.inl h
        · exact Or.inr (Or.inr h)
      · rintro (h | h | h)
        · exact Or.inl h
        · exact Or.inl (h ▸ hw)
        · exact Or.inr h
    · simp only [hw, if_false, List.mem_append, List.mem_singleton, List.mem_cons]
      tauto

theorem nodup_foldl_insertKey (ws : List Nat) (acc : List Nat) (h : acc.Nodup) :
    (ws.foldl insertKey acc).Nodup := by
  induction ws generalizing acc with
  | nil => simpa using h
  | cons w ws ih =>
    rw [List.foldl_cons]
    apply ih
    unfold insertKey
    by_cases hw : w ∈ acc
    · simpa [hw] using h
    · simp only [hw, if_false]
      rw [List.nodup_append]
      refine ⟨h, by simp, ?_⟩
      intro a ha hb
      simp at hb
      exact hw (hb ▸ ha)

theorem weightKeys_eq (impls : List Term) :
    weightKeys impls = (impls.map Term.Weight).foldl insertKey [] := by
  unfold weightKeys
  rw [List.foldl_map]

theorem mem_weightKeys (impls : List Term) (k : Nat) :
    k ∈ weightKeys impls ↔ ∃ t ∈ impls, Term.Weight t = k := by
  rw [weightKeys_eq, mem_foldl_insertKey]
  simp

theorem nodup_weightKeys (impls : List Term) : (weightKeys impls).Nodup := by
  rw [weightKeys_eq]
  exact nodup_foldl_insertKey _ _ List.nodup_nil

theorem gluedOf_map (as bs : List Term) (f g : Term → Bool) :
    gluedOf (as.map fun t => { Term := t, IsGlued := f t })
        (bs.map fun t => { Term := t, IsGlued := g t }) =
      termsGlued as bs := by
  simp [gluedOf, termsGlued, List.flatMap_map, List.filter_map, Function.comp_def]

theorem mem_ofWeight {impls : List Term} {k : Nat} {t : Term} :
    t ∈ ofWeight impls k ↔ t ∈ impls ∧ Term.Weight t = k := by
  simp [ofWeight]

theorem any_marked (l : List Term) (g : Term → Bool) (p : Term → Bool) :
    ((l.map fun t => ({ Term := t, IsGlued := g t } : GroupItem)).any fun y => p y.Term) =
      l.any p := by
  induction l with
  | nil => rfl
  | cons t ts ih => simp [ih]

theorem glueStep_eq (impls : List Term) (keys : List Nat) (flag : Nat → Term → Bool)
    (glued : List Term) (v n : Nat) (hlen : ∀ t ∈ impls, t.length = n) :
    glueStep (markedGroups impls keys flag) glued v =
      some (markedGroups impls keys (fun k t => flag k t || stepFlag impls keys v k t),
        glued ++ stepGlued impls keys v) := by
  cases v with
  | zero =>
    simp [glueStep, stepFlag, stepGlued]
  | succ w =>
    by_cases hw : w ∈ keys
    · have hl : ∀ x ∈ (markedGroups impls keys flag).items w,
          ∀ y ∈ (markedGroups impls keys flag).items (w + 1),
            y.Term.length = x.Term.length := by
        intro x hx y hy
        simp only [markedGroups, List.mem_map] at hx hy
        obtain ⟨tx, htx, rfl⟩ := hx
        obtain ⟨ty, hty, rfl⟩ := hy
        simp only
        rw [hlen tx (mem_ofWeight.1 htx).1, hlen ty (mem_ofWeight.1 hty).1]
      have hg := GlueGroups_eq _ _ hl
      simp only [glueStep, markedGroups] at hg ⊢
      simp only [hw, if_true, hg]
      simp only [Option.some.injEq, Prod.mk.injEq]
      refine ⟨?_, ?_⟩
      · apply Groups.ext_iff2
        · rfl
        · intro k
          by_cases h1 : k = w
          · subst h1
            have hne : (k == k + 1) = false := by simp
            simp only [if_true, List.map_map, stepFlag, hw, decide_True, Bool.true_and,
              beq_self_eq_true, hne, Bool.false_and, Bool.or_false]
            apply List.map_congr_left
            intro t _
            simp only [Function.comp, raiseMark]
            rw [any_marked _ _ (fun y => distanceOne t y)]
          · by_cases h2 : k = w + 1
            · subst h2
              have hne : (w + 1 == w) = false := by simp
              simp only [h1, if_false, if_true, List.map_map, stepFlag, hw, decide_True,
                Bool.true_and, beq_self_eq_true, hne, Bool.false_and, Bool.false_or]
              apply List.map_congr_left
              intro t _
              simp only [Function.comp, raiseMark]
              rw [any_marked _ _ (fun x => distanceOne x t)]
            · simp [stepFlag, hw, h1, h2]
      · simp only [stepGlued, hw, if_true]
        rw [← gluedOf_map]
    · simp [glueStep, stepFlag, stepGlued, markedGroups, hw]

theorem glueLoop_eq (impls : List Term) (keys : List Nat) (flag : Nat → Term → Bool)
    (glued : List Term) (vs : List Nat) (n : Nat) (hlen : ∀ t ∈ impls, t.length = n) :
    glueLoop (markedGroups impls keys flag) glued vs =
      some (markedGroups impls keys
          (fun k t => flag k t || vs.any fun v => stepFlag impls keys v k t),
        glued ++ vs.flatMap (stepGlued impls keys)) := by
  induction vs generalizing flag glued with
  | nil => simp [glueLoop]
  | cons v vs ih =>
    simp only [glueLoop, glueStep_eq impls keys flag glued v n hlen, ih]
    simp [Bool.or_assoc]

theorem unaffectedTerms_marked (impls : List Term) (keys : List Nat)
    (flag : Nat → Term → Bool) (visited : List Nat) :
    unaffectedTerms (markedGroups impls keys flag) visited =
      visited.flatMap fun w => (ofWeight impls w).filter fun t => !flag w t := by
  simp only [unaffectedTerms, markedGroups]
  congr 1
  funext w
  simp [List.filter_map, Function.comp_def, List.map_map]

/-- One call of `Step1` on terms of one length: it returns its argument when the
first loop emitted nothing, and otherwise calls itself on `nextImpls`. -/
theorem Step1Fuel_succ (ord : Nat → MapOrder) (fuel : Nat) (impls : List Term) (n : Nat)
    (hlen : ∀ t ∈ impls, t.length = n) :
    Step1Fuel ord (fuel + 1) impls =
      if (gluedTerms (ord 0) impls).length = 0 then Run.done impls
      else Step1Fuel (fun k => ord (k + 2)) fuel (nextImpls (ord 0) (ord 1) impls) := by
  have h := glueLoop_eq impls (weightKeys impls) (fun _ _ => false) []
    ((ord 0).visit (weightKeys impls)) n hlen
  have hk : (markedGroups impls (weightKeys impls) fun _ _ => false).keys = weightKeys impls :=
    rfl
  simp only [Step1Fuel, GroupByWeight_eq, hk, h, unaffectedTerms_marked]
  simp only [List.nil_append, Bool.false_or]
  rfl

theorem mem_termsGlued {as bs : List Term} {t : Term} :
    t ∈ termsGlued as bs ↔ ∃ a ∈ as, ∃ b ∈ bs, distanceOne a b = true ∧ t = mergeTerm a b := by
  simp only [termsGlued, List.mem_flatMap, List.mem_map, List.mem_filter]
  constructor
  · rintro ⟨a, ha, b, ⟨hb, hd⟩, rfl⟩
    exact ⟨a, ha, b, hb, hd, rfl⟩
  · rintro ⟨a, ha, b, hb, hd, rfl⟩
    exact ⟨a, ha, b, ⟨hb, hd⟩, rfl⟩

theorem mergeable_eq (a b : Term) :
    mergeable a b = (decide (Term.Weight b = Term.Weight a + 1) && distanceOne a b) := rfl

theorem mem_visit (o : MapOrder) (ks : List Nat) (k : Nat) : k ∈ o.visit ks ↔ k ∈ ks :=
  (o.perm ks).mem_iff

/-- The terms emitted by the first loop of `Step1` are the merges of the
mergeable pairs, whatever the order of the keys. -/
theorem mem_gluedTerms (o : MapOrder) (impls : List Term) (t : Term) :
    t ∈ gluedTerms o impls ↔
      ∃ a ∈ impls, ∃ b ∈ impls, mergeable a b = true ∧ t = mergeTerm a b := by
  simp only [gluedTerms, List.mem_flatMap, mem_visit]
  constructor
  · rintro ⟨v, _, ht⟩
    cases v with
    | zero => simp [stepGlued] at ht
    | succ w =>
      by_cases hw : w ∈ weightKeys impls
      · simp only [stepGlued, hw, if_true] at ht
        obtain ⟨a, ha, b, hb, hd, rfl⟩ := mem_termsGlued.1 ht
        obtain ⟨ha1, ha2⟩ := mem_ofWeight.1 ha
        obtain ⟨hb1, hb2⟩ := mem_ofWeight.1 hb
        refine ⟨a, ha1, b, hb1, ?_, rfl⟩
        simp [mergeable_eq, hd, ha2, hb2]
      · simp [stepGlued, hw] at ht
  · rintro ⟨a, ha, b, hb, hm, rfl⟩
    rw [mergeable_eq] at hm
    simp only [Bool.and_eq_true, decide_eq_true_eq] at hm
    refine ⟨Term.Weight a + 1, (mem_weightKeys impls _).2 ⟨b, hb, hm.1⟩, ?_⟩
    have hw : Term.Weight a ∈ weightKeys impls := (mem_weightKeys impls _).2 ⟨a, ha, rfl⟩
    simp only [stepGlued, hw, if_true]
    exact mem_termsGlued.2
      ⟨a, mem_ofWeight.2 ⟨ha, rfl⟩, b, mem_ofWeight.2 ⟨hb, hm.1⟩, hm.2, rfl⟩

/-- The mark of a term after the first loop of `Step1`: it has a partner. -/
theorem finalFlag_eq (o : MapOrder) (impls : List Term) (t : Term) (ht : t ∈ impls) :
    finalFlag o impls (Term.Weight t) t = hasPartner impls t := by
  rw [Bool.eq_iff_iff]
  simp only [finalFlag, hasPartner, List.any_eq_true, mem_visit, Bool.or_eq_true]
  constructor
  · rintro ⟨v, _, hf⟩
    cases v with
    | zero => simp [stepFlag] at hf
    | succ w =>
      simp only [stepFlag, Bool.and_eq_true, decide_eq_true_eq, Bool.or_eq_true, beq_iff_eq,
        List.any_eq_true] at hf
      obtain ⟨_, hf⟩ := hf
      rcases hf with ⟨hk, y, hy, hd⟩ | ⟨hk, x, hx, hd⟩
      · obtain ⟨hy1, hy2⟩ := mem_ofWeight.1 hy
        exact ⟨y, hy1, Or.inl (by simp [mergeable_eq, hd, hy2, hk])⟩
      · obtain ⟨hx1, hx2⟩ := mem_ofWeight.1 hx
        exact ⟨x, hx1, Or.inr (by simp [mergeable_eq, hd, hx2, hk])⟩
  · rintro ⟨y, hy, hm | hm⟩
    · rw [mergeable_eq] at hm
      simp only [Bool.and_eq_true, decide_eq_true_eq] at hm
      refine ⟨Term.Weight t + 1, (mem_weightKeys impls _).2 ⟨y, hy, hm.1⟩, ?_⟩
      have hw : Term.Weight t ∈ weightKeys impls := (mem_weightKeys impls _).2 ⟨t, ht, rfl⟩
      simp only [stepFlag, hw, decide_True, Bool.true_and, beq_self_eq_true, Bool.or_eq_true,
        List.any_eq_true]
      exact Or.inl ⟨y, mem_ofWeight.2 ⟨hy, hm.1⟩, hm.2⟩
    · rw [mergeable_eq] at hm
      simp only [Bool.and_eq_true, decide_eq_true_eq] at hm
      refine ⟨Term.Weight y + 1, (mem_weightKeys impls _).2 ⟨t, ht, hm.1⟩, ?_⟩
      have hw : Term.Weight y ∈ weightKeys impls := (mem_weightKeys impls _).2 ⟨y, hy, rfl⟩
      simp only [stepFlag, hw, decide_True, Bool.true_and, Bool.or_eq_true, Bool.and_eq_true,
        beq_iff_eq, List.any_eq_true]
      exact Or.inr ⟨hm.1, y, mem_ofWeight.2 ⟨hy, rfl⟩, hm.2⟩

theorem flatMap_ofWeight_perm (ks : List Nat) (l : List Term) (hnd : ks.Nodup)
    (hall : ∀ t ∈ l, Term.Weight t ∈ ks) : (ks.flatMap (ofWeight l)).Perm l := by
  induction ks generalizing l with
  | nil =>
    cases l with
    | nil => simp
    | cons t ts => simpa using hall t (by simp)
  | cons k ks ih =>
    rw [List.flatMap_cons]
    have hk : k ∉ ks := (List.nodup_cons.1 hnd).1
    have hrest : ks.flatMap (ofWeight l)
        = ks.flatMap (ofWeight (l.filter fun t => !(Term.Weight t == k))) := by
      apply List.flatMap_congr
      intro w hw
      have hwk : w ≠ k := fun h => hk (h ▸ hw)
      simp only [ofWeight, List.filter_filter]
      apply List.filter_congr
      intro t _
      by_cases htw : Term.Weight t = w
      · simp [htw, hwk]
      · simp [htw]
    rw [hrest]
    have hih := ih (l.filter fun t => !(Term.Weight t == k)) (List.nodup_cons.1 hnd).2 (by
      intro t ht
      simp only [List.mem_filter, Bool.not_eq_true', beq_eq_false_iff_ne, ne_eq] at ht
      have := hall t ht.1
      simp only [List.mem_cons] at this
      rcases this with h | h
      · exact absurd h ht.2
      · exact h)
    exact (List.Perm.append_left _ hih).trans (List.filter_append_perm _ l)

theorem unaffectedOf_perm (o0 o1 : MapOrder) (impls : List Term) :
    (unaffectedOf o0 o1 impls).Perm (impls.filter fun t => !hasPartner impls t) := by
  have h1 : unaffectedOf o0 o1 impls =
      (o1.visit (weightKeys impls)).flatMap
        (ofWeight (impls.filter fun t => !hasPartner impls t)) := by
    unfold unaffectedOf
    apply List.flatMap_congr
    intro w _
    simp only [ofWeight, List.filter_filter]
    apply List.filter_congr
    intro t ht
    by_cases htw : Term.Weight t = w
    · subst htw
      rw [finalFlag_eq o0 impls t ht, Bool.and_comm]
    · have h2 : (Term.Weight t == w) = false := by simpa using htw
      rw [h2]
      simp
  rw [h1]
  apply flatMap_ofWeight_perm
  · exact (o1.perm _).nodup_iff.2 (nodup_weightKeys impls)
  · intro t ht
    rw [mem_visit]
    exact (mem_weightKeys impls _).2 ⟨t, (List.mem_filter.1 ht).1, rfl⟩

theorem mem_unaffectedOf (o0 o1 : MapOrder) (impls : List Term) (t : Term) :
    t ∈ unaffectedOf o0 o1 impls ↔ t ∈ impls ∧ hasPartner impls t = false := by
  rw [(unaffectedOf_perm o0 o1 impls).mem_iff]
  simp

/-- `MakeUniqueSet` keeps the terms of its argument, each once, as a sublist. -/
theorem MakeUniqueSet_spec (terms : List Term) :
    (MakeUniqueSet terms).Sublist terms ∧ (MakeUniqueSet terms).Nodup ∧
      ∀ t, t ∈ MakeUniqueSet terms ↔ t ∈ terms := by
  have key : ∀ (l acc : List Term), acc.Nodup →
      ∃ r, l.foldl (fun uniqueSet term =>
          if uniqueSet.any (fun termInSet => Term.Equals termInSet term) then uniqueSet
          else uniqueSet ++ [term]) acc = acc ++ r ∧
        r.Sublist l ∧ (acc ++ r).Nodup ∧ ∀ t, t ∈ r → t ∈ l := by
    intro l
    induction l with
    | nil =>
      intro acc hacc
      exact ⟨[], by simp, by simp, by simpa using hacc, by simp⟩
    | cons x xs ih =>
      intro acc hacc
      rw [List.foldl_cons]
      by_cases hx : x ∈ acc
      · have hany : (acc.any fun termInSet => Term.Equals termInSet x) = true := by
          rw [List.any_eq_true]
          exact ⟨x, hx, (Equals_iff_eq x x).2 rfl⟩
        rw [if_pos hany]
        obtain ⟨r, h1, h2, h3, h4⟩ := ih acc hacc
        exact ⟨r, h1, h2.trans (List.sublist_cons_self x xs), h3,
          fun t ht => List.mem_cons_of_mem _ (h4 t ht)⟩
      · have hany : ¬ (acc.any fun termInSet => Term.Equals termInSet x) = true := by
          rw [List.any_eq_true]
          rintro ⟨y, hy, he⟩
          exact hx ((Equals_iff_eq y x).1 he ▸ hy)
        rw [if_neg hany]
        have hnd : (acc ++ [x]).Nodup := by
          rw [List.nodup_append]
          refine ⟨hacc, by simp, ?_⟩
          intro a ha hb
          simp at hb
          exact hx (hb ▸ ha)
        obtain ⟨r, h1, h2, h3, h4⟩ := ih (acc ++ [x]) hnd
        refine ⟨x :: r, by rw [h1]; simp, h2.cons₂ x, by simpa using h3, ?_⟩
        intro t ht
        rcases List.mem_cons.1 ht with h | h
        · simp [h]
        · exact List.mem_cons_of_mem _ (h4 t h)
  have key2 : ∀ (l acc : List Term) (t : Term), t ∈ acc ∨ t ∈ l →
      t ∈ l.foldl (fun uniqueSet term =>
          if uniqueSet.any (fun termInSet => Term.Equals termInSet term) then uniqueSet
          else uniqueSet ++ [term]) acc := by
    intro l
    induction l with
    | nil => intro acc t h; simpa using h
    | cons x xs ih =>
      intro acc t h
      rw [List.foldl_cons]
      apply ih
      by_cases hany : (acc.any fun termInSet => Term.Equals termInSet x) = true
      · rw [if_pos hany]
        rcases h with h | h
        · exact Or.inl h
        · rcases List.mem_cons.1 h with h | h
          · rw [List.any_eq_true] at hany
            obtain ⟨y, hy, he⟩ := hany
            exact Or.inl (h ▸ (Equals_iff_eq y x).1 he ▸ hy)
          · exact Or.inr h
      · rw [if_neg hany]
        rcases h with h | h
        · exact Or.inl (by simp [h])
        · rcases List.mem_cons.1 h with h | h
          · exact Or.inl (by simp [h])
          · exact Or.inr h
  obtain ⟨r, h1, h2, h3, h4⟩ := key terms [] List.nodup_nil
  unfold MakeUniqueSet
  rw [h1]
  simp only [List.nil_append] at h3 ⊢
  refine ⟨h2, h3, fun t => ⟨h4 t, fun ht => ?_⟩⟩
  have := key2 terms [] t (Or.inr ht)
  rw [h1] at this
  simpa using this

/-! ## Runs of `Step1` -/

theorem mem_nextImpls (o0 o1 : MapOrder) (impls : List Term) (t : Term) :
    t ∈ nextImpls o0 o1 impls ↔
      (t ∈ impls ∧ hasPartner impls t = false) ∨
        ∃ a ∈ impls, ∃ b ∈ impls, mergeable a b = true ∧ t = mergeTerm a b := by
  unfold nextImpls
  rw [(MakeUniqueSet_spec _).2.2, List.mem_append, mem_unaffectedOf, mem_gluedTerms]

theorem nextImpls_length (o0 o1 : MapOrder) (impls : List Term) (n : Nat)
    (hlen : ∀ t ∈ impls, t.length = n) : ∀ t ∈ nextImpls o0 o1 impls, t.length = n := by
  intro t ht
  rcases (mem_nextImpls o0 o1 impls t).1 ht with ⟨h, _⟩ | ⟨a, ha, b, _, hm, rfl⟩
  · exact hlen t h
  · rw [mergeTerm_length hm]
    exact hlen a ha

theorem gluedTerms_length_eq_zero (o : MapOrder) (impls : List Term) :
    (gluedTerms o impls).length = 0 ↔ ∀ a ∈ impls, ∀ b ∈ impls, mergeable a b = false := by
  rw [List.length_eq_zero, List.eq_nil_iff_forall_not_mem]
  constructor
  · intro h a ha b hb
    by_contra hm
    exact h (mergeTerm a b) ((mem_gluedTerms o impls _).2 ⟨a, ha, b, hb, by simpa using hm, rfl⟩)
  · intro h t ht
    obtain ⟨a, ha, b, hb, hm, _⟩ := (mem_gluedTerms o impls t).1 ht
    rw [h a ha b hb] at hm
    exact Bool.false_ne_true hm

/-- A run that returns with some bound returns the same with a larger bound. -/
theorem Step1Fuel_mono (n : Nat) :
    ∀ (fuel : Nat) (ord : Nat → MapOrder) (impls r : List Term) (extra : Nat),
      (∀ t ∈ impls, t.length = n) → Step1Fuel ord fuel impls = Run.done r →
        Step1Fuel ord (fuel + extra) impls = Run.done r := by
  intro fuel
  induction fuel with
  | zero =>
    intro ord impls r extra _ h
    simp [Step1Fuel] at h
  | succ fuel ih =>
    intro ord impls r extra hlen h
    have e : fuel + 1 + extra = (fuel + extra) + 1 := by omega
    rw [e, Step1Fuel_succ ord (fuel + extra) impls n hlen]
    rw [Step1Fuel_succ ord fuel impls n hlen] at h
    by_cases hg : (gluedTerms (ord 0) impls).length = 0
    · simpa [hg] using h
    · simp only [hg, if_false] at h ⊢
      exact ih _ _ r extra (nextImpls_length _ _ impls n hlen) h

/-- A property of the argument that every recursive call preserves holds of the
result, which moreover has no mergeable pair left. -/
theorem Step1Fuel_invariant (n : Nat) (I : List Term → Prop)
    (hI : ∀ (o0 o1 : MapOrder) (impls : List Term), (∀ t ∈ impls, t.length = n) → I impls →
      (gluedTerms o0 impls).length ≠ 0 → I (nextImpls o0 o1 impls)) :
    ∀ (fuel : Nat) (ord : Nat → MapOrder) (impls r : List Term),
      (∀ t ∈ impls, t.length = n) → I impls → Step1Fuel ord fuel impls = Run.done r →
        I r ∧ (∀ t ∈ r, t.length = n) ∧ ∀ a ∈ r, ∀ b ∈ r, mergeable a b = false := by
  intro fuel
  induction fuel with
  | zero =>
    intro ord impls r _ _ h
    simp [Step1Fuel] at h
  | succ fuel ih =>
    intro ord impls r hlen hinv h
    rw [Step1Fuel_succ ord fuel impls n hlen] at h
    by_cases hg : (gluedTerms (ord 0) impls).length = 0
    · simp only [hg, if_true, Run.done.injEq] at h
      subst h
      exact ⟨hinv, hlen, (gluedTerms_length_eq_zero _ _).1 hg⟩
    · simp only [hg, if_false] at h
      exact ih _ _ r (nextImpls_length _ _ impls n hlen) (hI _ _ impls hlen hinv hg) h

/-- A list without a mergeable pair is returned at once, in any order of the
keys. -/
theorem Step1Fuel_of_no_merge (ord : Nat → MapOrder) (fuel : Nat) (impls : List Term) (n : Nat)
    (hlen : ∀ t ∈ impls, t.length = n)
    (h : ∀ a ∈ impls, ∀ b ∈ impls, mergeable a b = false) :
    Step1Fuel ord (fuel + 1) impls = Run.done impls := by
  rw [Step1Fuel_succ ord fuel impls n hlen, if_pos ((gluedTerms_length_eq_zero _ _).2 h)]

/-- The first loop of `Step1` does not panic on terms of one length, and its
list `glued` is `gluedTerms`. -/
theorem glueLoop_GroupByWeight (o : MapOrder) (impls : List Term) (n : Nat)
    (hlen : ∀ t ∈ impls, t.length = n) :
    ∃ g, glueLoop (GroupByWeight impls) [] (o.visit (GroupByWeight impls).keys) =
      some (g, gluedTerms o impls) := by
  have h := glueLoop_eq impls (weightKeys impls) (fun _ _ => false) []
    (o.visit (weightKeys impls)) n hlen
  have hk : (markedGroups impls (weightKeys impls) fun _ _ => false).keys = weightKeys impls :=
    rfl
  rw [GroupByWeight_eq, hk, h]
  exact ⟨_, rfl⟩

/-! ## Termination of `Step1` -/

theorem countP_lt_of_imp {α : Type} (p q : α → Bool) (l : List α)
    (himp : ∀ x ∈ l, p x = true → q x = true)
    (hex : ∃ x ∈ l, q x = true ∧ p x = false) : l.countP p < l.countP q := by
  induction l with
  | nil => simp at hex
  | cons y ys ih =>
    have himp2 : ∀ x ∈ ys, p x = true → q x = true := fun x hx => himp x (by simp [hx])
    have hle : ys.countP p ≤ ys.countP q := List.countP_mono_left himp2
    obtain ⟨x, hx, hq, hp⟩ := hex
    rcases List.mem_cons.1 hx with h | h
    · subst h
      simp only [List.countP_cons, hq, hp, if_true]
      simp
      omega
    · have := ih himp2 ⟨x, h, hq, hp⟩
      have hy := himp y (by simp)
      simp only [List.countP_cons]
      by_cases hpy : p y = true
      · simp [hpy, hy hpy, this]
      · by_cases hqy : q y = true
        · simp [hpy, hqy]
          omega
        · simp [hpy, hqy, this]

/-- A call of `Step1` that merges lowers the counts of the terms by number of
absent positions in the lexicographic order: below some level the counts stay,
at that level the count drops. -/
theorem countAtLevel_nextImpls (o0 o1 : MapOrder) (impls : List Term) (n : Nat)
    (hlen : ∀ t ∈ impls, t.length = n) (hg : (gluedTerms o0 impls).length ≠ 0) :
    ∃ j, j ≤ n ∧
      (∀ i, i < j → countAtLevel (nextImpls o0 o1 impls) i = countAtLevel impls i) ∧
      countAtLevel (nextImpls o0 o1 impls) j < countAtLevel impls j := by
  classical
  -- some term has a partner
  have hex : ∃ k, ∃ x ∈ impls, hasPartner impls x = true ∧ absentCount x = k := by
    obtain ⟨t, ht⟩ := List.exists_mem_of_length_pos (Nat.pos_of_ne_zero hg)
    obtain ⟨a, ha, b, hb, hm, _⟩ := (mem_gluedTerms o0 impls t).1 ht
    refine ⟨absentCount a, a, ha, ?_, rfl⟩
    simp only [hasPartner, List.any_eq_true, Bool.or_eq_true]
    exact ⟨b, hb, Or.inl hm⟩
  -- the lowest level `m` of a term with a partner
  let m := Nat.find hex
  obtain ⟨x, hx, hxp, hxm⟩ := Nat.find_spec hex
  have hmin : ∀ y ∈ impls, hasPartner impls y = true → m ≤ absentCount y := by
    intro y hy hyp
    exact Nat.find_min' hex ⟨y, hy, hyp, rfl⟩
  -- emitted terms lie above the level `m`
  have hglued : ∀ t ∈ gluedTerms o0 impls, m < absentCount t := by
    intro t ht
    obtain ⟨a, ha, b, hb, hm, rfl⟩ := (mem_gluedTerms o0 impls t).1 ht
    rw [mergeTerm_absentCount hm]
    have : hasPartner impls b = true := by
      simp only [hasPartner, List.any_eq_true, Bool.or_eq_true]
      exact ⟨a, ha, Or.inr hm⟩
    have := hmin b hb this
    omega
  have hle : ∀ i, i ≤ m →
      countAtLevel (nextImpls o0 o1 impls) i ≤
        (impls.filter fun t => !hasPartner impls t).countP fun t => absentCount t == i := by
    intro i hi
    unfold countAtLevel nextImpls
    refine le_trans (List.Sublist.countP_le _ (MakeUniqueSet_spec _).1) ?_
    rw [List.countP_append, (unaffectedOf_perm o0 o1 impls).countP_eq]
    have hz : (gluedTerms o0 impls).countP (fun t => absentCount t == i) = 0 := by
      rw [List.countP_eq_zero]
      intro t ht
      have := hglued t ht
      simp only [beq_iff_eq]
      omega
    omega
  have hfilter : ∀ i,
      ((impls.filter fun t => !hasPartner impls t).countP fun t => absentCount t == i) ≤
        countAtLevel impls i := by
    intro i
    exact List.Sublist.countP_le _ (List.filter_sublist _)
  have hstrict : countAtLevel (nextImpls o0 o1 impls) m < countAtLevel impls m := by
    refine lt_of_le_of_lt (hle m (le_refl m)) ?_
    rw [List.countP_filter]
    unfold countAtLevel
    apply countP_lt_of_imp
    · intro y _ hy
      simp only [Bool.and_eq_true] at hy
      exact hy.1
    · refine ⟨x, hx, by simpa using hxm, ?_⟩
      simp [hxp]
  have hex2 : ∃ j, countAtLevel (nextImpls o0 o1 impls) j < countAtLevel impls j := ⟨m, hstrict⟩
  refine ⟨Nat.find hex2, ?_, ?_, Nat.find_spec hex2⟩
  · have h1 : Nat.find hex2 ≤ m := Nat.find_min' hex2 hstrict
    have h2 : m ≤ n := by
      have := absentCount_le_length x
      rw [hlen x hx] at this
      omega
    omega
  · intro i hi
    have h1 : Nat.find hex2 ≤ m := Nat.find_min' hex2 hstrict
    have h2 := Nat.find_min hex2 hi
    have h3 := le_trans (hle i (by omega)) (hfilter i)
    omega

/-- Every run of `Step1` on terms of one length returns, when the bound on the
number of calls is large enough. -/
theorem Step1Fuel_returns (n : Nat) (ord : Nat → MapOrder) (impls : List Term)
    (hlen : ∀ t ∈ impls, t.length = n) :
    ∃ (fuel : Nat) (r : List Term), Step1Fuel ord fuel impls = Run.done r := by
  have wf : WellFounded (Pi.Lex (fun a b : Fin (n + 1) => a < b)
      (fun a b : Nat => a < b)) :=
    Pi.Lex.wellFounded (fun a b : Fin (n + 1) => a < b) (fun _ => Nat.lt_wfRel.wf)
  have key : ∀ (c : Fin (n + 1) → Nat) (ord : Nat → MapOrder) (impls : List Term),
      (∀ t ∈ impls, t.length = n) → (fun i : Fin (n + 1) => countAtLevel impls i.val) = c →
      ∃ (fuel : Nat) (r : List Term), Step1Fuel ord fuel impls = Run.done r := by
    intro c
    induction c using wf.induction with
    | _ c ih =>
      intro ord impls hlen hc
      by_cases hg : (gluedTerms (ord 0) impls).length = 0
      · exact ⟨1, impls, by rw [Step1Fuel_succ ord 0 impls n hlen, if_pos hg]⟩
      · obtain ⟨j, hj, hsame, hlt⟩ := countAtLevel_nextImpls (ord 0) (ord 1) impls n hlen hg
        have hlex : Pi.Lex (fun a b : Fin (n + 1) => a < b) (fun a b : Nat => a < b)
            (fun i : Fin (n + 1) => countAtLevel (nextImpls (ord 0) (ord 1) impls) i.val) c := by
          refine ⟨⟨j, by omega⟩, ?_, ?_⟩
          · intro i hi
            rw [← hc]
            exact hsame i.val hi
          · rw [← hc]
            exact hlt
        obtain ⟨fuel, r, hr⟩ := ih _ hlex (fun k => ord (k + 2))
          (nextImpls (ord 0) (ord 1) impls) (nextImpls_length _ _ impls n hlen) rfl
        refine ⟨fuel + 1, r, ?_⟩
        rw [Step1Fuel_succ ord fuel impls n hlen, if_neg hg]
        exact hr
  exact key _ ord impls hlen rfl

/-! ## The coverage table -/

theorem NewTable_Rows (prime source : List Term) :
    (NewTable prime source).Rows = prime.map fun row => { Term := row, IsMarked := false } := rfl

theorem NewTable_Columns (prime source : List Term) :
    (NewTable prime source).Columns =
      source.map fun column => { Term := column, IsMarked := false } := rfl

theorem NewTable_wellFormed (prime source : List Term) : (NewTable prime source).WellFormed := by
  constructor
  · simp [NewTable]
  · intro row hrow
    simp only [NewTable, List.mem_map] at hrow
    obtain ⟨r, _, rfl⟩ := hrow
    simp [NewTable]

theorem NewTable_mark (prime source : List Term) (i j : Nat) (hi : i < prime.length)
    (hj : j < source.length) :
    (NewTable prime source).mark i j = some (Term.Covers prime[i] source[j]) := by
  simp [Table.mark, NewTable, List.getElem?_map, List.getElem?_eq_getElem hi,
    List.getElem?_eq_getElem hj]

theorem WellFormed_mark {t : Table} (h : t.WellFormed) {i j : Nat}
    (hi : i < t.Rows.length) (hj : j < t.Columns.length) : ∃ m, t.mark i j = some m := by
  have hi2 : i < t.Marks.length := by rw [h.1]; exact hi
  have hrow := h.2 t.Marks[i] (List.getElem_mem hi2)
  refine ⟨t.Marks[i][j], ?_⟩
  simp [Table.mark, List.getElem?_eq_getElem hi2, List.getElem?_eq_getElem (hrow ▸ hj)]

theorem coverColumns_spec (t : Table) (h : t.WellFormed) (i : Nat) (hi : i < t.Rows.length)
    (js : List Nat) (hjs : ∀ j ∈ js, j < t.Columns.length) (covered : List Bool) :
    ∃ cv, coverColumns t i covered js = some cv ∧ cv.length = covered.length ∧
      ∀ j, j < covered.length →
        (cv[j]? = some true ↔ covered[j]? = some true ∨ (j ∈ js ∧ t.mark i j = some true)) := by
  induction js generalizing covered with
  | nil => exact ⟨covered, rfl, rfl, by simp⟩
  | cons j0 js ih =>
    obtain ⟨m, hm⟩ := WellFormed_mark h hi (hjs j0 (by simp))
    have hjs2 : ∀ j ∈ js, j < t.Columns.length := fun j hj => hjs j (by simp [hj])
    obtain ⟨cv, hc1, hc2, hc3⟩ := ih hjs2 (if m = true then covered.set j0 true else covered)
    refine ⟨cv, by simp only [coverColumns, hm, hc1], ?_, ?_⟩
    · rw [hc2]
      split <;> simp
    · intro j hj
      have hj2 : j < (if m = true then covered.set j0 true else covered).length := by
        split <;> simpa using hj
      rw [hc3 j hj2]
      by_cases hmt : m = true
      · subst hmt
        simp only [if_true, List.getElem?_set, List.mem_cons]
        by_cases hjj : j0 = j
        · subst hjj
          simp [hj, hm]
        · have hjj2 : ¬ j = j0 := fun e => hjj e.symm
          simp [hjj, hjj2]
      · have hmf : m = false := by simpa using hmt
        subst hmf
        simp only [Bool.false_eq_true, if_false, List.mem_cons]
        constructor
        · rintro (h1 | ⟨h1, h2⟩)
          · exact Or.inl h1
          · exact Or.inr ⟨Or.inr h1, h2⟩
        · rintro (h1 | ⟨h1 | h1, h2⟩)
          · exact Or.inl h1
          · subst h1
            rw [hm] at h2
            simp at h2
          · exact Or.inr ⟨h1, h2⟩

theorem coverRows_spec (t : Table) (h : t.WellFormed) (rows : List Nat)
    (is : List Nat) (his : ∀ i ∈ is, i < t.Rows.length) (covered : List Bool)
    (hcov : covered.length = t.Columns.length) :
    ∃ cv, coverRows t rows covered is = some cv ∧ cv.length = covered.length ∧
      ∀ j, j < covered.length →
        (cv[j]? = some true ↔
          covered[j]? = some true ∨ ∃ i ∈ is, i ∈ rows ∧ t.mark i j = some true) := by
  induction is generalizing covered with
  | nil => exact ⟨covered, rfl, rfl, by simp⟩
  | cons i0 is ih =>
    have his2 : ∀ i ∈ is, i < t.Rows.length := fun i hi => his i (by simp [hi])
    by_cases hin : i0 ∈ rows
    · obtain ⟨cv1, h1, h2, h3⟩ := coverColumns_spec t h i0 (his i0 (by simp))
        (List.range t.Columns.length) (fun j hj => List.mem_range.1 hj) covered
      obtain ⟨cv, hc1, hc2, hc3⟩ := ih his2 cv1 (by rw [h2, hcov])
      refine ⟨cv, by simp only [coverRows, hin, if_true, h1, hc1], by rw [hc2, h2], ?_⟩
      intro j hj
      rw [hc3 j (by rw [h2]; exact hj), h3 j hj]
      have hjr : j ∈ List.range t.Columns.length := List.mem_range.2 (hcov ▸ hj)
      simp only [hjr, true_and, List.mem_cons]
      constructor
      · rintro ((h4 | h4) | ⟨i, hi1, hi2, hi3⟩)
        · exact Or.inl h4
        · exact Or.inr ⟨i0, Or.inl rfl, hin, h4⟩
        · exact Or.inr ⟨i, Or.inr hi1, hi2, hi3⟩
      · rintro (h4 | ⟨i, hi1 | hi1, hi2, hi3⟩)
        · exact Or.inl (Or.inl h4)
        · subst hi1
          exact Or.inl (Or.inr hi3)
        · exact Or.inr ⟨i, hi1, hi2, hi3⟩
    · obtain ⟨cv, hc1, hc2, hc3⟩ := ih his2 covered hcov
      refine ⟨cv, by simp only [coverRows, hin, if_false, hc1], hc2, ?_⟩
      intro j hj
      rw [hc3 j hj]
      simp only [List.mem_cons]
      constructor
      · rintro (h4 | ⟨i, hi1, hi2, hi3⟩)
        · exact Or.inl h4
        · exact Or.inr ⟨i, Or.inr hi1, hi2, hi3⟩
      · rintro (h4 | ⟨i, hi1 | hi1, hi2, hi3⟩)
        · exact Or.inl h4
        · subst hi1
          exact absurd hi2 hin
        · exact Or.inr ⟨i, hi1, hi2, hi3⟩

/-- `IsRowsCovers` on a well-formed table does not panic, and answers `true`
exactly when every column is marked in some row of the set. -/
theorem IsRowsCovers_spec (t : Table) (h : t.WellFormed) (rows : List Nat) :
    ∃ b, t.IsRowsCovers rows = some b ∧
      (b = true ↔
        ∀ j, j < t.Columns.length →
          ∃ i, i < t.Rows.length ∧ i ∈ rows ∧ t.mark i j = some true) := by
  obtain ⟨cv, hc1, hc2, hc3⟩ := coverRows_spec t h rows (List.range t.Rows.length)
    (fun i hi => List.mem_range.1 hi) (List.replicate t.Columns.length false) (by simp)
  refine ⟨cv.all fun x => x, by simp only [Table.IsRowsCovers, hc1], ?_⟩
  simp only [List.length_replicate] at hc2 hc3
  rw [List.all_eq_true]
  constructor
  · intro hall j hj
    have hjc : j < cv.length := by rw [hc2]; exact hj
    have h1 : cv[j]? = some true := by
      rw [List.getElem?_eq_getElem hjc]
      exact congrArg some (hall cv[j] (List.getElem_mem hjc))
    rcases (hc3 j hj).1 h1 with h2 | ⟨i, hi1, hi2, hi3⟩
    · simp [List.getElem?_replicate, hj] at h2
    · exact ⟨i, List.mem_range.1 hi1, hi2, hi3⟩
  · intro hall x hx
    obtain ⟨j, hj, rfl⟩ := List.getElem_of_mem hx
    obtain ⟨i, hi1, hi2, hi3⟩ := hall j (hc2 ▸ hj)
    have := (hc3 j (hc2 ▸ hj)).2 (Or.inr ⟨i, List.mem_range.2 hi1, hi2, hi3⟩)
    rw [List.getElem?_eq_getElem hj] at this
    exact Option.some.inj this

/-! ## Properties of `Step1` on arbitrary terms of one length -/

theorem Distance_one_symm {a b : Term} (h : Term.Distance a b = some 1) :
    Term.Distance b a = some 1 := by
  obtain ⟨pre, post, x, y, ha, hb, hxy⟩ := Distance_eq_one h
  subst ha hb
  rw [Distance_append_cons]
  simp [Ne.symm hxy]

theorem hasPartner_iff (impls : List Term) (t : Term) :
    hasPartner impls t = true ↔
      ∃ y ∈ impls, mergeable t y = true ∨ mergeable y t = true := by
  simp [hasPartner]

/-- Every call of `Step1` keeps every term covered. -/
theorem covered_nextImpls (o0 o1 : MapOrder) (impls : List Term) (t : Term)
    (h : ∃ p ∈ impls, Term.Covers p t = true) :
    ∃ p ∈ nextImpls o0 o1 impls, Term.Covers p t = true := by
  obtain ⟨p, hp, hcov⟩ := h
  by_cases hpart : hasPartner impls p = true
  · obtain ⟨y, hy, hm | hm⟩ := (hasPartner_iff impls p).1 hpart
    · exact ⟨mergeTerm p y, (mem_nextImpls _ _ _ _).2 (Or.inr ⟨p, hp, y, hy, hm, rfl⟩),
        Covers_trans (mergeTerm_covers hm).1 hcov⟩
    · exact ⟨mergeTerm y p, (mem_nextImpls _ _ _ _).2 (Or.inr ⟨y, hy, p, hp, hm, rfl⟩),
        Covers_trans (mergeTerm_covers hm).2 hcov⟩
  · exact ⟨p, (mem_nextImpls _ _ _ _).2 (Or.inl ⟨hp, by simpa using hpart⟩), hcov⟩

/-- The result of a run of `Step1` covers every term of the argument. -/
theorem Step1Fuel_covers (n : Nat) (fuel : Nat) (ord : Nat → MapOrder) (impls r : List Term)
    (hlen : ∀ t ∈ impls, t.length = n) (hr : Step1Fuel ord fuel impls = Run.done r) :
    ∀ t ∈ impls, ∃ p ∈ r, Term.Covers p t = true :=
  (Step1Fuel_invariant n (fun S => ∀ t ∈ impls, ∃ p ∈ S, Term.Covers p t = true)
    (fun o0 o1 S _ hS _ t ht => covered_nextImpls o0 o1 S t (hS t ht))
    fuel ord impls r hlen (fun t ht => ⟨t, ht, Covers_refl t⟩) hr).1

/-- C7. On every list of terms of one length (absent positions allowed) the
recursion of `Step1` ends: from some bound on the number of calls on, the run
returns one and the same list, in every order of the map iterations. -/
theorem Step1_terminates (n : Nat) (ord : Nat → MapOrder) (impls : List Term)
    (hlen : ∀ t ∈ impls, t.length = n) :
    ∃ (fuel : Nat) (r : List Term),
      ∀ extra, Step1Fuel ord (fuel + extra) impls = Run.done r := by
  obtain ⟨fuel, r, hr⟩ := Step1Fuel_returns n ord impls hlen
  exact ⟨fuel, r, fun extra => Step1Fuel_mono n fuel ord impls r extra hlen hr⟩

/-- Witness of C7 on `reEmittedTerms`, a list with absent positions on which a
merge emits the term of lower weight again. -/
theorem Step1_terminates_witness :
    (∀ t ∈ reEmittedTerms, t.length = 2) ∧
      ∃ (fuel : Nat) (r : List Term),
        ∀ extra, Step1Fuel (fun _ => MapOrder.stored) (fuel + extra) reEmittedTerms =
          Run.done r :=
  ⟨by decide, Step1_terminates 2 (fun _ => MapOrder.stored) reEmittedTerms (by decide)⟩

/-- C3. Merging preserves coverage: the run of `Step1` on terms of one length
returns a list that covers every term of the argument; hence in the table of the
result against the argument every column has a marked row, and the set of all
rows passes `IsRowsCovers`. -/
theorem Step1_preserves_coverage (n : Nat) (ord : Nat → MapOrder) (impls : List Term)
    (hlen : ∀ t ∈ impls, t.length = n) :
    ∃ (fuel : Nat) (r : List Term),
      (∀ extra, Step1Fuel ord (fuel + extra) impls = Run.done r) ∧
      (∀ t ∈ impls, ∃ p ∈ r, Term.Covers p t = true) ∧
      (∀ j, j < (NewTable r impls).Columns.length →
        ∃ i, i < (NewTable r impls).Rows.length ∧ (NewTable r impls).mark i j = some true) ∧
      (NewTable r impls).IsRowsCovers (List.range (NewTable r impls).Rows.length) = some true := by
  obtain ⟨fuel, r, hr⟩ := Step1Fuel_returns n ord impls hlen
  have hinv := Step1Fuel_covers n fuel ord impls r hlen hr
  have hcols : ∀ j, j < (NewTable r impls).Columns.length →
      ∃ i, i < (NewTable r impls).Rows.length ∧ (NewTable r impls).mark i j = some true := by
    intro j hj
    have hj2 : j < impls.length := by simpa [NewTable_Columns] using hj
    obtain ⟨p, hp, hcov⟩ := hinv impls[j] (List.getElem_mem hj2)
    obtain ⟨i, hi, rfl⟩ := List.getElem_of_mem hp
    refine ⟨i, by simpa [NewTable_Rows] using hi, ?_⟩
    rw [NewTable_mark r impls i j hi hj2, hcov]
  refine ⟨fuel, r, fun extra => Step1Fuel_mono n fuel ord impls r extra hlen hr, hinv,
    hcols, ?_⟩
  obtain ⟨b, hb1, hb2⟩ := IsRowsCovers_spec (NewTable r impls) (NewTable_wellFormed r impls)
    (List.range (NewTable r impls).Rows.length)
  rw [hb1]
  congr 1
  rw [hb2]
  intro j hj
  obtain ⟨i, hi1, hi2⟩ := hcols j hj
  exact ⟨i, hi1, List.mem_range.2 hi1, hi2⟩

/-- Witness of C3 on the four minterms of two variables. -/
theorem Step1_preserves_coverage_witness :
    (∀ t ∈ fourMinterms, t.length = 2) ∧
      ∃ (fuel : Nat) (r : List Term),
        (∀ extra, Step1Fuel (fun _ => MapOrder.stored) (fuel + extra) fourMinterms =
          Run.done r) ∧
        (∀ t ∈ fourMinterms, ∃ p ∈ r, Term.Covers p t = true) ∧
        (∀ j, j < (NewTable r fourMinterms).Columns.length →
          ∃ i, i < (NewTable r fourMinterms).Rows.length ∧
            (NewTable r fourMinterms).mark i j = some true) ∧
        (NewTable r fourMinterms).IsRowsCovers
          (List.range (NewTable r fourMinterms).Rows.length) = some true :=
  ⟨by decide, Step1_preserves_coverage 2 (fun _ => MapOrder.stored) fourMinterms (by decide)⟩

/-- C6. The result of `Step1` holds no two terms of adjacent weights at
distance 1, and `Step1` run on it again (in any order of the map iterations,
with any bound that allows one call) performs no merge and returns it
unchanged. -/
theorem Step1_fixpoint (n : Nat) (ord : Nat → MapOrder) (impls : List Term)
    (hlen : ∀ t ∈ impls, t.length = n) :
    ∃ (fuel : Nat) (r : List Term),
      (∀ extra, Step1Fuel ord (fuel + extra) impls = Run.done r) ∧
      (∀ a ∈ r, ∀ b ∈ r,
        (Term.Weight a = Term.Weight b + 1 ∨ Term.Weight b = Term.Weight a + 1) →
          Term.Distance a b ≠ some 1) ∧
      (∀ (ord2 : Nat → MapOrder) (fuel2 : Nat),
        (∃ g, glueLoop (GroupByWeight r) [] ((ord2 0).visit (GroupByWeight r).keys) =
          some (g, [])) ∧
        Step1Fuel ord2 (fuel2 + 1) r = Run.done r) := by
  obtain ⟨fuel, r, hr⟩ := Step1Fuel_returns n ord impls hlen
  have hinv := Step1Fuel_invariant n (fun _ => True) (fun _ _ _ _ _ _ => trivial)
    fuel ord impls r hlen trivial hr
  refine ⟨fuel, r, fun extra => Step1Fuel_mono n fuel ord impls r extra hlen hr, ?_, ?_⟩
  · intro a ha b hb hw hd
    rcases hw with hw | hw
    · have := hinv.2.2 b hb a ha
      simp [mergeable, hw, Distance_one_symm hd] at this
    · have := hinv.2.2 a ha b hb
      simp [mergeable, hw, hd] at this
  · intro ord2 fuel2
    obtain ⟨g, hg⟩ := glueLoop_GroupByWeight (ord2 0) r n hinv.2.1
    rw [List.length_eq_zero.1 ((gluedTerms_length_eq_zero (ord2 0) r).2 hinv.2.2)] at hg
    exact ⟨⟨g, hg⟩, Step1Fuel_of_no_merge ord2 fuel2 r n hinv.2.1 hinv.2.2⟩

/-- Witness of C6 on `reEmittedTerms`, a list with absent positions. -/
theorem Step1_fixpoint_witness :
    (∀ t ∈ reEmittedTerms, t.length = 2) ∧
      ∃ (fuel : Nat) (r : List Term),
        (∀ extra, Step1Fuel (fun _ => MapOrder.stored) (fuel + extra) reEmittedTerms =
          Run.done r) ∧
        (∀ a ∈ r, ∀ b ∈ r,
          (Term.Weight a = Term.Weight b + 1 ∨ Term.Weight b = Term.Weight a + 1) →
            Term.Distance a b ≠ some 1) ∧
        (∀ (ord2 : Nat → MapOrder) (fuel2 : Nat),
          (∃ g, glueLoop (GroupByWeight r) [] ((ord2 0).visit (GroupByWeight r).keys) =
            some (g, [])) ∧
          Step1Fuel ord2 (fuel2 + 1) r = Run.done r) :=
  ⟨by decide, Step1_fixpoint 2 (fun _ => MapOrder.stored) reEmittedTerms (by decide)⟩

/-! ## `Step1` on minterms: prime implicants -/

theorem split_at (pre post x : Term) (y : Bit) (h : x.length = (pre ++ y :: post).length) :
    ∃ (x1 x2 : Term) (z : Bit),
      x = x1 ++ z :: x2 ∧ x1.length = pre.length ∧ x2.length = post.length := by
  induction pre generalizing x with
  | nil =>
    cases x with
    | nil => simp at h
    | cons z zs => exact ⟨[], zs, z, rfl, rfl, by simpa using h⟩
  | cons p ps ih =>
    cases x with
    | nil => simp at h
    | cons z zs =>
      obtain ⟨x1, x2, w, h1, h2, h3⟩ := ih zs (by simpa using h)
      exact ⟨z :: x1, x2, w, by simp [h1], by simp [h2], h3⟩

theorem fullySpecified_append_cons (pre post : Term) (z : Bit) :
    fullySpecified (pre ++ z :: post) =
      (fullySpecified pre && (z != Bit.Tilde) && fullySpecified post) := by
  simp [fullySpecified, List.all_append, Bool.and_assoc]

theorem Covers_eq_of_fullySpecified {a b : Term} (ha : fullySpecified a = true)
    (h : Term.Covers a b = true) : a = b := by
  induction a generalizing b with
  | nil =>
    cases b with
    | nil => rfl
    | cons y ys => simp [Covers_nil_left] at h
  | cons x xs ih =>
    cases b with
    | nil => simp [Covers_nil_right] at h
    | cons y ys =>
      simp only [Covers_cons, Bool.and_eq_true, Bool.or_eq_true, beq_iff_eq] at h
      simp only [fullySpecified, List.all_cons, Bool.and_eq_true, bne_iff_ne, ne_eq] at ha
      have hx : x = y := by
        rcases h.1 with h1 | h1
        · exact absurd h1 ha.1
        · exact h1
      rw [hx, ih (by simpa [fullySpecified] using ha.2) h.2]

theorem absentCount_eq_zero_iff (t : Term) : absentCount t = 0 ↔ fullySpecified t = true := by
  simp [absentCount, fullySpecified, List.countP_eq_zero]

theorem exists_absent_of_absentCount_pos {t : Term} (h : 0 < absentCount t) :
    ∃ pre post : Term, t = pre ++ Bit.Tilde :: post := by
  unfold absentCount at h
  rw [List.countP_pos_iff] at h
  obtain ⟨b, hb, hbt⟩ := h
  simp only [beq_iff_eq] at hbt
  subst hbt
  obtain ⟨s, u, hs⟩ := List.append_of_mem hb
  exact ⟨s, u, hs⟩

/-- A term covered with an absent position is covered with `False` or with
`True` in that position, when it is fully specified. -/
theorem Covers_absent_cases {pre post x : Term}
    (hx : fullySpecified x = true) (h : Term.Covers (pre ++ Bit.Tilde :: post) x = true) :
    Term.Covers (pre ++ Bit.False :: post) x = true ∨
      Term.Covers (pre ++ Bit.True :: post) x = true := by
  obtain ⟨x1, x2, z, rfl, h1, _⟩ := split_at pre post x Bit.Tilde (Covers_length h).symm
  rw [Covers_append _ _ _ _ h1.symm, Covers_cons] at h
  rw [fullySpecified_append_cons] at hx
  simp only [Bool.and_eq_true, bne_iff_ne, ne_eq] at hx h
  rw [Covers_append _ _ _ _ h1.symm, Covers_append _ _ _ _ h1.symm, Covers_cons, Covers_cons]
  cases z with
  | Tilde => exact absurd rfl hx.1.2
  | False => left; simp [h.1, h.2.2]
  | True => right; simp [h.1, h.2.2]

theorem Covers_absent_of_covers {pre post x : Term} (z : Bit)
    (h : Term.Covers (pre ++ z :: post) x = true) :
    Term.Covers (pre ++ Bit.Tilde :: post) x = true := by
  obtain ⟨x1, x2, w, rfl, h1, _⟩ := split_at pre post x z (Covers_length h).symm
  rw [Covers_append _ _ _ _ h1.symm, Covers_cons] at h
  rw [Covers_append _ _ _ _ h1.symm, Covers_cons]
  simp only [Bool.and_eq_true] at h ⊢
  exact ⟨h.1, by simp, h.2.2⟩

theorem isImplicant_merge {M : List Term} {n : Nat} {pre post : Term}
    (ha : isImplicant M n (pre ++ Bit.False :: post))
    (hb : isImplicant M n (pre ++ Bit.True :: post)) :
    isImplicant M n (pre ++ Bit.Tilde :: post) := by
  refine ⟨by simpa using ha.1, ?_⟩
  intro x hxl hxf hcov
  rcases Covers_absent_cases hxf hcov with h | h
  · exact ha.2 x hxl hxf h
  · exact hb.2 x hxl hxf h

theorem isImplicant_specialize {M : List Term} {n : Nat} {pre post : Term} (z : Bit)
    (h : isImplicant M n (pre ++ Bit.Tilde :: post)) :
    isImplicant M n (pre ++ z :: post) := by
  refine ⟨by simpa using h.1, ?_⟩
  intro x hxl hxf hcov
  exact h.2 x hxl hxf (Covers_absent_of_covers z hcov)

/-- In a state of the merge engine only two terms with as many absent positions
as calls were made are merged, and the merge makes one more position absent. -/
theorem mergeState_mergeable {M : List Term} {n r : Nat} {S : List Term}
    (hS : mergeState M n r S) {a b : Term} (ha : a ∈ S) (hb : b ∈ S)
    (hm : mergeable a b = true) :
    ∃ pre post : Term, a = pre ++ Bit.False :: post ∧ b = pre ++ Bit.True :: post ∧
      absentCount a = r ∧ absentCount b = r ∧ r < n := by
  obtain ⟨pre, post, x, rfl, rfl, hx⟩ := (mergeable_iff a b).1 hm
  have hacount := hS.2.2.1 _ ha
  cases x with
  | True => exact absurd rfl hx
  | Tilde =>
    exfalso
    have hlt : absentCount (pre ++ Bit.True :: post) < r := by
      rw [absentCount_append_cons] at hacount ⊢
      simp at hacount ⊢
      omega
    exact hS.2.2.2 _ hb hlt pre post Bit.True rfl (by decide) (hS.1 _ ha)
  | False =>
    have himp := isImplicant_merge (hS.1 _ ha) (hS.1 _ hb)
    have heq : absentCount (pre ++ Bit.False :: post) = r := by
      by_contra hne
      exact hS.2.2.2 _ ha (by omega) pre post Bit.False rfl (by decide) himp
    refine ⟨pre, post, rfl, rfl, heq, ?_, ?_⟩
    · rw [absentCount_append_cons] at heq ⊢
      simpa using heq
    · have h1 := absentCount_le_length (pre ++ Bit.Tilde :: post)
      rw [himp.1, absentCount_append_cons] at h1
      rw [absentCount_append_cons] at heq
      simp at h1 heq
      omega

/-- A term without a partner in a state of the merge engine is prime. -/
theorem mergeState_prime {M : List Term} {n r : Nat} {S : List Term}
    (hS : mergeState M n r S) {t : Term} (ht : t ∈ S) (hp : hasPartner S t = false) :
    isPrime M n t := by
  by_cases hlt : absentCount t < r
  · exact hS.2.2.2 t ht hlt
  · have heq : absentCount t = r := by
      have := hS.2.2.1 t ht
      omega
    intro pre post z hdec hz himp
    subst hdec
    have hno : ∀ y ∈ S, mergeable (pre ++ z :: post) y = false ∧
        mergeable y (pre ++ z :: post) = false := by
      intro y hy
      have := hp
      simp only [hasPartner, List.any_eq_false, Bool.or_eq_true, not_or,
        Bool.not_eq_true] at this
      exact this y hy
    cases z with
    | Tilde => exact hz rfl
    | False =>
      have hother : pre ++ Bit.True :: post ∈ S := by
        apply hS.2.1 _ (isImplicant_specialize Bit.True himp)
        rw [absentCount_append_cons] at heq ⊢
        simpa using heq
      have := (hno _ hother).1
      rw [(mergeable_iff _ _).2 ⟨pre, post, Bit.False, rfl, rfl, by decide⟩] at this
      exact Bool.noConfusion this
    | True =>
      have hother : pre ++ Bit.False :: post ∈ S := by
        apply hS.2.1 _ (isImplicant_specialize Bit.False himp)
        rw [absentCount_append_cons] at heq ⊢
        simpa using heq
      have := (hno _ hother).2
      rw [(mergeable_iff _ _).2 ⟨pre, post, Bit.False, rfl, rfl, by decide⟩] at this
      exact Bool.noConfusion this

/-- A merging call of `Step1` leads from the state after `r` calls to the state
after `r + 1` calls. -/
theorem mergeState_nextImpls {M : List Term} {n r : Nat} {S : List Term}
    (hS : mergeState M n r S) (o0 o1 : MapOrder) :
    mergeState M n (r + 1) (nextImpls o0 o1 S) := by
  refine ⟨?_, ?_, ?_, ?_⟩
  · intro t ht
    rcases (mem_nextImpls o0 o1 S t).1 ht with ⟨h, _⟩ | ⟨a, ha, b, hb, hm, rfl⟩
    · exact hS.1 t h
    · obtain ⟨pre, post, rfl, rfl, _, _, _⟩ := mergeState_mergeable hS ha hb hm
      rw [mergeTerm_append_cons pre post _ _ (by decide)]
      exact isImplicant_merge (hS.1 _ ha) (hS.1 _ hb)
  · intro q hq hcount
    obtain ⟨pre, post, rfl⟩ := exists_absent_of_absentCount_pos (by omega : 0 < absentCount q)
    have hcnt : ∀ z : Bit, z ≠ Bit.Tilde → absentCount (pre ++ z :: post) = r := by
      intro z hz
      rw [absentCount_append_cons] at hcount ⊢
      simp [hz] at hcount ⊢
      omega
    have ha := hS.2.1 _ (isImplicant_specialize Bit.False hq) (hcnt _ (by decide))
    have hb := hS.2.1 _ (isImplicant_specialize Bit.True hq) (hcnt _ (by decide))
    refine (mem_nextImpls o0 o1 S _).2 (Or.inr ⟨_, ha, _, hb, ?_, ?_⟩)
    · exact (mergeable_iff _ _).2 ⟨pre, post, Bit.False, rfl, rfl, by decide⟩
    · rw [mergeTerm_append_cons pre post _ _ (by decide)]
  · intro t ht
    rcases (mem_nextImpls o0 o1 S t).1 ht with ⟨h, _⟩ | ⟨a, ha, b, hb, hm, rfl⟩
    · exact Nat.le_succ_of_le (hS.2.2.1 t h)
    · rw [mergeTerm_absentCount hm]
      have := hS.2.2.1 b hb
      omega
  · intro t ht hlt
    rcases (mem_nextImpls o0 o1 S t).1 ht with ⟨h, hp⟩ | ⟨a, ha, b, hb, hm, rfl⟩
    · exact mergeState_prime hS h hp
    · exfalso
      obtain ⟨pre, post, _, _, _, hbr, _⟩ := mergeState_mergeable hS ha hb hm
      rw [mergeTerm_absentCount hm] at hlt
      omega

/-- The minterms themselves are the state before the first call. -/
theorem mergeState_zero (M : List Term) (n : Nat)
    (hM : ∀ t ∈ M, t.length = n ∧ fullySpecified t = true) : mergeState M n 0 M := by
  refine ⟨?_, ?_, ?_, ?_⟩
  · intro t ht
    refine ⟨(hM t ht).1, ?_⟩
    intro x _ _ hcov
    rw [← Covers_eq_of_fullySpecified (hM t ht).2 hcov]
    exact ht
  · intro q hq hcount
    exact hq.2 q hq.1 ((absentCount_eq_zero_iff q).1 hcount) (Covers_refl q)
  · intro t ht
    exact le_of_eq ((absentCount_eq_zero_iff t).2 (hM t ht).2)
  · intro t _ hlt
    exact absurd hlt (Nat.not_lt_zero _)

/-- From the state after `r` calls the run returns within `n - r` further
merging calls, and returns prime implicants only. -/
theorem Step1Fuel_of_mergeState (M : List Term) (n : Nat) :
    ∀ (k r : Nat) (S : List Term) (ord : Nat → MapOrder), mergeState M n r S → r + k = n →
      ∃ res, Step1Fuel ord (k + 1) S = Run.done res ∧
        ∀ p ∈ res, isImplicant M n p ∧ isPrime M n p := by
  intro k
  induction k with
  | zero =>
    intro r S ord hS hr
    have hlen : ∀ t ∈ S, t.length = n := fun t ht => (hS.1 t ht).1
    have hno : ∀ a ∈ S, ∀ b ∈ S, mergeable a b = false := by
      intro a ha b hb
      by_contra hm
      obtain ⟨_, _, _, _, _, _, hlt⟩ := mergeState_mergeable hS ha hb (by simpa using hm)
      omega
    refine ⟨S, Step1Fuel_of_no_merge ord 0 S n hlen hno, ?_⟩
    intro p hp
    refine ⟨hS.1 p hp, mergeState_prime hS hp ?_⟩
    simp only [hasPartner, List.any_eq_false, Bool.or_eq_true, not_or, Bool.not_eq_true]
    exact fun y hy => ⟨hno p hp y hy, hno y hy p hp⟩
  | succ k ih =>
    intro r S ord hS hr
    have hlen : ∀ t ∈ S, t.length = n := fun t ht => (hS.1 t ht).1
    rw [Step1Fuel_succ ord (k + 1) S n hlen]
    by_cases hg : (gluedTerms (ord 0) S).length = 0
    · have hno := (gluedTerms_length_eq_zero _ _).1 hg
      refine ⟨S, by rw [if_pos hg], ?_⟩
      intro p hp
      refine ⟨hS.1 p hp, mergeState_prime hS hp ?_⟩
      simp only [hasPartner, List.any_eq_false, Bool.or_eq_true, not_or, Bool.not_eq_true]
      exact fun y hy => ⟨hno p hp y hy, hno y hy p hp⟩
    · rw [if_neg hg]
      exact ih (r + 1) _ _ (mergeState_nextImpls hS (ord 0) (ord 1)) (by omega)

/-! ## Facts about `MakeSDNF` -/

theorem halvings_pow (n fuel : Nat) (h : n < fuel) : halvings fuel (2 ^ n) = n := by
  induction n generalizing fuel with
  | zero =>
    cases fuel with
    | zero => omega
    | succ fuel => simp [halvings]
  | succ n ih =>
    cases fuel with
    | zero => omega
    | succ fuel =>
      have h2 : ¬ 2 ^ (n + 1) < 2 := by
        have : 0 < 2 ^ n := Nat.two_pow_pos n
        rw [Nat.pow_succ]
        omega
      have h3 : 2 ^ (n + 1) / 2 = 2 ^ n := by
        rw [Nat.pow_succ]
        exact Nat.mul_div_cancel _ (by decide)
      simp only [halvings, h2, if_false, h3, ih fuel (by omega)]

theorem log2Floor_pow (n : Nat) : log2Floor (2 ^ n) = n :=
  halvings_pow n (2 ^ n) (Nat.lt_two_pow n)

theorem binaryDigits_length (fuel v k : Nat) (acc : Term) (hv : v < 2 ^ k) :
    (binaryDigits fuel v acc).length ≤ k + acc.length := by
  induction fuel generalizing v k acc with
  | zero => simp [binaryDigits]
  | succ fuel ih =>
    by_cases h0 : v = 0
    · simp [binaryDigits, h0]
    · simp only [binaryDigits, h0, if_false]
      cases k with
      | zero =>
        simp at hv
        omega
      | succ k =>
        have hv2 : v / 2 < 2 ^ k := by
          rw [Nat.pow_succ] at hv
          omega
        have := ih (v / 2) k ((if v % 2 = 1 then Bit.True else Bit.False) :: acc) hv2
        simp only [List.length_cons] at this
        omega

theorem binaryDigits_fullySpecified (fuel v : Nat) (acc : Term)
    (hacc : fullySpecified acc = true) : fullySpecified (binaryDigits fuel v acc) = true := by
  induction fuel generalizing v acc with
  | zero => simpa [binaryDigits] using hacc
  | succ fuel ih =>
    by_cases h0 : v = 0
    · simpa [binaryDigits, h0] using hacc
    · simp only [binaryDigits, h0, if_false]
      apply ih
      by_cases h1 : v % 2 = 1
      · simpa [fullySpecified, h1] using hacc
      · simpa [fullySpecified, h1] using hacc

theorem formatBinary_length (n i : Nat) (hn : 1 ≤ n) (hi : i < 2 ^ n) :
    (formatBinary n i).length = n := by
  unfold formatBinary
  by_cases h0 : i = 0
  · simp [h0]
    omega
  · have := binaryDigits_length i i n [] hi
    simp only [h0, if_false, List.length_append, List.length_replicate]
    simp only [List.length_nil] at this
    omega

theorem formatBinary_fullySpecified (n i : Nat) : fullySpecified (formatBinary n i) = true := by
  unfold formatBinary
  have h1 : fullySpecified (if i = 0 then [Bit.False] else binaryDigits i i []) = true := by
    by_cases h0 : i = 0
    · simp [h0, fullySpecified]
    · simp only [h0, if_false]
      exact binaryDigits_fullySpecified i i [] rfl
  simp only [fullySpecified, List.all_append, Bool.and_eq_true] at h1 ⊢
  refine ⟨?_, h1⟩
  simp [List.all_eq_true]

/-- The terms of `MakeSDNF f` for a vector of length `2 ^ n`, `n ≥ 1`, have `n`
positions, none absent. -/
theorem MakeSDNF_terms (n : Nat) (hn : 1 ≤ n) (f : List Int) (hf : f.length = 2 ^ n) :
    ∀ t ∈ MakeSDNF f, t.length = n ∧ fullySpecified t = true := by
  intro t ht
  simp only [MakeSDNF, hf, log2Floor_pow, List.mem_filterMap, List.mem_range] at ht
  obtain ⟨i, hi, hti⟩ := ht
  split at hti
  · simp only [Option.some.injEq] at hti
    subst hti
    exact ⟨formatBinary_length n i hn hi, formatBinary_fullySpecified n i⟩
  · simp at hti

/-- C4. For a truth table `f` of length `2 ^ n`, `n ≥ 1`, the run of `Step1` on
`MakeSDNF f` returns, and every term `p` it returns is a prime implicant of `f`:
every fully specified term of length `n` that `p` covers is a minterm of `f`,
and for every position where `p` is not absent the term with that position made
absent covers a fully specified term that is not a minterm of `f`. -/
theorem Step1_prime_implicants (n : Nat) (hn : 1 ≤ n) (f : List Int) (hf : f.length = 2 ^ n)
    (ord : Nat → MapOrder) :
    ∃ (fuel : Nat) (r : List Term),
      (∀ extra, Step1Fuel ord (fuel + extra) (MakeSDNF f) = Run.done r) ∧
      ∀ p ∈ r,
        (∀ x : Term, x.length = n → fullySpecified x = true → Term.Covers p x = true →
          x ∈ MakeSDNF f) ∧
        (∀ (i : Nat) (hi : i < p.length), p[i] ≠ Bit.Tilde →
          ∃ x : Term, x.length = n ∧ fullySpecified x = true ∧
            Term.Covers (p.set i Bit.Tilde) x = true ∧ x ∉ MakeSDNF f) := by
  have hM := MakeSDNF_terms n hn f hf
  obtain ⟨r, hr, hprime⟩ := Step1Fuel_of_mergeState (MakeSDNF f) n n 0 (MakeSDNF f) ord
    (mergeState_zero _ n hM) (by omega)
  refine ⟨n + 1, r, fun extra => Step1Fuel_mono n (n + 1) ord _ r extra
    (fun t ht => (hM t ht).1) hr, ?_⟩
  intro p hp
  obtain ⟨himp, hpr⟩ := hprime p hp
  refine ⟨himp.2, ?_⟩
  intro i hi hne
  have hdec : p = p.take i ++ p[i] :: p.drop (i + 1) := by
    rw [← List.drop_eq_getElem_cons hi, List.take_append_drop]
  have hnot := hpr (p.take i) (p.drop (i + 1)) p[i] hdec hne
  have hset : p.set i Bit.Tilde = p.take i ++ Bit.Tilde :: p.drop (i + 1) := by
    rw [List.set_eq_take_append_cons_drop, if_pos hi]
  rw [← hset] at hnot
  unfold isImplicant at hnot
  have hl : (p.set i Bit.Tilde).length = n := by
    rw [List.length_set]
    exact himp.1
  simp only [hl, true_and, not_forall] at hnot
  obtain ⟨x, hx1, hx2, hx3, hx4⟩ := hnot
  exact ⟨x, hx1, hx2, hx3, hx4⟩

/-- Witness of C4 on the truth table of "not both" of two variables. -/
theorem Step1_prime_implicants_witness :
    1 ≤ 2 ∧ notBothTable.length = 2 ^ 2 ∧
      ∃ (fuel : Nat) (r : List Term),
        (∀ extra, Step1Fuel (fun _ => MapOrder.stored) (fuel + extra)
          (MakeSDNF notBothTable) = Run.done r) ∧
        ∀ p ∈ r,
          (∀ x : Term, x.length = 2 → fullySpecified x = true → Term.Covers p x = true →
            x ∈ MakeSDNF notBothTable) ∧
          (∀ (i : Nat) (hi : i < p.length), p[i] ≠ Bit.Tilde →
            ∃ x : Term, x.length = 2 ∧ fullySpecified x = true ∧
              Term.Covers (p.set i Bit.Tilde) x = true ∧ x ∉ MakeSDNF notBothTable) :=
  ⟨by decide, by decide,
    Step1_prime_implicants 2 (by decide) notBothTable (by decide) (fun _ => MapOrder.stored)⟩

/-- C8, counterexample. On `reEmittedTerms`, four terms of length 2, `Step1`
merges in three successive calls: after three calls the run has not returned,
the fourth call returns. -/
theorem Step1_rounds_counterexample :
    (∀ t ∈ reEmittedTerms, t.length = 2) ∧
      Step1Fuel (fun _ => MapOrder.stored) (2 + 1) reEmittedTerms = Run.outOfFuel ∧
      Step1Fuel (fun _ => MapOrder.stored) (3 + 1) reEmittedTerms =
        Run.done [[Bit.Tilde, Bit.Tilde]] := by
  decide

/-- C8, amended. On a list of fully specified terms of common length `n` (the
minterm lists the pipeline passes to `Step1`) at most `n` successive calls
merge: the run returns within `n + 1` calls. -/
theorem Step1_rounds_fullySpecified (n : Nat) (ord : Nat → MapOrder) (impls : List Term)
    (hfull : ∀ t ∈ impls, t.length = n ∧ fullySpecified t = true) :
    ∃ r, Step1Fuel ord (n + 1) impls = Run.done r := by
  obtain ⟨r, hr, _⟩ := Step1Fuel_of_mergeState impls n n 0 impls ord
    (mergeState_zero _ n hfull) (by omega)
  exact ⟨r, hr⟩

/-- Witness of the amended C8 on the four minterms of two variables, which need
two merging calls. -/
theorem Step1_rounds_fullySpecified_witness :
    (∀ t ∈ fourMinterms, t.length = 2 ∧ fullySpecified t = true) ∧
      ∃ r, Step1Fuel (fun _ => MapOrder.stored) (2 + 1) fourMinterms = Run.done r :=
  ⟨by decide, Step1_rounds_fullySpecified 2 (fun _ => MapOrder.stored) fourMinterms
    (by decide)⟩

/-! ## The search of step 5 -/

/-- C2, failing input. For `redundantTable` the pipeline returns all three prime
implicants (cost 9), although the two essential rows alone pass `IsRowsCovers`
and cost 6: the combinations of zero non-essential rows are not among the
candidates. -/
theorem Step5_not_minimal :
    Step1Fuel (fun _ => MapOrder.stored) 3 (MakeSDNF redundantTable) =
        Run.done redundantPrimes ∧
      (Steps2and3and4 redundantPrimes (MakeSDNF redundantTable)).2 = [0, 1] ∧
      Step5 MapOrder.stored (Steps2and3and4 redundantPrimes (MakeSDNF redundantTable)).1
        [0, 1] = some redundantPrimes ∧
      complexity redundantPrimes = 9 ∧
      (Steps2and3and4 redundantPrimes (MakeSDNF redundantTable)).1.IsRowsCovers [0, 1] =
        some true ∧
      (rowTerms (Steps2and3and4 redundantPrimes (MakeSDNF redundantTable)).1 [0, 1]).map
        complexity = some 6 := by
  decide

theorem Steps2and3and4_single (t : Term) :
    Steps2and3and4 [t] [t] =
      ({ Columns := [{ Term := t, IsMarked := true }]
         Rows := [{ Term := t, IsMarked := true }]
         Marks := [[true]] }, [0]) := by
  simp [Steps2and3and4, NewTable, Covers_refl, markEssential, scanColumn, Table.mark,
    List.range_succ, List.modify, insertKey]

theorem complexity_single (t : Term) : complexity [t] = t.length := by
  simp [complexity]

/-- With a single row whose term has `math.MaxInt32` positions or more, no
candidate is below the initial `minComplexity`, and `Step5` returns `nil`. -/
theorem Step5_single_long (ord : MapOrder) (t : Term) (h : MaxInt32 ≤ t.length) :
    Step5 ord (Steps2and3and4 [t] [t]).1 (Steps2and3and4 [t] [t]).2 = some [] := by
  rw [Steps2and3and4_single]
  have hc : ¬ complexity [t] < MaxInt32 := by
    rw [complexity_single]
    omega
  simp [Step5, possibleResults, selectMin, hc]

theorem longTerm_length : longTerm.length = MaxInt32 := by
  unfold longTerm
  rw [List.length_replicate]

/-- C5, failing input. The only prime term covers the only source term, the
table marks the column in the row, and `Step5` returns no term at all: the cost
`2147483647` of the candidate of all rows is not below the initial
`minComplexity = math.MaxInt32`. -/
theorem Step5_sentinel_failure :
    (∀ s ∈ [longTerm], ∃ p ∈ [longTerm], Term.Covers p s = true) ∧
      (Steps2and3and4 [longTerm] [longTerm]).1.Columns.length = 1 ∧
      (Steps2and3and4 [longTerm] [longTerm]).1.mark 0 0 = some true ∧
      Step5 MapOrder.stored (Steps2and3and4 [longTerm] [longTerm]).1
        (Steps2and3and4 [longTerm] [longTerm]).2 = some [] := by
  refine ⟨?_, ?_, ?_, Step5_single_long MapOrder.stored longTerm (le_of_eq longTerm_length.symm)⟩
  · intro s hs
    exact ⟨s, hs, Covers_refl s⟩
  · rw [Steps2and3and4_single]
    rfl
  · rw [Steps2and3and4_single]
    rfl

/-! ## The binary digits written by `MakeSDNF` -/

theorem foldl_value_append (a b : Term) (v : Nat) :
    (a ++ b).foldl (fun acc bit => 2 * acc + (if bit = Bit.True then 1 else 0)) v =
      b.foldl (fun acc bit => 2 * acc + (if bit = Bit.True then 1 else 0))
        (a.foldl (fun acc bit => 2 * acc + (if bit = Bit.True then 1 else 0)) v) := by
  rw [List.foldl_append]

theorem foldl_value_shift (b : Term) (v : Nat) :
    b.foldl (fun acc bit => 2 * acc + (if bit = Bit.True then 1 else 0)) v =
      v * 2 ^ b.length + termValue b := by
  unfold termValue
  induction b generalizing v with
  | nil => simp
  | cons x xs ih =>
    simp only [List.foldl_cons, List.length_cons]
    rw [ih (2 * v + _), ih (2 * 0 + _)]
    rw [Nat.pow_succ]
    ring

theorem termValue_append (a b : Term) :
    termValue (a ++ b) = termValue a * 2 ^ b.length + termValue b := by
  unfold termValue
  rw [foldl_value_append, foldl_value_shift]
  rfl

theorem termValue_cons (x : Bit) (xs : Term) :
    termValue (x :: xs) = (if x = Bit.True then 1 else 0) * 2 ^ xs.length + termValue xs := by
  have := termValue_append [x] xs
  simpa [termValue] using this

theorem termValue_replicate_False (k : Nat) : termValue (List.replicate k Bit.False) = 0 := by
  induction k with
  | zero => rfl
  | succ k ih =>
    rw [List.replicate_succ, termValue_cons, ih]
    simp

theorem binaryDigits_acc (fuel v : Nat) (acc : Term) :
    binaryDigits fuel v acc = binaryDigits fuel v [] ++ acc := by
  induction fuel generalizing v acc with
  | zero => simp [binaryDigits]
  | succ fuel ih =>
    by_cases h0 : v = 0
    · simp [binaryDigits, h0]
    · simp only [binaryDigits, h0, if_false]
      rw [ih (v / 2) (_ :: acc), ih (v / 2) [_]]
      simp

theorem termValue_binaryDigits (fuel v : Nat) (h : v ≤ fuel) :
    termValue (binaryDigits fuel v []) = v := by
  induction fuel generalizing v with
  | zero =>
    have : v = 0 := by omega
    subst this
    rfl
  | succ fuel ih =>
    by_cases h0 : v = 0
    · subst h0
      rfl
    · simp only [binaryDigits, h0, if_false]
      rw [binaryDigits_acc, termValue_append, ih (v / 2) (by omega)]
      by_cases h1 : v % 2 = 1
      · simp [h1, termValue]
        omega
      · simp [h1, termValue]
        omega

/-- The term `MakeSDNF` writes for the index `i` spells `i` in binary. -/
theorem termValue_formatBinary (width i : Nat) : termValue (formatBinary width i) = i := by
  unfold formatBinary
  simp only
  rw [termValue_append, termValue_replicate_False]
  by_cases h0 : i = 0
  · subst h0
    simp [termValue]
  · simp only [h0, if_false, Nat.zero_mul, Nat.zero_add]
    exact termValue_binaryDigits i i (le_refl i)

theorem formatBinary_injective (width i j : Nat)
    (h : formatBinary width i = formatBinary width j) : i = j := by
  have := congrArg termValue h
  rwa [termValue_formatBinary, termValue_formatBinary] at this

/-- Membership in `MakeSDNF f`, for a vector of length `2 ^ n`. -/
theorem mem_MakeSDNF (n : Nat) (f : List Int) (hf : f.length = 2 ^ n) (t : Term) :
    t ∈ MakeSDNF f ↔ ∃ i, i < 2 ^ n ∧ f[i]? = some 1 ∧ t = formatBinary n i := by
  simp only [MakeSDNF, hf, log2Floor_pow, List.mem_filterMap, List.mem_range]
  constructor
  · rintro ⟨i, hi, hti⟩
    split at hti
    · rename_i h1
      exact ⟨i, hi, h1, by simpa using hti.symm⟩
    · simp at hti
  · rintro ⟨i, hi, h1, rfl⟩
    exact ⟨i, hi, by simp [h1]⟩

/-! ## The table of `Steps2and3and4` -/

theorem map_Term_modify (l : List Line) (k : Nat) :
    (l.modify (fun r => { r with IsMarked := true }) k).map (fun r => r.Term) =
      l.map fun r => r.Term := by
  apply List.ext_getElem?
  intro m
  simp only [List.getElem?_map, List.getElem?_modify]
  cases l[m]? with
  | none => rfl
  | some a => by_cases h : k = m <;> simp [h]

theorem markEssential_Marks (t : Table) (j : Nat) : (markEssential t j).Marks = t.Marks := by
  unfold markEssential
  simp only
  split <;> rfl

theorem markEssential_Rows (t : Table) (j : Nat) :
    (markEssential t j).Rows.map (fun r => r.Term) = t.Rows.map fun r => r.Term := by
  unfold markEssential
  simp only
  split
  · exact map_Term_modify _ _
  · rfl

theorem markEssential_Columns (t : Table) (j : Nat) :
    (markEssential t j).Columns.map (fun r => r.Term) = t.Columns.map fun r => r.Term := by
  unfold markEssential
  simp only
  split
  · exact map_Term_modify _ _
  · rfl

theorem foldl_markEssential (t : Table) (js : List Nat) :
    (js.foldl markEssential t).Marks = t.Marks ∧
      (js.foldl markEssential t).Rows.map (fun r => r.Term) = t.Rows.map (fun r => r.Term) ∧
      (js.foldl markEssential t).Columns.map (fun r => r.Term) =
        t.Columns.map fun r => r.Term := by
  induction js generalizing t with
  | nil => exact ⟨rfl, rfl, rfl⟩
  | cons j js ih =>
    rw [List.foldl_cons]
    obtain ⟨h1, h2, h3⟩ := ih (markEssential t j)
    exact ⟨h1.trans (markEssential_Marks t j), h2.trans (markEssential_Rows t j),
      h3.trans (markEssential_Columns t j)⟩

/-- The table `Steps2and3and4` returns has the marks, the row terms and the
column terms of `NewTable`. -/
theorem Steps2and3and4_table (prime source : List Term) :
    (Steps2and3and4 prime source).1.Marks = (NewTable prime source).Marks ∧
      (Steps2and3and4 prime source).1.Rows.map (fun r => r.Term) = prime ∧
      (Steps2and3and4 prime source).1.Columns.map (fun r => r.Term) = source := by
  obtain ⟨h1, h2, h3⟩ := foldl_markEssential (NewTable prime source)
    (List.range (NewTable prime source).Columns.length)
  refine ⟨h1, ?_, ?_⟩
  · rw [show (Steps2and3and4 prime source).1 =
      (List.range (NewTable prime source).Columns.length).foldl markEssential
        (NewTable prime source) from rfl, h2]
    simp [NewTable, Function.comp_def]
  · rw [show (Steps2and3and4 prime source).1 =
      (List.range (NewTable prime source).Columns.length).foldl markEssential
        (NewTable prime source) from rfl, h3]
    simp [NewTable, Function.comp_def]

theorem Steps2and3and4_Rows_length (prime source : List Term) :
    (Steps2and3and4 prime source).1.Rows.length = prime.length := by
  have := congrArg List.length (Steps2and3and4_table prime source).2.1
  simpa using this

theorem Steps2and3and4_Columns_length (prime source : List Term) :
    (Steps2and3and4 prime source).1.Columns.length = source.length := by
  have := congrArg List.length (Steps2and3and4_table prime source).2.2
  simpa using this

theorem Steps2and3and4_wellFormed (prime source : List Term) :
    (Steps2and3and4 prime source).1.WellFormed := by
  have hw := NewTable_wellFormed prime source
  obtain ⟨h1, _, _⟩ := Steps2and3and4_table prime source
  constructor
  · rw [h1, hw.1, Steps2and3and4_Rows_length]
    simp [NewTable]
  · intro row hrow
    rw [h1] at hrow
    rw [hw.2 row hrow, Steps2and3and4_Columns_length]
    simp [NewTable]

theorem Steps2and3and4_mark (prime source : List Term) (i j : Nat) :
    (Steps2and3and4 prime source).1.mark i j = (NewTable prime source).mark i j := by
  unfold Table.mark
  rw [(Steps2and3and4_table prime source).1]

theorem Steps2and3and4_row_Term (prime source : List Term) (i : Nat)
    (hi : i < prime.length) :
    (Steps2and3and4 prime source).1.Rows[i]?.map (fun r => r.Term) = some prime[i] := by
  have := congrArg (fun l => l[i]?) (Steps2and3and4_table prime source).2.1
  simpa [List.getElem?_map, List.getElem?_eq_getElem hi] using this

/-- The keys collected by the last loop of `Steps2and3and4`: the numbers of the
marked rows, in increasing order. -/
theorem foldl_essentials (rows : List Line) (n : Nat) :
    (List.range n).foldl
        (fun es i => if (rows[i]?.map fun r => r.IsMarked) = some true then insertKey es i
          else es) [] =
      (List.range n).filter fun i => (rows[i]?.map fun r => r.IsMarked) == some true := by
  induction n with
  | zero => rfl
  | succ n ih =>
    rw [List.range_succ, List.foldl_append, ih, List.filter_append]
    by_cases h : (rows[n]?.map fun r => r.IsMarked) = some true
    · have hn : n ∉ (List.range n).filter fun i =>
          (rows[i]?.map fun r => r.IsMarked) == some true := by
        intro hmem
        have := (List.mem_filter.1 hmem).1
        simp at this
      have hb : ((rows[n]?.map fun r => r.IsMarked) == some true) = true := by
        rw [h]
        rfl
      simp only [List.foldl_cons, List.foldl_nil, if_pos h, insertKey, if_neg hn,
        List.filter_cons, List.filter_nil, hb, if_true]
    · have hb : ((rows[n]?.map fun r => r.IsMarked) == some true) = false := by
        rw [beq_eq_false_iff_ne]
        exact h
      simp only [List.foldl_cons, List.foldl_nil, if_neg h, List.filter_cons, List.filter_nil,
        hb, Bool.false_eq_true, if_false, List.append_nil]

theorem Steps2and3and4_essentials (prime source : List Term) :
    (Steps2and3and4 prime source).2 =
      (List.range (Steps2and3and4 prime source).1.Rows.length).filter fun i =>
        ((Steps2and3and4 prime source).1.Rows[i]?.map fun r => r.IsMarked) == some true :=
  foldl_essentials _ _

theorem Steps2and3and4_essentials_lt (prime source : List Term) :
    ∀ i ∈ (Steps2and3and4 prime source).2, i < prime.length := by
  intro i hi
  rw [Steps2and3and4_essentials] at hi
  have := (List.mem_filter.1 hi).1
  rw [List.mem_range, Steps2and3and4_Rows_length] at this
  exact this

/-! ## The candidates of `Step5` -/

/-- The combinations of `k` elements of `l` are the sublists of `l` of length
`k`. -/
theorem mem_CombinationsInt (l : List Nat) (k : Nat) (c : List Nat) :
    c ∈ CombinationsInt l k ↔ c.Sublist l ∧ c.length = k := by
  induction l generalizing k c with
  | nil =>
    cases k with
    | zero => simp [CombinationsInt]
    | succ k =>
      simp only [CombinationsInt, List.not_mem_nil, List.sublist_nil, false_iff, not_and]
      intro h
      subst h
      simp
  | cons x xs ih =>
    cases k with
    | zero =>
      simp only [CombinationsInt, List.mem_singleton, List.length_eq_zero]
      constructor
      · intro h
        subst h
        simp
      · exact fun h => h.2
    | succ k =>
      simp only [CombinationsInt, List.mem_append, List.mem_map, ih]
      constructor
      · rintro (⟨c1, ⟨hs, hl⟩, rfl⟩ | ⟨hs, hl⟩)
        · exact ⟨hs.cons₂ x, by simp [hl]⟩
        · exact ⟨hs.cons x, hl⟩
      · rintro ⟨hs, hl⟩
        cases hs with
        | cons _ h => exact Or.inr ⟨h, hl⟩
        | cons₂ _ h =>
          rename_i c1
          exact Or.inl ⟨c1, ⟨h, by simpa using hl⟩, rfl⟩

theorem mem_GetCombinations_lt (t : Table) (k : Nat) (essential : List Nat)
    (hess : ∀ i ∈ essential, i < t.Rows.length) :
    ∀ comb ∈ GetCombinations t k essential, ∀ i ∈ comb, i < t.Rows.length := by
  intro comb hcomb i hi
  simp only [GetCombinations, List.mem_map] at hcomb
  obtain ⟨c, hc, rfl⟩ := hcomb
  rw [mem_foldl_insertKey, mem_foldl_insertKey] at hi
  rcases hi with (hi | hi) | hi
  · simp at hi
  · have := ((mem_CombinationsInt _ _ _).1 hc).1.subset hi
    exact List.mem_range.1 (List.mem_filter.1 this).1
  · exact hess i hi

theorem rowTerms_spec (t : Table) (idxs : List Nat) (h : ∀ i ∈ idxs, i < t.Rows.length) :
    ∃ r, rowTerms t idxs = some r ∧ r.length = idxs.length ∧
      ∀ q, q ∈ r ↔ ∃ i ∈ idxs, t.Rows[i]?.map (fun row => row.Term) = some q := by
  induction idxs with
  | nil => exact ⟨[], rfl, rfl, by simp⟩
  | cons i is ih =>
    obtain ⟨r, hr1, hr2, hr3⟩ := ih (fun k hk => h k (by simp [hk]))
    have hi : i < t.Rows.length := h i (by simp)
    refine ⟨t.Rows[i].Term :: r, ?_, by simp [hr2], ?_⟩
    · simp only [rowTerms, List.getElem?_eq_getElem hi, hr1]
    · intro q
      simp only [List.mem_cons, hr3, exists_eq_or_imp, List.getElem?_eq_getElem hi,
        Option.map_some', Option.some.injEq]
      constructor
      · rintro (h1 | h1)
        · exact Or.inl h1.symm
        · exact Or.inr h1
      · rintro (h1 | h1)
        · exact Or.inl h1.symm
        · exact Or.inr h1

theorem coveringResults_spec (ord : MapOrder) (t : Table) (hw : t.WellFormed)
    (combos : List (List Nat)) (h : ∀ comb ∈ combos, ∀ i ∈ comb, i < t.Rows.length) :
    ∃ rs, coveringResults ord t combos = some rs ∧
      ∀ r, r ∈ rs ↔ ∃ comb ∈ combos, t.IsRowsCovers comb = some true ∧
        rowTerms t (ord.visit comb) = some r := by
  induction combos with
  | nil => exact ⟨[], rfl, by simp⟩
  | cons comb rest ih =>
    obtain ⟨rs, hrs1, hrs2⟩ := ih (fun c hc => h c (by simp [hc]))
    obtain ⟨b, hb, _⟩ := IsRowsCovers_spec t hw comb
    cases b with
    | false =>
      refine ⟨rs, by simp only [coveringResults, hb, hrs1], ?_⟩
      intro r
      rw [hrs2]
      simp only [List.mem_cons, exists_eq_or_imp, hb]
      simp
    | true =>
      obtain ⟨r0, hr0, _, _⟩ := rowTerms_spec t (ord.visit comb)
        (fun i hi => h comb (by simp) i ((mem_visit ord comb i).1 hi))
      refine ⟨r0 :: rs, by simp only [coveringResults, hb, hr0, hrs1], ?_⟩
      intro r
      simp only [List.mem_cons, hrs2, exists_eq_or_imp, hb, hr0, true_and, Option.some.injEq]
      constructor
      · rintro (h1 | h1)
        · exact Or.inl h1.symm
        · exact Or.inr h1
      · rintro (h1 | h1)
        · exact Or.inl h1.symm
        · exact Or.inr h1

theorem possibleResults_spec (ord : MapOrder) (t : Table) (hw : t.WellFormed)
    (essential : List Nat) (hess : ∀ i ∈ essential, i < t.Rows.length) (sizes : List Nat) :
    ∃ rs, possibleResults ord t essential sizes = some rs ∧
      ∀ r, r ∈ rs ↔ ∃ k ∈ sizes, ∃ comb ∈ GetCombinations t k essential,
        t.IsRowsCovers comb = some true ∧ rowTerms t (ord.visit comb) = some r := by
  induction sizes with
  | nil => exact ⟨[], rfl, by simp⟩
  | cons k ks ih =>
    obtain ⟨rs, hrs1, hrs2⟩ := ih
    obtain ⟨rs0, h01, h02⟩ := coveringResults_spec ord t hw (GetCombinations t k essential)
      (mem_GetCombinations_lt t k essential hess)
    refine ⟨rs0 ++ rs, by simp only [possibleResults, h01, hrs1], ?_⟩
    intro r
    simp only [List.mem_append, h02, hrs2, List.mem_cons, exists_eq_or_imp]

theorem complexity_eq (result : List Term) :
    complexity result = (result.map List.length).sum := by
  unfold complexity
  have key : ∀ (l : List Term) (c : Nat),
      l.foldl (fun c term => c + term.length) c = c + (l.map List.length).sum := by
    intro l
    induction l with
    | nil => simp
    | cons x xs ih =>
      intro c
      rw [List.foldl_cons, ih]
      simp
      omega
  simpa using key result 0

theorem selectInvariant_step (seen : List (List Term)) (acc : Nat × List Term)
    (x : List Term) (h : selectInvariant seen acc) :
    selectInvariant (seen ++ [x]) (selectStep acc x) := by
  unfold selectStep
  rcases h with ⟨h1, h2⟩ | ⟨h1, h2, h3, h4⟩
  · subst h1
    by_cases hx : complexity x < MaxInt32
    · rw [if_pos hx]
      refine Or.inr ⟨by simp, rfl, hx, ?_⟩
      intro c hc
      rcases List.mem_append.1 hc with hc | hc
      · have := h2 c hc
        show complexity x ≤ complexity c
        omega
      · simp at hc
        subst hc
        exact le_refl _
    · rw [if_neg hx]
      refine Or.inl ⟨rfl, ?_⟩
      intro c hc
      rcases List.mem_append.1 hc with hc | hc
      · exact h2 c hc
      · simp at hc
        subst hc
        omega
  · by_cases hx : complexity x < acc.1
    · rw [if_pos hx]
      refine Or.inr ⟨by simp, rfl, ?_, ?_⟩
      · show complexity x < MaxInt32
        omega
      · intro c hc
        show complexity x ≤ complexity c
        rcases List.mem_append.1 hc with hc | hc
        · have := h4 c hc
          omega
        · simp at hc
          subst hc
          exact le_refl _
    · rw [if_neg hx]
      refine Or.inr ⟨by simp [h1], h2, h3, ?_⟩
      intro c hc
      rcases List.mem_append.1 hc with hc | hc
      · exact h4 c hc
      · simp at hc
        subst hc
        omega

theorem selectInvariant_foldl (l seen : List (List Term)) (acc : Nat × List Term)
    (h : selectInvariant seen acc) : selectInvariant (seen ++ l) (l.foldl selectStep acc) := by
  induction l generalizing seen acc with
  | nil => simpa using h
  | cons x xs ih =>
    rw [List.foldl_cons]
    have := ih (seen ++ [x]) _ (selectInvariant_step seen acc x h)
    simpa [List.append_assoc] using this

theorem selectMin_eq (results : List (List Term)) :
    selectMin results = (results.foldl selectStep (MaxInt32, [])).2 := rfl

/-- The selection loop of `Step5`: `nil` when no candidate is below
`math.MaxInt32`, otherwise a candidate of least complexity. -/
theorem selectMin_spec (results : List (List Term)) :
    ((∀ c ∈ results, MaxInt32 ≤ complexity c) → selectMin results = []) ∧
      ((∃ c ∈ results, complexity c < MaxInt32) →
        selectMin results ∈ results ∧
          ∀ c ∈ results, complexity (selectMin results) ≤ complexity c) := by
  have h0 := selectInvariant_foldl results [] (MaxInt32, []) (Or.inl ⟨rfl, by simp⟩)
  simp only [List.nil_append] at h0
  rw [selectMin_eq]
  constructor
  · intro hall
    rcases h0 with ⟨h1, _⟩ | ⟨h1, h2, h3, _⟩
    · rw [h1]
    · have := hall _ h1
      omega
  · rintro ⟨c, hc, hlt⟩
    rcases h0 with ⟨_, h2⟩ | ⟨h1, h2, _, h4⟩
    · have := h2 c hc
      omega
    · refine ⟨h1, ?_⟩
      intro c2 hc2
      rw [← h2]
      exact h4 c2 hc2

/-- A row set that passes `IsRowsCovers` on the table of `Steps2and3and4` yields
terms of `prime` that cover every source term. -/
theorem candidate_covers (ord : MapOrder) (prime source : List Term) (comb : List Nat)
    (r : List Term) (hlt : ∀ i ∈ comb, i < prime.length)
    (hc : (Steps2and3and4 prime source).1.IsRowsCovers comb = some true)
    (hr : rowTerms (Steps2and3and4 prime source).1 (ord.visit comb) = some r) :
    (∀ q ∈ r, q ∈ prime) ∧ ∀ s ∈ source, ∃ q ∈ r, Term.Covers q s = true := by
  have hvis : ∀ i ∈ ord.visit comb, i < (Steps2and3and4 prime source).1.Rows.length := by
    intro i hi
    rw [Steps2and3and4_Rows_length]
    exact hlt i ((mem_visit ord comb i).1 hi)
  obtain ⟨r2, hr2, _, hmem⟩ := rowTerms_spec _ _ hvis
  rw [hr] at hr2
  cases hr2
  constructor
  · intro q hq
    obtain ⟨i, hi, hiq⟩ := (hmem q).1 hq
    have hil := hlt i ((mem_visit ord comb i).1 hi)
    rw [Steps2and3and4_row_Term prime source i hil] at hiq
    cases hiq
    exact List.getElem_mem hil
  · intro s hs
    obtain ⟨j, hj, rfl⟩ := List.getElem_of_mem hs
    obtain ⟨b, hb1, hb2⟩ := IsRowsCovers_spec _ (Steps2and3and4_wellFormed prime source) comb
    rw [hc] at hb1
    cases hb1
    obtain ⟨i, hi1, hi2, hi3⟩ := hb2.1 rfl j (by rw [Steps2and3and4_Columns_length]; exact hj)
    rw [Steps2and3and4_Rows_length] at hi1
    rw [Steps2and3and4_mark, NewTable_mark prime source i j hi1 hj] at hi3
    refine ⟨prime[i], (hmem _).2 ⟨i, (mem_visit ord comb i).2 hi2, ?_⟩, by simpa using hi3⟩
    exact Steps2and3and4_row_Term prime source i hi1

/-- `Step5` on the table of `Steps2and3and4` does not panic; below the initial
`minComplexity` it returns terms of `prime`, no more than `prime` has, that
cover every source term which `prime` covers. -/
theorem Step5_covers_below_sentinel (ord : MapOrder) (prime source : List Term)
    (hcov : ∀ s ∈ source, ∃ p ∈ prime, Term.Covers p s = true)
    (hcost : complexity prime < MaxInt32) :
    ∃ r, Step5 ord (Steps2and3and4 prime source).1 (Steps2and3and4 prime source).2 = some r ∧
      (∀ q ∈ r, q ∈ prime) ∧ (∀ s ∈ source, ∃ q ∈ r, Term.Covers q s = true) ∧
      complexity r ≤ complexity prime := by
  have hess : ∀ i ∈ (Steps2and3and4 prime source).2,
      i < (Steps2and3and4 prime source).1.Rows.length := by
    intro i hi
    rw [Steps2and3and4_Rows_length]
    exact Steps2and3and4_essentials_lt prime source i hi
  obtain ⟨rs, hrs1, hrs2⟩ := possibleResults_spec ord _ (Steps2and3and4_wellFormed prime source)
    _ hess (List.range' 1 ((Steps2and3and4 prime source).1.Rows.length -
      (Steps2and3and4 prime source).2.length - 1))
  have htriv : (Steps2and3and4 prime source).1.Rows.map (fun row => row.Term) = prime :=
    (Steps2and3and4_table prime source).2.1
  have hstep : Step5 ord (Steps2and3and4 prime source).1 (Steps2and3and4 prime source).2 =
      some (selectMin (rs ++ [prime])) := by
    simp only [Step5, hrs1, htriv]
  obtain ⟨hsel, hmin⟩ := (selectMin_spec (rs ++ [prime])).2 ⟨prime, by simp, hcost⟩
  refine ⟨_, hstep, ?_, ?_, hmin prime (by simp)⟩
  · rcases List.mem_append.1 hsel with h | h
    · obtain ⟨k, _, comb, hcomb, hc, hr⟩ := (hrs2 _).1 h
      have hlt : ∀ i ∈ comb, i < prime.length := by
        intro i hi
        have := mem_GetCombinations_lt _ k _ hess comb hcomb i hi
        rwa [Steps2and3and4_Rows_length] at this
      exact (candidate_covers ord prime source comb _ hlt hc hr).1
    · simp only [List.mem_singleton] at h
      rw [h]
      exact fun q hq => hq
  · rcases List.mem_append.1 hsel with h | h
    · obtain ⟨k, _, comb, hcomb, hc, hr⟩ := (hrs2 _).1 h
      have hlt : ∀ i ∈ comb, i < prime.length := by
        intro i hi
        have := mem_GetCombinations_lt _ k _ hess comb hcomb i hi
        rwa [Steps2and3and4_Rows_length] at this
      exact (candidate_covers ord prime source comb _ hlt hc hr).2
    · simp only [List.mem_singleton] at h
      rw [h]
      exact hcov

/-- Witness of `Step5_covers_below_sentinel` on the prime implicants of
`redundantTable`. -/
theorem Step5_covers_below_sentinel_witness :
    (∀ s ∈ MakeSDNF redundantTable, ∃ p ∈ redundantPrimes, Term.Covers p s = true) ∧
      complexity redundantPrimes < MaxInt32 ∧
      ∃ r, Step5 MapOrder.stored
          (Steps2and3and4 redundantPrimes (MakeSDNF redundantTable)).1
          (Steps2and3and4 redundantPrimes (MakeSDNF redundantTable)).2 = some r ∧
        (∀ q ∈ r, q ∈ redundantPrimes) ∧
        (∀ s ∈ MakeSDNF redundantTable, ∃ q ∈ r, Term.Covers q s = true) ∧
        complexity r ≤ complexity redundantPrimes :=
  ⟨by decide, by decide,
    Step5_covers_below_sentinel MapOrder.stored redundantPrimes (MakeSDNF redundantTable)
      (by decide) (by decide)⟩

/-- The whole pipeline on a truth table `f` of length `2 ^ n`, `n ≥ 1`: when the
cost of all prime implicants is below `math.MaxInt32`, the returned expression
is true exactly at the indices where `f` is 1. -/
theorem pipeline_equivalent_below_sentinel (n : Nat) (hn : 1 ≤ n) (f : List Int)
    (hf : f.length = 2 ^ n) (ord : Nat → MapOrder) (ord5 : MapOrder) :
    ∃ (fuel : Nat) (p : List Term),
      (∀ extra, Step1Fuel ord (fuel + extra) (MakeSDNF f) = Run.done p) ∧
      (complexity p < MaxInt32 →
        ∃ r, Step5 ord5 (Steps2and3and4 p (MakeSDNF f)).1 (Steps2and3and4 p (MakeSDNF f)).2 =
            some r ∧
          ∀ i, i < 2 ^ n →
            (f[i]? = some 1 ↔ ∃ q ∈ r, Term.Covers q (formatBinary n i) = true)) := by
  have hM := MakeSDNF_terms n hn f hf
  have hlen : ∀ t ∈ MakeSDNF f, t.length = n := fun t ht => (hM t ht).1
  obtain ⟨p, hp, hprime⟩ := Step1Fuel_of_mergeState (MakeSDNF f) n n 0 (MakeSDNF f) ord
    (mergeState_zero _ n hM) (by omega)
  have hcov := Step1Fuel_covers n (n + 1) ord (MakeSDNF f) p hlen hp
  refine ⟨n + 1, p, fun extra => Step1Fuel_mono n (n + 1) ord _ p extra hlen hp, ?_⟩
  intro hcost
  obtain ⟨r, hr, hsub, hcovr, _⟩ := Step5_covers_below_sentinel ord5 p (MakeSDNF f) hcov hcost
  refine ⟨r, hr, ?_⟩
  intro i hi
  constructor
  · intro h1
    exact hcovr _ ((mem_MakeSDNF n f hf _).2 ⟨i, hi, h1, rfl⟩)
  · rintro ⟨q, hq, hqc⟩
    have himp := (hprime q (hsub q hq)).1.2 (formatBinary n i) (formatBinary_length n i hn hi)
      (formatBinary_fullySpecified n i) hqc
    obtain ⟨j, _, hj1, hj2⟩ := (mem_MakeSDNF n f hf _).1 himp
    rw [formatBinary_injective n i j hj2]
    exact hj1

/-- Witness of `pipeline_equivalent_below_sentinel` on `redundantTable`. -/
theorem pipeline_equivalent_below_sentinel_witness :
    1 ≤ 3 ∧ redundantTable.length = 2 ^ 3 ∧
      ∃ (fuel : Nat) (p : List Term),
        (∀ extra, Step1Fuel (fun _ => MapOrder.stored) (fuel + extra)
          (MakeSDNF redundantTable) = Run.done p) ∧
        (complexity p < MaxInt32 →
          ∃ r, Step5 MapOrder.stored (Steps2and3and4 p (MakeSDNF redundantTable)).1
              (Steps2and3and4 p (MakeSDNF redundantTable)).2 = some r ∧
            ∀ i, i < 2 ^ 3 →
              (redundantTable[i]? = some 1 ↔
                ∃ q ∈ r, Term.Covers q (formatBinary 3 i) = true)) :=
  ⟨by decide, by decide,
    pipeline_equivalent_below_sentinel 3 (by decide) redundantTable (by decide)
      (fun _ => MapOrder.stored) MapOrder.stored⟩

/-! ## Tables in which every row is essential -/

theorem scanColumn_markEssential (t : Table) (k j : Nat) :
    scanColumn (markEssential t k) j = scanColumn t j := by
  have hl : (markEssential t k).Rows.length = t.Rows.length := by
    have := congrArg List.length (markEssential_Rows t k)
    simpa using this
  unfold scanColumn Table.mark
  rw [hl, markEssential_Marks]

theorem markEssential_Rows_length (t : Table) (k : Nat) :
    (markEssential t k).Rows.length = t.Rows.length := by
  have := congrArg List.length (markEssential_Rows t k)
  simpa using this

theorem markEssential_keeps (t : Table) (k i : Nat)
    (h : (t.Rows[i]?.map fun r => r.IsMarked) = some true) :
    ((markEssential t k).Rows[i]?.map fun r => r.IsMarked) = some true := by
  unfold markEssential
  simp only
  split
  · simp only [List.getElem?_modify]
    cases hr : t.Rows[i]? with
    | none => simp [hr] at h
    | some row =>
      simp only [hr, Option.map_some', Option.some.injEq] at h
      by_cases hk : (scanColumn t k).2 = i <;> simp [hk, h]
  · exact h

theorem markEssential_marks (t : Table) (j i : Nat) (hi : i < t.Rows.length)
    (h : scanColumn t j = (1, i)) :
    ((markEssential t j).Rows[i]?.map fun r => r.IsMarked) = some true := by
  unfold markEssential
  simp only [h, if_true, List.getElem?_modify, List.getElem?_eq_getElem hi]
  simp

theorem foldl_markEssential_keeps (t : Table) (js : List Nat) (i : Nat)
    (h : (t.Rows[i]?.map fun r => r.IsMarked) = some true) :
    ((js.foldl markEssential t).Rows[i]?.map fun r => r.IsMarked) = some true := by
  induction js generalizing t with
  | nil => exact h
  | cons j js ih => exact ih _ (markEssential_keeps t j i h)

/-- A row that is the only one marked in a visited column is marked essential. -/
theorem foldl_markEssential_marks (t : Table) (js : List Nat) (j i : Nat) (hj : j ∈ js)
    (hi : i < t.Rows.length) (h : scanColumn t j = (1, i)) :
    ((js.foldl markEssential t).Rows[i]?.map fun r => r.IsMarked) = some true := by
  induction js generalizing t with
  | nil => simp at hj
  | cons k ks ih =>
    rw [List.foldl_cons]
    rcases List.mem_cons.1 hj with hjk | hjk
    · subst hjk
      exact foldl_markEssential_keeps _ ks i (markEssential_marks t j i hi h)
    · exact ih (markEssential t k) hjk (by rw [markEssential_Rows_length]; exact hi)
        (by rw [scanColumn_markEssential]; exact h)

theorem foldl_scan_single (l : List Nat) (j : Nat) (acc : Nat × Nat) (p : Nat → Prop)
    [DecidablePred p] (hp : ∀ i ∈ l, (p i ↔ i = j)) (hnd : l.Nodup) :
    l.foldl (fun acc i => if p i then (acc.1 + 1, i) else acc) acc =
      if j ∈ l then (acc.1 + 1, j) else acc := by
  induction l generalizing acc with
  | nil => simp
  | cons x xs ih =>
    rw [List.foldl_cons]
    have hxs : ∀ i ∈ xs, (p i ↔ i = j) := fun i hi => hp i (by simp [hi])
    have hnd2 := (List.nodup_cons.1 hnd).2
    have hx := hp x (by simp)
    by_cases hxj : x = j
    · subst hxj
      have hnot : x ∉ xs := (List.nodup_cons.1 hnd).1
      rw [if_pos (hx.2 rfl), ih _ hxs hnd2]
      simp [hnot]
    · have hnp : ¬ p x := fun h => hxj (hx.1 h)
      rw [if_neg hnp, ih _ hxs hnd2]
      have : (j ∈ x :: xs) ↔ j ∈ xs := by
        simp only [List.mem_cons]
        constructor
        · rintro (h | h)
          · exact absurd h.symm hxj
          · exact h
        · exact Or.inr
      simp only [this]

/-- In the table of distinct fully specified terms against themselves each
column is marked in its own row only. -/
theorem scanColumn_diagonal (m : List Term) (hnd : m.Nodup)
    (hfull : ∀ t ∈ m, fullySpecified t = true) (j : Nat) (hj : j < m.length) :
    scanColumn (NewTable m m) j = (1, j) := by
  unfold scanColumn
  have hR : (NewTable m m).Rows.length = m.length := by simp [NewTable]
  rw [hR]
  have := foldl_scan_single (List.range m.length) j (0, 0)
    (fun i => (NewTable m m).mark i j = some true) (by
      intro i hi
      have hi2 := List.mem_range.1 hi
      show (NewTable m m).mark i j = some true ↔ i = j
      rw [NewTable_mark m m i j hi2 hj]
      simp only [Option.some.injEq]
      constructor
      · intro hc
        have := Covers_eq_of_fullySpecified (hfull _ (List.getElem_mem hi2)) hc
        exact (List.Nodup.getElem_inj_iff hnd).1 this
      · intro hij
        subst hij
        exact Covers_refl _) (List.nodup_range _)
  rw [this, if_pos (List.mem_range.2 hj)]

theorem Steps2and3and4_essentials_all (m : List Term) (hnd : m.Nodup)
    (hfull : ∀ t ∈ m, fullySpecified t = true) :
    (Steps2and3and4 m m).2 = List.range m.length := by
  rw [Steps2and3and4_essentials, Steps2and3and4_Rows_length]
  apply List.filter_eq_self.2
  intro i hi
  have hi2 := List.mem_range.1 hi
  have hC : (NewTable m m).Columns.length = m.length := by simp [NewTable]
  have hR : (NewTable m m).Rows.length = m.length := by simp [NewTable]
  have := foldl_markEssential_marks (NewTable m m) (List.range (NewTable m m).Columns.length)
    i i (by rw [hC]; exact hi) (by rw [hR]; exact hi2) (scanColumn_diagonal m hnd hfull i hi2)
  rw [show (Steps2and3and4 m m).1 =
    (List.range (NewTable m m).Columns.length).foldl markEssential (NewTable m m) from rfl, this]
  rfl

/-- When every row is essential, `Step5` has the single candidate of all rows;
it returns `nil` when that candidate is not below `math.MaxInt32`. -/
theorem Step5_all_essential_long (ord : MapOrder) (m : List Term) (hnd : m.Nodup)
    (hfull : ∀ t ∈ m, fullySpecified t = true) (hcost : MaxInt32 ≤ complexity m) :
    Step5 ord (Steps2and3and4 m m).1 (Steps2and3and4 m m).2 = some [] := by
  have htriv : (Steps2and3and4 m m).1.Rows.map (fun row => row.Term) = m :=
    (Steps2and3and4_table m m).2.1
  have hsizes : List.range' 1 ((Steps2and3and4 m m).1.Rows.length -
      (Steps2and3and4 m m).2.length - 1) = [] := by
    rw [Steps2and3and4_essentials_all m hnd hfull, Steps2and3and4_Rows_length]
    simp
  simp only [Step5, hsizes, possibleResults, htriv, List.nil_append]
  congr 1
  apply (selectMin_spec [m]).1
  intro c hc
  simp only [List.mem_singleton] at hc
  rw [hc]
  exact hcost

/-! ## The pipeline on a large table without adjacent minterms -/

theorem filterMap_eq_map_filter_of (l : List Nat) (g : Nat → Option Term) (p : Nat → Bool)
    (h : Nat → Term) (hg : ∀ i ∈ l, g i = if p i = true then some (h i) else none) :
    l.filterMap g = (l.filter p).map h := by
  induction l with
  | nil => rfl
  | cons x xs ih =>
    have hx := hg x (by simp)
    have hxs := ih (fun i hi => hg i (by simp [hi]))
    by_cases hp : p x = true
    · simp [List.filterMap_cons, hx, hp, hxs]
    · simp [List.filterMap_cons, hx, hp, hxs]

theorem thirdsTable_length (n : Nat) : (thirdsTable n).length = 2 ^ n := by
  simp [thirdsTable]

theorem MakeSDNF_thirdsTable (n : Nat) :
    MakeSDNF (thirdsTable n) =
      ((List.range (2 ^ n)).filter fun i => i % 3 == 0).map (formatBinary n) := by
  unfold MakeSDNF
  simp only [thirdsTable_length, log2Floor_pow]
  apply filterMap_eq_map_filter_of
  intro i hi
  have hi2 := List.mem_range.1 hi
  simp only [thirdsTable, List.getElem?_map, List.getElem?_range hi2, Option.map_some',
    Option.some.injEq, beq_iff_eq]
  by_cases h3 : i % 3 = 0 <;> simp [h3]

theorem two_pow_mod_three (k : Nat) : 2 ^ k % 3 ≠ 0 := by
  have key : 2 ^ k % 3 = 1 ∨ 2 ^ k % 3 = 2 := by
    induction k with
    | zero => left; rfl
    | succ k ih =>
      rw [Nat.pow_succ]
      omega
  omega

theorem termValue_mergeable {a b : Term} (h : mergeable a b = true)
    (ha : fullySpecified a = true) : ∃ k, termValue b = termValue a + 2 ^ k := by
  obtain ⟨pre, post, x, rfl, rfl, hx⟩ := (mergeable_iff a b).1 h
  rw [fullySpecified_append_cons] at ha
  simp only [Bool.and_eq_true, bne_iff_ne, ne_eq] at ha
  have hxF : x = Bit.False := by
    cases x with
    | Tilde => exact absurd rfl ha.1.2
    | False => rfl
    | True => exact absurd rfl hx
  subst hxF
  refine ⟨post.length, ?_⟩
  rw [termValue_append, termValue_append, termValue_cons, termValue_cons]
  simp
  omega

/-- The minterms of `thirdsTable n`: distinct, fully specified, of length `n`,
and no two of them are merged by `Step1`. -/
theorem thirdsTable_minterms (n : Nat) (hn : 1 ≤ n) :
    (MakeSDNF (thirdsTable n)).Nodup ∧
      (∀ t ∈ MakeSDNF (thirdsTable n), t.length = n ∧ fullySpecified t = true) ∧
      (∀ a ∈ MakeSDNF (thirdsTable n), ∀ b ∈ MakeSDNF (thirdsTable n),
        mergeable a b = false) := by
  refine ⟨?_, MakeSDNF_terms n hn _ (thirdsTable_length n), ?_⟩
  · rw [MakeSDNF_thirdsTable]
    apply List.Nodup.map_on
    · intro i _ j _ hij
      exact formatBinary_injective n i j hij
    · exact (List.nodup_range _).filter _
  · intro a ha b hb
    by_contra hm
    rw [MakeSDNF_thirdsTable] at ha hb
    simp only [List.mem_map, List.mem_filter, List.mem_range, beq_iff_eq] at ha hb
    obtain ⟨i, ⟨_, hi3⟩, rfl⟩ := ha
    obtain ⟨j, ⟨_, hj3⟩, rfl⟩ := hb
    obtain ⟨k, hk⟩ := termValue_mergeable (by simpa using hm) (formatBinary_fullySpecified n i)
    rw [termValue_formatBinary, termValue_formatBinary] at hk
    have := two_pow_mod_three k
    omega

theorem length_filter_thirds (N : Nat) :
    ((List.range N).filter fun i => i % 3 == 0).length = (N + 2) / 3 := by
  induction N with
  | zero => rfl
  | succ N ih =>
    rw [List.range_succ, List.filter_append, List.length_append, ih]
    by_cases h : N % 3 = 0
    · simp [h]
      omega
    · simp [h]
      omega

theorem complexity_of_length (m : List Term) (n : Nat) (h : ∀ t ∈ m, t.length = n) :
    complexity m = n * m.length := by
  rw [complexity_eq]
  induction m with
  | nil => simp
  | cons x xs ih =>
    simp only [List.map_cons, List.sum_cons, List.length_cons]
    rw [ih (fun t ht => h t (by simp [ht])), h x (by simp)]
    ring

theorem complexity_thirdsTable (n : Nat) (hn : 1 ≤ n) :
    complexity (MakeSDNF (thirdsTable n)) = n * ((2 ^ n + 2) / 3) := by
  rw [complexity_of_length _ n (fun t ht => ((thirdsTable_minterms n hn).2.1 t ht).1),
    MakeSDNF_thirdsTable, List.length_map, length_filter_thirds]

/-- The pipeline on `thirdsTable n`: `Step1` returns the minterms unchanged, and
when their cost is not below `math.MaxInt32`, `Step5` returns `nil`. -/
theorem pipeline_thirdsTable (n : Nat) (hn : 1 ≤ n) (hbig : MaxInt32 ≤ n * ((2 ^ n + 2) / 3))
    (ord : Nat → MapOrder) (ord5 : MapOrder) :
    Step1Fuel ord 1 (MakeSDNF (thirdsTable n)) = Run.done (MakeSDNF (thirdsTable n)) ∧
      Step5 ord5
        (Steps2and3and4 (MakeSDNF (thirdsTable n)) (MakeSDNF (thirdsTable n))).1
        (Steps2and3and4 (MakeSDNF (thirdsTable n)) (MakeSDNF (thirdsTable n))).2 = some [] := by
  obtain ⟨hnd, hterms, hno⟩ := thirdsTable_minterms n hn
  refine ⟨Step1Fuel_of_no_merge ord 0 _ n (fun t ht => (hterms t ht).1) hno, ?_⟩
  apply Step5_all_essential_long ord5 _ hnd (fun t ht => (hterms t ht).2)
  rw [complexity_thirdsTable n hn]
  exact hbig

/-- The sentinel of `Step5` without a bound on memory. For the truth table of 28
variables that is 1 at the indices divisible by 3, in every order of the map
iterations `Step1` returns the minterms unchanged and `Step5` returns no term,
although the table is 1 at the index 0: the cost of the only candidate is at
least `math.MaxInt32`.  The marks of this table take more than `heapBytes`
bytes (`thirdsTable_tableBytes`). -/
theorem pipeline_sentinel_failure (ord : Nat → MapOrder) (ord5 : MapOrder) :
    (thirdsTable 28).length = 2 ^ 28 ∧
      (thirdsTable 28)[0]? = some 1 ∧
      Step1Fuel ord 1 (MakeSDNF (thirdsTable 28)) = Run.done (MakeSDNF (thirdsTable 28)) ∧
      Step5 ord5
        (Steps2and3and4 (MakeSDNF (thirdsTable 28)) (MakeSDNF (thirdsTable 28))).1
        (Steps2and3and4 (MakeSDNF (thirdsTable 28)) (MakeSDNF (thirdsTable 28))).2 = some [] := by
  have hbig : MaxInt32 ≤ 28 * ((2 ^ 28 + 2) / 3) := by
    unfold MaxInt32
    norm_num
  obtain ⟨h1, h2⟩ := pipeline_thirdsTable 28 (by decide) hbig ord ord5
  refine ⟨thirdsTable_length 28, ?_, h1, h2⟩
  have h0 : 0 < 2 ^ 28 := Nat.two_pow_pos 28
  simp only [thirdsTable, List.getElem?_map, List.getElem?_range h0]
  rfl

/-! ## `Distance` and `DifferentBitIndex` -/

theorem Distance_eq_count (a b : Term) (h : a.length = b.length) :
    Term.Distance a b =
      some ((List.range a.length).filter fun i => a[i]? != b[i]?).length := by
  induction a generalizing b with
  | nil =>
    cases b with
    | nil => simp [Term.Distance]
    | cons y ys => simp at h
  | cons x xs ih =>
    cases b with
    | nil => simp at h
    | cons y ys =>
      have hl : xs.length = ys.length := by simpa using h
      rw [Distance_cons, ih ys hl, List.length_cons, List.range_succ_eq_map, List.filter_cons,
        List.filter_map]
      by_cases hxy : x = y
      · simp [hxy, Function.comp_def]
      · simp [hxy, Function.comp_def]

theorem firstDifferent_spec (a b : Term) (h : a.length = b.length) (k : Nat) :
    (a = b ∧ firstDifferent a b k = -1) ∨
      ∃ i, i < a.length ∧ firstDifferent a b k = ((k + i : Nat) : Int) ∧ a[i]? ≠ b[i]? ∧
        ∀ j, j < i → a[j]? = b[j]? := by
  induction a generalizing b k with
  | nil =>
    cases b with
    | nil => exact Or.inl ⟨rfl, rfl⟩
    | cons y ys => simp at h
  | cons x xs ih =>
    cases b with
    | nil => simp at h
    | cons y ys =>
      have hl : xs.length = ys.length := by simpa using h
      by_cases hxy : x = y
      · subst hxy
        have hstep : firstDifferent (x :: xs) (x :: ys) k = firstDifferent xs ys (k + 1) := by
          simp [firstDifferent]
        rcases ih ys hl (k + 1) with ⟨h1, h2⟩ | ⟨i, hi, h2, h3, h4⟩
        · exact Or.inl ⟨by rw [h1], by rw [hstep, h2]⟩
        · refine Or.inr ⟨i + 1, by simpa using hi, ?_, by simpa using h3, ?_⟩
          · rw [hstep, h2]
            congr 1
            omega
          · intro j hj
            cases j with
            | zero => simp
            | succ j => simpa using h4 j (by omega)
      · refine Or.inr ⟨0, by simp, ?_, by simpa using hxy, ?_⟩
        · simp [firstDifferent, hxy]
        · intro j hj
          omega

/-- C13. `Distance` and `DifferentBitIndex` panic exactly when the lengths of
the two terms differ; on terms of equal length `Distance` returns the number of
positions where the bits differ. -/
theorem Distance_DifferentBitIndex_panic (a b : Term) :
    (Term.Distance a b = none ↔ a.length ≠ b.length) ∧
      (Term.DifferentBitIndex a b = none ↔ a.length ≠ b.length) ∧
      (a.length = b.length →
        Term.Distance a b =
          some ((List.range a.length).filter fun i => a[i]? != b[i]?).length) := by
  refine ⟨?_, ?_, Distance_eq_count a b⟩
  · unfold Term.Distance
    by_cases h : a.length = b.length <;> simp [h]
  · unfold Term.DifferentBitIndex
    by_cases h : a.length = b.length <;> simp [h]

/-- C14. On terms of equal length `DifferentBitIndex` does not panic; it returns
`-1` exactly when the terms are `Equals` (exactly when their `Distance` is 0),
and otherwise the least index where the bits differ. -/
theorem DifferentBitIndex_spec (a b : Term) (h : a.length = b.length) :
    ∃ r : Int, Term.DifferentBitIndex a b = some r ∧
      (r = -1 ↔ Term.Equals a b = true) ∧
      (r = -1 ↔ Term.Distance a b = some 0) ∧
      (r ≠ -1 →
        ∃ i, i < a.length ∧ r = (i : Int) ∧ a[i]? ≠ b[i]? ∧ ∀ j, j < i → a[j]? = b[j]?) := by
  refine ⟨firstDifferent a b 0, by simp [Term.DifferentBitIndex, h], ?_⟩
  rcases firstDifferent_spec a b h 0 with ⟨h1, h2⟩ | ⟨i, hi, h2, h3, h4⟩
  · subst h1
    refine ⟨?_, ?_, ?_⟩
    · simp [h2, (Equals_iff_eq a a).2 rfl]
    · simp [h2, Distance_self]
    · intro hne
      exact absurd h2 hne
  · have hne : a ≠ b := fun e => h3 (by rw [e])
    have hr : firstDifferent a b 0 ≠ -1 := by
      rw [h2]
      omega
    refine ⟨?_, ?_, ?_⟩
    · constructor
      · intro e
        exact absurd e hr
      · intro e
        exact absurd ((Equals_iff_eq a b).1 e) hne
    · constructor
      · intro e
        exact absurd e hr
      · intro e
        exact absurd (Distance_eq_zero e) hne
    · intro _
      exact ⟨i, hi, by rw [h2]; simp, h3, h4⟩

/-- Witness of C14 on the terms `0~1` and `011`, which first differ at the
position 1. -/
theorem DifferentBitIndex_spec_witness :
    [Bit.False, Bit.Tilde, Bit.True].length = [Bit.False, Bit.True, Bit.True].length ∧
      ∃ r : Int,
        Term.DifferentBitIndex [Bit.False, Bit.Tilde, Bit.True]
          [Bit.False, Bit.True, Bit.True] = some r ∧
        (r = -1 ↔ Term.Equals [Bit.False, Bit.Tilde, Bit.True]
          [Bit.False, Bit.True, Bit.True] = true) ∧
        (r = -1 ↔ Term.Distance [Bit.False, Bit.Tilde, Bit.True]
          [Bit.False, Bit.True, Bit.True] = some 0) ∧
        (r ≠ -1 →
          ∃ i, i < [Bit.False, Bit.Tilde, Bit.True].length ∧ r = (i : Int) ∧
            [Bit.False, Bit.Tilde, Bit.True][i]? ≠ [Bit.False, Bit.True, Bit.True][i]? ∧
            ∀ j, j < i →
              [Bit.False, Bit.Tilde, Bit.True][j]? = [Bit.False, Bit.True, Bit.True][j]?) :=
  ⟨rfl, DifferentBitIndex_spec [Bit.False, Bit.Tilde, Bit.True]
    [Bit.False, Bit.True, Bit.True] rfl⟩

/-! ## Essential rows and columns -/

theorem foldl_scan_fst (l : List Nat) (p : Nat → Prop) [DecidablePred p] (acc : Nat × Nat) :
    (l.foldl (fun acc i => if p i then (acc.1 + 1, i) else acc) acc).1 =
      acc.1 + (l.filter fun i => decide (p i)).length := by
  induction l generalizing acc with
  | nil => simp
  | cons x xs ih =>
    rw [List.foldl_cons, ih]
    by_cases hx : p x
    · simp [hx]
      omega
    · simp [hx]

theorem foldl_scan_snd (l : List Nat) (p : Nat → Prop) [DecidablePred p] (acc : Nat × Nat) :
    ((l.filter fun i => decide (p i)) = [] ∧
        (l.foldl (fun acc i => if p i then (acc.1 + 1, i) else acc) acc).2 = acc.2) ∨
      (l.foldl (fun acc i => if p i then (acc.1 + 1, i) else acc) acc).2 ∈
        l.filter fun i => decide (p i) := by
  induction l generalizing acc with
  | nil => exact Or.inl ⟨rfl, rfl⟩
  | cons x xs ih =>
    rw [List.foldl_cons]
    by_cases hx : p x
    · right
      rcases ih (if p x then (acc.1 + 1, x) else acc) with ⟨h1, h2⟩ | h
      · rw [h2]
        simp [hx]
      · simp only [List.filter_cons, hx, decide_True, if_true, List.mem_cons] at h ⊢
        exact Or.inr h
    · rcases ih (if p x then (acc.1 + 1, x) else acc) with ⟨h1, h2⟩ | h
      · left
        refine ⟨by simp [List.filter_cons, hx, h1], ?_⟩
        rw [h2]
        simp [hx]
      · right
        simpa [List.filter_cons, hx] using h

theorem eq_singleton_of_nodup {l : List Nat} {i : Nat} (hnd : l.Nodup) (hall : ∀ x ∈ l, x = i)
    (hi : i ∈ l) : l = [i] := by
  cases l with
  | nil => simp at hi
  | cons a rest =>
    have ha : a = i := hall a (by simp)
    subst ha
    cases rest with
    | nil => rfl
    | cons b rest2 =>
      have hb : b = a := hall b (by simp)
      subst hb
      simp at hnd

/-- The scan of a column finds one mark, in the row `i`, exactly when the row
`i` is the only row marking the column. -/
theorem scanColumn_eq_one_iff (t : Table) (hw : t.WellFormed) (i j : Nat)
    (hj : j < t.Columns.length) :
    scanColumn t j = (1, i) ↔ onlyRowMarking t i j := by
  have h1 := foldl_scan_fst (List.range t.Rows.length) (fun k => t.mark k j = some true) (0, 0)
  have h2 := foldl_scan_snd (List.range t.Rows.length) (fun k => t.mark k j = some true) (0, 0)
  have hnd : ((List.range t.Rows.length).filter fun k =>
      decide (t.mark k j = some true)).Nodup := (List.nodup_range _).filter _
  constructor
  · intro hs
    have hs1 : (scanColumn t j).1 = 1 := by rw [hs]
    have hs2 : (scanColumn t j).2 = i := by rw [hs]
    unfold scanColumn at hs1 hs2
    rw [h1] at hs1
    simp only [Nat.zero_add] at hs1
    obtain ⟨x, hx⟩ := List.length_eq_one.1 hs1
    rcases h2 with ⟨h3, _⟩ | h3
    · rw [h3] at hx
      simp at hx
    · rw [hs2, hx] at h3
      simp only [List.mem_singleton] at h3
      subst h3
      have hmem : i ∈ (List.range t.Rows.length).filter fun k =>
          decide (t.mark k j = some true) := by
        rw [hx]
        simp
      simp only [List.mem_filter, List.mem_range, decide_eq_true_eq] at hmem
      refine ⟨hmem.1, hmem.2, ?_⟩
      intro k hk hki
      obtain ⟨m, hm⟩ := WellFormed_mark hw hk hj
      cases m with
      | false => exact hm
      | true =>
        exfalso
        have : k ∈ (List.range t.Rows.length).filter fun k =>
            decide (t.mark k j = some true) := by
          simp only [List.mem_filter, List.mem_range, decide_eq_true_eq]
          exact ⟨hk, hm⟩
        rw [hx] at this
        simp only [List.mem_singleton] at this
        exact hki this
  · rintro ⟨hi, hm, hothers⟩
    have hfilter : ((List.range t.Rows.length).filter fun k =>
        decide (t.mark k j = some true)) = [i] := by
      apply eq_singleton_of_nodup hnd
      · intro x hx
        simp only [List.mem_filter, List.mem_range, decide_eq_true_eq] at hx
        by_contra hxi
        have := hothers x hx.1 hxi
        rw [hx.2] at this
        simp at this
      · simp only [List.mem_filter, List.mem_range, decide_eq_true_eq]
        exact ⟨hi, hm⟩
    have e1 : (scanColumn t j).1 = 1 := by
      unfold scanColumn
      rw [h1, hfilter]
      rfl
    have e2 : (scanColumn t j).2 = i := by
      unfold scanColumn
      rcases h2 with ⟨h3, _⟩ | h3
      · rw [hfilter] at h3
        simp at h3
      · rw [hfilter] at h3
        simpa using h3
    exact Prod.ext e1 e2

theorem markEssential_Columns_length (t : Table) (k : Nat) :
    (markEssential t k).Columns.length = t.Columns.length := by
  have := congrArg List.length (markEssential_Columns t k)
  simpa using this

theorem rowMarked_markEssential (t : Table) (j i : Nat) :
    rowMarked (markEssential t j) i ↔
      rowMarked t i ∨ (i < t.Rows.length ∧ (scanColumn t j).1 = 1 ∧ (scanColumn t j).2 = i) := by
  unfold rowMarked markEssential
  simp only
  by_cases h1 : (scanColumn t j).1 = 1
  · simp only [h1, if_true, List.getElem?_modify, true_and]
    by_cases hi : i < t.Rows.length
    · simp only [List.getElem?_eq_getElem hi, Option.map_some', Option.some.injEq, hi, true_and]
      by_cases hk : (scanColumn t j).2 = i
      · simp [hk]
      · simp [hk]
    · simp [List.getElem?_eq_none (Nat.le_of_not_lt hi), hi]
  · simp [h1]

theorem columnMarked_markEssential (t : Table) (j j0 : Nat) :
    columnMarked (markEssential t j) j0 ↔
      columnMarked t j0 ∨ (j0 < t.Columns.length ∧ j = j0 ∧ (scanColumn t j).1 = 1) := by
  unfold columnMarked markEssential
  simp only
  by_cases h1 : (scanColumn t j).1 = 1
  · simp only [h1, if_true, List.getElem?_modify, and_true]
    by_cases hj : j0 < t.Columns.length
    · simp only [List.getElem?_eq_getElem hj, Option.map_some', Option.some.injEq, hj, true_and]
      by_cases hk : j = j0
      · simp [hk]
      · simp [hk]
    · simp [List.getElem?_eq_none (Nat.le_of_not_lt hj), hj]
  · simp [h1]

theorem foldl_markEssential_Rows_length (t : Table) (js : List Nat) :
    (js.foldl markEssential t).Rows.length = t.Rows.length := by
  have := congrArg List.length (foldl_markEssential t js).2.1
  simpa using this

theorem rowMarked_foldl (t : Table) (js : List Nat) (i : Nat) :
    rowMarked (js.foldl markEssential t) i ↔
      rowMarked t i ∨
        ∃ j ∈ js, i < t.Rows.length ∧ (scanColumn t j).1 = 1 ∧ (scanColumn t j).2 = i := by
  induction js generalizing t with
  | nil => simp
  | cons j js ih =>
    rw [List.foldl_cons, ih, rowMarked_markEssential]
    simp only [scanColumn_markEssential, markEssential_Rows_length, List.mem_cons,
      exists_eq_or_imp]
    tauto

theorem columnMarked_foldl (t : Table) (js : List Nat) (j0 : Nat) :
    columnMarked (js.foldl markEssential t) j0 ↔
      columnMarked t j0 ∨ (j0 < t.Columns.length ∧ j0 ∈ js ∧ (scanColumn t j0).1 = 1) := by
  induction js generalizing t with
  | nil => simp
  | cons j js ih =>
    rw [List.foldl_cons, ih, columnMarked_markEssential]
    simp only [scanColumn_markEssential, markEssential_Columns_length, List.mem_cons]
    constructor
    · rintro ((h | ⟨h1, h2, h3⟩) | ⟨h1, h2, h3⟩)
      · exact Or.inl h
      · subst h2
        exact Or.inr ⟨h1, Or.inl rfl, h3⟩
      · exact Or.inr ⟨h1, Or.inr h2, h3⟩
    · rintro (h | ⟨h1, h2 | h2, h3⟩)
      · exact Or.inl (Or.inl h)
      · subst h2
        exact Or.inl (Or.inr ⟨h1, rfl, h3⟩)
      · exact Or.inr ⟨h1, h2, h3⟩

theorem onlyRowMarking_Steps (prime source : List Term) (i j : Nat) :
    onlyRowMarking (Steps2and3and4 prime source).1 i j ↔
      onlyRowMarking (NewTable prime source) i j := by
  unfold onlyRowMarking
  simp only [Steps2and3and4_mark, Steps2and3and4_Rows_length]
  simp [NewTable]

theorem mem_essentials_iff_scan (prime source : List Term) (i : Nat) :
    i ∈ (Steps2and3and4 prime source).2 ↔
      ∃ j, j < source.length ∧ scanColumn (NewTable prime source) j = (1, i) ∧
        i < prime.length := by
  rw [Steps2and3and4_essentials, List.mem_filter, List.mem_range, Steps2and3and4_Rows_length,
    beq_iff_eq]
  have hrm := rowMarked_foldl (NewTable prime source)
    (List.range (NewTable prime source).Columns.length) i
  have hR : (NewTable prime source).Rows.length = prime.length := by simp [NewTable]
  have hC : (NewTable prime source).Columns.length = source.length := by simp [NewTable]
  have h0 : ¬ rowMarked (NewTable prime source) i := by
    unfold rowMarked
    simp [NewTable, List.getElem?_map]
  have hT : (Steps2and3and4 prime source).1 =
      (List.range (NewTable prime source).Columns.length).foldl markEssential
        (NewTable prime source) := rfl
  unfold rowMarked at hrm h0
  rw [hT]
  constructor
  · rintro ⟨hi, hm⟩
    rcases hrm.1 hm with h | ⟨j, hj, _, h1, h2⟩
    · exact absurd h h0
    · exact ⟨j, by simpa [hC] using hj, Prod.ext h1 h2, hi⟩
  · rintro ⟨j, hj, hs, hi⟩
    refine ⟨hi, hrm.2 (Or.inr ⟨j, by simpa [hC] using hj, by rw [hR]; exact hi, ?_, ?_⟩)⟩
    · rw [hs]
    · rw [hs]

/-- The essential rows: those that are the only row marking some column. -/
theorem mem_essentials_iff (prime source : List Term) (i : Nat) :
    i ∈ (Steps2and3and4 prime source).2 ↔
      ∃ j, j < source.length ∧ onlyRowMarking (Steps2and3and4 prime source).1 i j := by
  rw [mem_essentials_iff_scan]
  have hC : (NewTable prime source).Columns.length = source.length := by simp [NewTable]
  constructor
  · rintro ⟨j, hj, hs, _⟩
    exact ⟨j, hj, (onlyRowMarking_Steps prime source i j).2
      ((scanColumn_eq_one_iff _ (NewTable_wellFormed prime source) i j (by rw [hC]; exact hj)).1
        hs)⟩
  · rintro ⟨j, hj, ho⟩
    have ho2 := (onlyRowMarking_Steps prime source i j).1 ho
    refine ⟨j, hj, (scanColumn_eq_one_iff _ (NewTable_wellFormed prime source) i j
      (by rw [hC]; exact hj)).2 ho2, ?_⟩
    have := ho2.1
    simpa [NewTable] using this

/-- The essential columns: those marked by exactly one row. -/
theorem columnMarked_iff (prime source : List Term) (j : Nat) (hj : j < source.length) :
    columnMarked (Steps2and3and4 prime source).1 j ↔
      ∃ i, onlyRowMarking (Steps2and3and4 prime source).1 i j := by
  have hC : (NewTable prime source).Columns.length = source.length := by simp [NewTable]
  have hcm := columnMarked_foldl (NewTable prime source)
    (List.range (NewTable prime source).Columns.length) j
  have h0 : ¬ columnMarked (NewTable prime source) j := by
    unfold columnMarked
    simp [NewTable, List.getElem?_map]
  have hT : (Steps2and3and4 prime source).1 =
      (List.range (NewTable prime source).Columns.length).foldl markEssential
        (NewTable prime source) := rfl
  rw [hT, hcm, ← hT]
  constructor
  · rintro (h | ⟨_, _, h1⟩)
    · exact absurd h h0
    · refine ⟨(scanColumn (NewTable prime source) j).2, (onlyRowMarking_Steps _ _ _ _).2 ?_⟩
      exact (scanColumn_eq_one_iff _ (NewTable_wellFormed prime source) _ j
        (by rw [hC]; exact hj)).1 (Prod.ext h1 rfl)
  · rintro ⟨i, ho⟩
    have hs := (scanColumn_eq_one_iff _ (NewTable_wellFormed prime source) i j
      (by rw [hC]; exact hj)).2 ((onlyRowMarking_Steps _ _ _ _).1 ho)
    exact Or.inr ⟨by rw [hC]; exact hj, List.mem_range.2 (by rw [hC]; exact hj), by rw [hs]⟩

/-- C19. In the table of `Steps2and3and4` the mark `Marks[i][j]` is
`prime[i].Covers(source[j])`; a row is in the set of essential rows exactly
when it is the only row marking some column; a column is flagged exactly when
exactly one row marks it. -/
theorem essential_detection (prime source : List Term) :
    (∀ (i j : Nat) (hi : i < prime.length) (hj : j < source.length),
        (Steps2and3and4 prime source).1.mark i j =
          some (Term.Covers prime[i] source[j])) ∧
      (∀ i, i ∈ (Steps2and3and4 prime source).2 ↔
        ∃ j, j < source.length ∧ onlyRowMarking (Steps2and3and4 prime source).1 i j) ∧
      (∀ j, j < source.length →
        (columnMarked (Steps2and3and4 prime source).1 j ↔
          ∃ i, onlyRowMarking (Steps2and3and4 prime source).1 i j)) := by
  refine ⟨?_, mem_essentials_iff prime source, columnMarked_iff prime source⟩
  intro i j hi hj
  rw [Steps2and3and4_mark, NewTable_mark prime source i j hi hj]

/-- An essential row belongs to every row set that passes `IsRowsCovers`. -/
theorem essential_mem_cover (prime source : List Term) (S : List Nat) (i : Nat)
    (hi : i ∈ (Steps2and3and4 prime source).2)
    (hS : (Steps2and3and4 prime source).1.IsRowsCovers S = some true) : i ∈ S := by
  obtain ⟨j, hj, ho⟩ := (mem_essentials_iff prime source i).1 hi
  obtain ⟨b, hb1, hb2⟩ := IsRowsCovers_spec _ (Steps2and3and4_wellFormed prime source) S
  rw [hS] at hb1
  cases hb1
  obtain ⟨k, hk1, hk2, hk3⟩ := hb2.1 rfl j (by rw [Steps2and3and4_Columns_length]; exact hj)
  by_cases hki : k = i
  · exact hki ▸ hk2
  · have := ho.2.2 k hk1 hki
    rw [hk3] at this
    simp at this

/-- C11. Every row set that passes `IsRowsCovers` on the table of
`Steps2and3and4` contains every essential row, and with any essential row
removed it does not pass `IsRowsCovers`. -/
theorem essential_correctness (prime source : List Term) (S : List Nat)
    (hS : (Steps2and3and4 prime source).1.IsRowsCovers S = some true) :
    (∀ i ∈ (Steps2and3and4 prime source).2, i ∈ S) ∧
      ∀ i ∈ (Steps2and3and4 prime source).2,
        (Steps2and3and4 prime source).1.IsRowsCovers (S.filter fun k => k != i) =
          some false := by
  refine ⟨fun i hi => essential_mem_cover prime source S i hi hS, ?_⟩
  intro i hi
  obtain ⟨b, hb1, _⟩ := IsRowsCovers_spec _ (Steps2and3and4_wellFormed prime source)
    (S.filter fun k => k != i)
  cases b with
  | false => exact hb1
  | true =>
    have := essential_mem_cover prime source _ i hi hb1
    simp at this

/-- Witness of C11 on the table of `redundantTable` with the set of all three
rows. -/
theorem essential_correctness_witness :
    (Steps2and3and4 redundantPrimes (MakeSDNF redundantTable)).1.IsRowsCovers [0, 1, 2] =
        some true ∧
      (∀ i ∈ (Steps2and3and4 redundantPrimes (MakeSDNF redundantTable)).2, i ∈ [0, 1, 2]) ∧
      ∀ i ∈ (Steps2and3and4 redundantPrimes (MakeSDNF redundantTable)).2,
        (Steps2and3and4 redundantPrimes (MakeSDNF redundantTable)).1.IsRowsCovers
          (([0, 1, 2] : List Nat).filter fun k => k != i) = some false :=
  ⟨by decide, essential_correctness redundantPrimes (MakeSDNF redundantTable) [0, 1, 2]
    (by decide)⟩

/-! ## `MakeSDNF` against the binary representation -/

theorem termValue_lt (t : Term) : termValue t < 2 ^ t.length := by
  induction t with
  | nil => simp [termValue]
  | cons x xs ih =>
    rw [termValue_cons, List.length_cons, Nat.pow_succ]
    by_cases hx : x = Bit.True
    · simp [hx]
      omega
    · simp [hx]
      omega

theorem termValue_injective (a b : Term) (hl : a.length = b.length)
    (ha : fullySpecified a = true) (hb : fullySpecified b = true)
    (hv : termValue a = termValue b) : a = b := by
  induction a generalizing b with
  | nil =>
    cases b with
    | nil => rfl
    | cons y ys => simp at hl
  | cons x xs ih =>
    cases b with
    | nil => simp at hl
    | cons y ys =>
      have hl2 : xs.length = ys.length := by simpa using hl
      simp only [fullySpecified, List.all_cons, Bool.and_eq_true, bne_iff_ne, ne_eq] at ha hb
      rw [termValue_cons, termValue_cons, hl2] at hv
      have h1 := termValue_lt xs
      have h2 := termValue_lt ys
      rw [hl2] at h1
      have hxy : x = y := by
        cases x <;> cases y <;> simp at ha hb hv ⊢ <;> omega
      subst hxy
      have hv2 : termValue xs = termValue ys := by omega
      rw [ih ys hl2 (by simpa [fullySpecified] using ha.2) (by simpa [fullySpecified] using hb.2)
        hv2]

theorem binaryTerm_succ (n i : Nat) :
    binaryTerm (n + 1) i =
      (if (i / 2 ^ n) % 2 = 1 then Bit.True else Bit.False) :: binaryTerm n i := by
  unfold binaryTerm
  rw [List.range_succ_eq_map, List.map_cons, List.map_map]
  congr 1
  apply List.map_congr_left
  intro k hk
  have hk2 := List.mem_range.1 hk
  simp only [Function.comp]
  have e : n + 1 - 1 - (k + 1) = n - 1 - k := by omega
  rw [e]

theorem binaryTerm_length (n i : Nat) : (binaryTerm n i).length = n := by
  simp [binaryTerm]

theorem binaryTerm_fullySpecified (n i : Nat) : fullySpecified (binaryTerm n i) = true := by
  simp only [fullySpecified, binaryTerm, List.all_eq_true, List.mem_map, List.mem_range]
  rintro b ⟨k, _, rfl⟩
  split <;> rfl

theorem termValue_binaryTerm (n i : Nat) : termValue (binaryTerm n i) = i % 2 ^ n := by
  induction n with
  | zero => simp [binaryTerm, termValue, Nat.mod_one]
  | succ n ih =>
    rw [binaryTerm_succ, termValue_cons, ih, binaryTerm_length, Nat.mod_pow_succ]
    have h2 : i / 2 ^ n % 2 = 0 ∨ i / 2 ^ n % 2 = 1 := by omega
    rcases h2 with h | h
    · simp [h]
    · simp [h]
      ring

/-- For an index below `2 ^ n`, `n ≥ 1`, the term `MakeSDNF` writes is the term
of the `n`-digit binary representation. -/
theorem formatBinary_eq_binaryTerm (n i : Nat) (hn : 1 ≤ n) (hi : i < 2 ^ n) :
    formatBinary n i = binaryTerm n i := by
  apply termValue_injective
  · rw [formatBinary_length n i hn hi, binaryTerm_length]
  · exact formatBinary_fullySpecified n i
  · exact binaryTerm_fullySpecified n i
  · rw [termValue_formatBinary, termValue_binaryTerm, Nat.mod_eq_of_lt hi]

theorem MakeSDNF_eq_map_filter (n : Nat) (f : List Int) (hf : f.length = 2 ^ n) :
    MakeSDNF f =
      ((List.range (2 ^ n)).filter fun i => f[i]? == some 1).map (formatBinary n) := by
  unfold MakeSDNF
  simp only [hf, log2Floor_pow]
  apply filterMap_eq_map_filter_of
  intro i _
  by_cases h1 : f[i]? = some 1 <;> simp [h1]

/-- C12, counterexample. For the vector `[1]` of length `2 ^ 0` the term of the
index 0 has one position, not zero: the format `%00b` still writes the digit
`0`. -/
theorem MakeSDNF_zero_variables :
    ([1] : List Int).length = 2 ^ 0 ∧ MakeSDNF [1] = [[Bit.False]] ∧
      ∃ t ∈ MakeSDNF [1], t.length ≠ 0 := by
  decide

/-- C12, amended. For `n ≥ 1` and a vector `f` of length `2 ^ n`, `MakeSDNF f`
is the list, in increasing order of the index, of the terms of the binary
representations of the indices `i` with `f[i] = 1`; every term has `n`
positions, none of them absent. -/
theorem MakeSDNF_spec (n : Nat) (hn : 1 ≤ n) (f : List Int) (hf : f.length = 2 ^ n) :
    MakeSDNF f = ((List.range (2 ^ n)).filter fun i => f[i]? == some 1).map (binaryTerm n) ∧
      ∀ t ∈ MakeSDNF f, t.length = n ∧ ∀ bit ∈ t, bit ≠ Bit.Tilde := by
  constructor
  · rw [MakeSDNF_eq_map_filter n f hf]
    apply List.map_congr_left
    intro i hi
    exact formatBinary_eq_binaryTerm n i hn (List.mem_range.1 (List.mem_filter.1 hi).1)
  · intro t ht
    obtain ⟨h1, h2⟩ := MakeSDNF_terms n hn f hf t ht
    refine ⟨h1, ?_⟩
    intro bit hbit
    simp only [fullySpecified, List.all_eq_true, bne_iff_ne, ne_eq] at h2
    exact h2 bit hbit

/-- Witness of the amended C12 on `redundantTable`. -/
theorem MakeSDNF_spec_witness :
    1 ≤ 3 ∧ redundantTable.length = 2 ^ 3 ∧
      MakeSDNF redundantTable =
        ((List.range (2 ^ 3)).filter fun i => redundantTable[i]? == some 1).map
          (binaryTerm 3) ∧
      ∀ t ∈ MakeSDNF redundantTable, t.length = 3 ∧ ∀ bit ∈ t, bit ≠ Bit.Tilde :=
  ⟨by decide, by decide, MakeSDNF_spec 3 (by decide) redundantTable (by decide)⟩

/-! ## The scenarios of the specification -/

/-- With as many essential rows as rows, or one less, `Step5` has the list of
all rows as its only candidate. -/
theorem Step5_no_sizes (ord : MapOrder) (t : Table) (e : List Nat)
    (h : t.Rows.length - e.length - 1 = 0) :
    Step5 ord t e = some (selectMin [t.Rows.map fun row => row.Term]) := by
  simp [Step5, h, possibleResults]

/-- C15, counterexample. On the truth table `[0, 1, 1, 0]` the pipeline returns
the minterms `01` and `10` in this order, and `Format` prints them as
`x1!x0 + !x1x0`: position 0 of a term is printed last, as the variable `x0`.
The text is not `!x1x0 + x1!x0`. -/
theorem scenario_xor_counterexample :
    MakeSDNF xorTable = xorMinterms ∧
      Step1Fuel (fun _ => MapOrder.stored) 1 xorMinterms = Run.done xorMinterms ∧
      Step5 MapOrder.stored (Steps2and3and4 xorMinterms xorMinterms).1
        (Steps2and3and4 xorMinterms xorMinterms).2 = some xorMinterms ∧
      Format xorMinterms = "x1!x0 + !x1x0" ∧
      Format xorMinterms ≠ "!x1x0 + x1!x0" := by
  decide

/-- C15, amended. On the truth table `[0, 1, 1, 0]`, in every order of the map
iterations: `MakeSDNF` yields the minterms `01` and `10`, `Step1` merges
nothing and returns the minterms themselves, both rows are essential, `Step5`
returns both terms, and `Format` of the result is `x1!x0 + !x1x0`. -/
theorem scenario_xor (ord : Nat → MapOrder) (ord5 : MapOrder) :
    MakeSDNF xorTable = xorMinterms ∧
      gluedTerms (ord 0) xorMinterms = [] ∧
      (∀ fuel, Step1Fuel ord (fuel + 1) xorMinterms = Run.done xorMinterms) ∧
      (Steps2and3and4 xorMinterms xorMinterms).2 = [0, 1] ∧
      Step5 ord5 (Steps2and3and4 xorMinterms xorMinterms).1
        (Steps2and3and4 xorMinterms xorMinterms).2 = some xorMinterms ∧
      Format xorMinterms = "x1!x0 + !x1x0" := by
  have hno : ∀ a ∈ xorMinterms, ∀ b ∈ xorMinterms, mergeable a b = false := by decide
  refine ⟨by decide, ?_, ?_, by decide, ?_, by decide⟩
  · exact List.length_eq_zero.1 ((gluedTerms_length_eq_zero _ _).2 hno)
  · intro fuel
    exact Step1Fuel_of_no_merge ord fuel xorMinterms 2 (by decide) hno
  · rw [Step5_no_sizes ord5 _ _ (by decide)]
    decide

/-- Every term of length 2 is an implicant of the tautology of two variables. -/
theorem isImplicant_fourMinterms (q : Term) (hq : q.length = 2) :
    isImplicant fourMinterms 2 q := by
  refine ⟨hq, ?_⟩
  intro x hx _ _
  match x, hx with
  | [a, b], _ =>
    cases a <;> cases b <;> simp_all [fourMinterms, fullySpecified]

/-- A prime implicant of the tautology of two variables is the all-absent
term. -/
theorem isPrime_fourMinterms (p : Term) (hp : p.length = 2) (hprime : isPrime fourMinterms 2 p) :
    p = allAbsent := by
  match p, hp with
  | [a, b], _ =>
    have ha : a = Bit.Tilde := by
      by_contra hne
      exact hprime [] [b] a rfl hne (isImplicant_fourMinterms _ rfl)
    have hb : b = Bit.Tilde := by
      by_contra hne
      exact hprime [a] [] b rfl hne (isImplicant_fourMinterms _ rfl)
    rw [ha, hb]
    rfl

theorem eq_singleton_of_nodup_term {l : List Term} {t : Term} (hnd : l.Nodup)
    (hall : ∀ x ∈ l, x = t) (ht : t ∈ l) : l = [t] := by
  cases l with
  | nil => simp at ht
  | cons a rest =>
    have ha : a = t := hall a (by simp)
    subst ha
    cases rest with
    | nil => rfl
    | cons b rest2 =>
      have hb : b = a := hall b (by simp)
      subst hb
      simp at hnd

/-- The result of a run of `Step1` that merged at least once has no term
twice; so has the result of a run on a list without repetition. -/
theorem Step1Fuel_nodup (n : Nat) (fuel : Nat) (ord : Nat → MapOrder) (impls r : List Term)
    (hlen : ∀ t ∈ impls, t.length = n) (hnd : impls.Nodup)
    (hr : Step1Fuel ord fuel impls = Run.done r) : r.Nodup :=
  (Step1Fuel_invariant n (fun S => S.Nodup)
    (fun _ _ _ _ _ _ => (MakeUniqueSet_spec _).2.1) fuel ord impls r hlen hnd hr).1

/-- On the four minterms of two variables `Step1` returns the all-absent term
alone, in every order of the map iterations. -/
theorem Step1Fuel_fourMinterms (ord : Nat → MapOrder) (extra : Nat) :
    Step1Fuel ord (3 + extra) fourMinterms = Run.done [allAbsent] := by
  have hlen : ∀ t ∈ fourMinterms, t.length = 2 := by decide
  obtain ⟨r, hr, hprime⟩ := Step1Fuel_of_mergeState fourMinterms 2 2 0 fourMinterms ord
    (mergeState_zero _ 2 (by decide)) (by omega)
  have hall : ∀ x ∈ r, x = allAbsent := fun x hx =>
    isPrime_fourMinterms x (hprime x hx).1.1 (hprime x hx).2
  obtain ⟨p, hp, _⟩ := Step1Fuel_covers 2 _ ord fourMinterms r hlen hr
    [Bit.False, Bit.False] (by decide)
  have hmem : allAbsent ∈ r := by
    rw [← hall p hp]
    exact hp
  have hnd := Step1Fuel_nodup 2 _ ord fourMinterms r hlen (by decide) hr
  rw [eq_singleton_of_nodup_term hnd hall hmem] at hr
  exact Step1Fuel_mono 2 3 ord fourMinterms _ extra hlen hr

/-- C16. On the truth table `[1, 1, 1, 1]`, in every order of the map
iterations: the run of `Step1` on the minterms returns exactly the list of the
all-absent term of length 2; `Step5` on the table of `Steps2and3and4` returns
that single term, of cost 2; `Format` of the result is the empty string. -/
theorem scenario_tautology (ord : Nat → MapOrder) (ord5 : MapOrder) :
    (∀ extra, Step1Fuel ord (3 + extra) (MakeSDNF tautologyTable) = Run.done [allAbsent]) ∧
      Step5 ord5 (Steps2and3and4 [allAbsent] (MakeSDNF tautologyTable)).1
        (Steps2and3and4 [allAbsent] (MakeSDNF tautologyTable)).2 = some [allAbsent] ∧
      complexity [allAbsent] = 2 ∧
      Format [allAbsent] = "" := by
  have hM : MakeSDNF tautologyTable = fourMinterms := by decide
  rw [hM]
  refine ⟨Step1Fuel_fourMinterms ord, ?_, by decide, by decide⟩
  rw [Step5_no_sizes ord5 _ _ (by decide)]
  decide

/-- C17. For an all-zero vector `f`: `MakeSDNF f` is empty; `GroupByWeight` of
the empty list has no group and `Step1` returns the empty list; the table of
`Steps2and3and4` has no rows and there is no essential row; `Step5` returns the
empty list, of cost 0. -/
theorem scenario_empty (f : List Int) (hf : ∀ x ∈ f, x = 0) (ord : Nat → MapOrder)
    (ord5 : MapOrder) :
    MakeSDNF f = [] ∧
      (GroupByWeight []).keys = [] ∧
      (∀ fuel, Step1Fuel ord (fuel + 1) [] = Run.done []) ∧
      (Steps2and3and4 [] []).1.Rows = [] ∧
      (Steps2and3and4 [] []).2 = [] ∧
      Step5 ord5 (Steps2and3and4 [] []).1 (Steps2and3and4 [] []).2 = some [] ∧
      complexity [] = 0 := by
  refine ⟨?_, by decide, ?_, by decide, by decide, ?_, by decide⟩
  · unfold MakeSDNF
    apply List.filterMap_eq_nil_iff.2
    intro i hi
    have hne : f[i]? ≠ some 1 := by
      intro h1
      have := hf 1 (List.getElem?_eq_some_iff.1 h1 |>.2 ▸ List.getElem_mem _)
      omega
    simp [hne]
  · intro fuel
    exact Step1Fuel_of_no_merge ord fuel [] 0 (by simp) (by simp)
  · rw [Step5_no_sizes ord5 _ _ (by decide)]
    decide

/-- Witness of C17 on the all-zero vector of two variables. -/
theorem scenario_empty_witness :
    (∀ x ∈ ([0, 0, 0, 0] : List Int), x = 0) ∧
      MakeSDNF [0, 0, 0, 0] = [] ∧
      (GroupByWeight []).keys = [] ∧
      (∀ fuel, Step1Fuel (fun _ => MapOrder.stored) (fuel + 1) [] = Run.done []) ∧
      (Steps2and3and4 [] []).1.Rows = [] ∧
      (Steps2and3and4 [] []).2 = [] ∧
      Step5 MapOrder.stored (Steps2and3and4 [] []).1 (Steps2and3and4 [] []).2 = some [] ∧
      complexity [] = 0 :=
  ⟨by decide, scenario_empty [0, 0, 0, 0] (by decide) (fun _ => MapOrder.stored)
    MapOrder.stored⟩

/-! ## The candidates of `Step5` -/

/-- Storing keys that are new and distinct appends them in order. -/
theorem foldl_insertKey_eq (ws acc : List Nat) (hnd : ws.Nodup) (hdis : ∀ x ∈ ws, x ∉ acc) :
    ws.foldl insertKey acc = acc ++ ws := by
  induction ws generalizing acc with
  | nil => simp
  | cons w ws ih =>
    have hw : w ∉ acc := hdis w (by simp)
    rw [List.foldl_cons, show insertKey acc w = acc ++ [w] from if_neg hw]
    rw [ih (acc ++ [w]) (List.nodup_cons.1 hnd).2]
    · simp
    · intro x hx hmem
      rcases List.mem_append.1 hmem with h | h
      · exact hdis x (by simp [hx]) h
      · simp only [List.mem_singleton] at h
        subst h
        exact (List.nodup_cons.1 hnd).1 hx

/-- The answer of `IsRowsCovers` on a well-formed table depends on the members
of the row set only. -/
theorem IsRowsCovers_congr (t : Table) (hw : t.WellFormed) (a b : List Nat)
    (h : ∀ i, i ∈ a ↔ i ∈ b) : t.IsRowsCovers a = t.IsRowsCovers b := by
  obtain ⟨x, hx1, hx2⟩ := IsRowsCovers_spec t hw a
  obtain ⟨y, hy1, hy2⟩ := IsRowsCovers_spec t hw b
  rw [hx1, hy1]
  congr 1
  rw [Bool.eq_iff_iff, hx2, hy2]
  constructor
  · intro hall j hj
    obtain ⟨i, hi1, hi2, hi3⟩ := hall j hj
    exact ⟨i, hi1, (h i).1 hi2, hi3⟩
  · intro hall j hj
    obtain ⟨i, hi1, hi2, hi3⟩ := hall j hj
    exact ⟨i, hi1, (h i).2 hi2, hi3⟩

/-- A combination of `GetCombinations` is the chosen non-essential rows followed
by the essential rows. -/
theorem mem_GetCombinations_iff (t : Table) (k : Nat) (e : List Nat) (hnd : e.Nodup)
    (comb : List Nat) :
    comb ∈ GetCombinations t k e ↔
      ∃ c : List Nat,
        c.Sublist ((List.range t.Rows.length).filter fun i => !(e.contains i)) ∧
          c.length = k ∧ comb = c ++ e := by
  simp only [GetCombinations, List.mem_map, mem_CombinationsInt]
  have key : ∀ c : List Nat,
      c.Sublist ((List.range t.Rows.length).filter fun i => !(e.contains i)) →
        e.foldl insertKey (c.foldl insertKey []) = c ++ e := by
    intro c hc
    have hcnd : c.Nodup := (List.nodup_range _).filter _ |>.sublist hc
    rw [foldl_insertKey_eq c [] hcnd (by simp), List.nil_append]
    apply foldl_insertKey_eq e c hnd
    intro x hx hxc
    have := (List.mem_filter.1 (hc.subset hxc)).2
    simp [hx] at this
  constructor
  · rintro ⟨c, ⟨hc, hl⟩, rfl⟩
    exact ⟨c, hc, hl, key c hc⟩
  · rintro ⟨c, hc, hl, rfl⟩
    exact ⟨c, ⟨hc, hl⟩, key c hc⟩

/-- The terms of the rows of a table with terms of length `n` cost `n` each. -/
theorem complexity_rowTerms (t : Table) (n : Nat) (hlen : ∀ row ∈ t.Rows, row.Term.length = n)
    (idxs : List Nat) (r : List Term) (h : rowTerms t idxs = some r) :
    r.length = idxs.length ∧ complexity r = n * idxs.length := by
  induction idxs generalizing r with
  | nil =>
    simp only [rowTerms, Option.some.injEq] at h
    subst h
    exact ⟨rfl, rfl⟩
  | cons i is ih =>
    simp only [rowTerms] at h
    split at h
    · rename_i row terms hrow hterms
      simp only [Option.some.injEq] at h
      subst h
      obtain ⟨h1, h2⟩ := ih terms hterms
      have hrl : row.Term.length = n :=
        hlen row ((List.getElem?_eq_some_iff.1 hrow).2 ▸ List.getElem_mem _)
      refine ⟨by simp [h1], ?_⟩
      rw [complexity_eq] at h2 ⊢
      simp only [List.map_cons, List.sum_cons, List.length_cons, h2, hrl]
      ring
    · simp at h

theorem rowTerms_range (t : Table) :
    rowTerms t (List.range t.Rows.length) = some (t.Rows.map fun row => row.Term) := by
  have key : ∀ (rows pre : List Line),
      rowTerms { t with Rows := pre ++ rows } (List.range' pre.length rows.length) =
        some (rows.map fun row => row.Term) := by
    intro rows
    induction rows with
    | nil => intro pre; rfl
    | cons x xs ih =>
      intro pre
      have h := ih (pre ++ [x])
      simp only [List.append_assoc, List.singleton_append, List.length_append,
        List.length_singleton] at h
      simp only [List.length_cons, List.range', rowTerms, h, List.map_cons]
      simp [List.getElem_append_right (Nat.le_refl pre.length)]
  have := key t.Rows []
  simpa [List.range_eq_range'] using this

/-- A covering combination of `GetCombinations`, visited in any order, is a
candidate. -/
theorem isCandidate_of_comb (t : Table) (hw : t.WellFormed) (e : List Nat) (hnd : e.Nodup)
    (hess : ∀ i ∈ e, i < t.Rows.length) (k : Nat) (hk1 : 1 ≤ k)
    (hk2 : k < t.Rows.length - e.length) (comb : List Nat) (hcomb : comb ∈ GetCombinations t k e)
    (hc : t.IsRowsCovers comb = some true) (rows : List Nat) (hp : rows.Perm comb) :
    isCandidate t e rows := by
  have hlt := mem_GetCombinations_lt t k e hess comb hcomb
  obtain ⟨c, hcs, hcl, rfl⟩ := (mem_GetCombinations_iff t k e hnd comb).1 hcomb
  have hcnd : c.Nodup := (List.nodup_range _).filter _ |>.sublist hcs
  have hdis : ∀ x, x ∈ c → x ∈ e → False := by
    intro x hxc hx
    have := (List.mem_filter.1 (hcs.subset hxc)).2
    simp [hx] at this
  refine ⟨hp.nodup_iff.2 (List.nodup_append.2 ⟨hcnd, hnd, hdis⟩), ?_, Or.inr ⟨k, hk1, hk2, ?_, ?_, ?_⟩⟩
  · intro i hi
    exact hlt i (hp.mem_iff.1 hi)
  · intro i hi
    exact hp.mem_iff.2 (List.mem_append_right _ hi)
  · rw [hp.length_eq, List.length_append, hcl]
    omega
  · rw [IsRowsCovers_congr t hw rows (c ++ e) (fun i => hp.mem_iff)]
    exact hc

/-- Every row set that holds the essential rows and `k` more rows is, as a set,
a combination of `GetCombinations`. -/
theorem comb_of_rows (t : Table) (e : List Nat) (hnd : e.Nodup) (rows : List Nat) (k : Nat)
    (h1 : rows.Nodup) (h2 : ∀ i ∈ rows, i < t.Rows.length) (h3 : ∀ i ∈ e, i ∈ rows)
    (h4 : rows.length = e.length + k) :
    ∃ comb ∈ GetCombinations t k e, comb.length = rows.length ∧ ∀ i, i ∈ comb ↔ i ∈ rows := by
  have hmem : ∀ i, i ∈ ((List.range t.Rows.length).filter fun i => !(e.contains i)).filter
      (fun i => rows.contains i) ++ e ↔ i ∈ rows := by
    intro i
    simp only [List.mem_append, List.mem_filter, List.mem_range]
    constructor
    · rintro (⟨_, h⟩ | h)
      · simpa using h
      · exact h3 i h
    · intro hi
      by_cases hie : i ∈ e
      · exact Or.inr hie
      · exact Or.inl ⟨⟨h2 i hi, by simpa using hie⟩, by simpa using hi⟩
  have hcnd : (((List.range t.Rows.length).filter fun i => !(e.contains i)).filter
      (fun i => rows.contains i)).Nodup := ((List.nodup_range _).filter _).filter _
  have hdis : ∀ x, x ∈ ((List.range t.Rows.length).filter fun i => !(e.contains i)).filter
      (fun i => rows.contains i) → x ∈ e → False := by
    intro x hxc hx
    have := (List.mem_filter.1 (List.mem_filter.1 hxc).1).2
    simp [hx] at this
  have hperm := (List.perm_ext_iff_of_nodup (List.nodup_append.2 ⟨hcnd, hnd, hdis⟩) h1).2 hmem
  have hlen := hperm.length_eq
  refine ⟨_, (mem_GetCombinations_iff t k e hnd _).2 ⟨_, List.filter_sublist _, ?_, rfl⟩,
    hlen, hmem⟩
  rw [List.length_append] at hlen
  omega

/-- `Step5` below the initial `minComplexity`: on a well-formed table with terms
of length `n ≥ 1`, with the cost of all rows below `math.MaxInt32`, `Step5`
returns the terms of a candidate that has the least number of rows among all
candidates; its cost is `n` times that number. -/
theorem Step5_candidates_below_sentinel (ord : MapOrder) (t : Table) (hw : t.WellFormed)
    (e : List Nat) (hnd : e.Nodup) (hess : ∀ i ∈ e, i < t.Rows.length) (n : Nat) (hn : 1 ≤ n)
    (hlen : ∀ row ∈ t.Rows, row.Term.length = n) (hcost : n * t.Rows.length < MaxInt32) :
    ∃ (r : List Term) (rows : List Nat),
      Step5 ord t e = some r ∧ isCandidate t e rows ∧ rowTerms t rows = some r ∧
        complexity r = n * rows.length ∧
        ∀ other, isCandidate t e other → rows.length ≤ other.length := by
  obtain ⟨rs, hrs1, hrs2⟩ := possibleResults_spec ord t hw e hess
    (List.range' 1 (t.Rows.length - e.length - 1))
  have hstep : Step5 ord t e = some (selectMin (rs ++ [t.Rows.map fun row => row.Term])) := by
    simp only [Step5, hrs1]
  have htriv : complexity (t.Rows.map fun row => row.Term) = n * t.Rows.length := by
    have := (complexity_rowTerms t n hlen _ _ (rowTerms_range t)).2
    rwa [List.length_range] at this
  obtain ⟨hsel, hmin⟩ := (selectMin_spec (rs ++ [t.Rows.map fun row => row.Term])).2
    ⟨t.Rows.map fun row => row.Term, by simp, by rw [htriv]; exact hcost⟩
  have key : ∀ c ∈ rs ++ [t.Rows.map fun row => row.Term],
      ∃ rows, isCandidate t e rows ∧ rowTerms t rows = some c := by
    intro c hc
    rcases List.mem_append.1 hc with h | h
    · obtain ⟨k, hk, comb, hcomb, hcov, hr⟩ := (hrs2 c).1 h
      have hk2 := List.mem_range'_1.1 hk
      exact ⟨ord.visit comb, isCandidate_of_comb t hw e hnd hess k hk2.1 (by omega) comb hcomb
        hcov _ (ord.perm comb), hr⟩
    · simp only [List.mem_singleton] at h
      subst h
      exact ⟨List.range t.Rows.length, ⟨List.nodup_range _, fun i hi => List.mem_range.1 hi,
        Or.inl fun i hi => List.mem_range.2 hi⟩, rowTerms_range t⟩
  have conv : ∀ other, isCandidate t e other →
      ∃ c ∈ rs ++ [t.Rows.map fun row => row.Term], complexity c = n * other.length := by
    rintro other ⟨h1, h2, h3 | ⟨k, hk1, hk2, h4, h5, h6⟩⟩
    · have hp := (List.perm_ext_iff_of_nodup h1 (List.nodup_range t.Rows.length)).2
        (fun i => ⟨fun hi => List.mem_range.2 (h2 i hi), fun hi => h3 i (List.mem_range.1 hi)⟩)
      have hl := hp.length_eq
      rw [List.length_range] at hl
      exact ⟨t.Rows.map fun row => row.Term, by simp, by rw [htriv, hl]⟩
    · obtain ⟨comb, hcomb, hcl, hcm⟩ := comb_of_rows t e hnd other k h1 h2 h4 h5
      have hcov : t.IsRowsCovers comb = some true := by
        rw [IsRowsCovers_congr t hw comb other hcm]
        exact h6
      have hlt : ∀ i ∈ ord.visit comb, i < t.Rows.length := fun i hi =>
        h2 i ((hcm i).1 ((mem_visit ord comb i).1 hi))
      obtain ⟨r2, hr2, _, _⟩ := rowTerms_spec t (ord.visit comb) hlt
      refine ⟨r2, List.mem_append_left _ ((hrs2 r2).2 ⟨k, List.mem_range'_1.2 (by omega), comb,
        hcomb, hcov, hr2⟩), ?_⟩
      rw [(complexity_rowTerms t n hlen _ _ hr2).2, (ord.perm comb).length_eq, hcl]
  obtain ⟨rows, hcand, hrow⟩ := key _ hsel
  refine ⟨_, rows, hstep, hcand, hrow, (complexity_rowTerms t n hlen _ _ hrow).2, ?_⟩
  intro other hother
  obtain ⟨c, hc, hcc⟩ := conv other hother
  have := hmin c hc
  rw [(complexity_rowTerms t n hlen _ _ hrow).2, hcc] at this
  exact Nat.le_of_mul_le_mul_left this hn

/-- Witness of `Step5_candidates_below_sentinel` on the table of the prime
implicants of `redundantTable`, with no row given as essential: the
combinations of one and of two rows are enumerated. -/
theorem Step5_candidates_below_sentinel_witness :
    (NewTable redundantPrimes (MakeSDNF redundantTable)).WellFormed ∧
      ([] : List Nat).Nodup ∧ 1 ≤ 3 ∧
      (∀ row ∈ (NewTable redundantPrimes (MakeSDNF redundantTable)).Rows,
        row.Term.length = 3) ∧
      3 * (NewTable redundantPrimes (MakeSDNF redundantTable)).Rows.length < MaxInt32 ∧
      ∃ (r : List Term) (rows : List Nat),
        Step5 MapOrder.stored (NewTable redundantPrimes (MakeSDNF redundantTable)) [] = some r ∧
          isCandidate (NewTable redundantPrimes (MakeSDNF redundantTable)) [] rows ∧
          rowTerms (NewTable redundantPrimes (MakeSDNF redundantTable)) rows = some r ∧
          complexity r = 3 * rows.length ∧
          ∀ other, isCandidate (NewTable redundantPrimes (MakeSDNF redundantTable)) [] other →
            rows.length ≤ other.length :=
  ⟨NewTable_wellFormed _ _, List.nodup_nil, by decide, by decide, by decide,
    Step5_candidates_below_sentinel MapOrder.stored _ (NewTable_wellFormed _ _) []
      List.nodup_nil (by simp) 3 (by decide) (by decide) (by decide)⟩

/-- C18, failing input. On the table of the single row `longTerm`, without
essential rows, the only candidate is the set of the one row, yet `Step5`
returns no term: the cost `2147483647` of the candidate is not below the
initial `minComplexity = math.MaxInt32`. -/
theorem Step5_candidate_sentinel_failure :
    longTable.WellFormed ∧
      (∀ row ∈ longTable.Rows, row.Term.length = MaxInt32) ∧
      isCandidate longTable [] [0] ∧
      (∀ rows, isCandidate longTable [] rows → rows.length = 1) ∧
      Step5 MapOrder.stored longTable [] = some [] := by
  have hR : longTable.Rows.length = 1 := rfl
  refine ⟨by simp [Table.WellFormed, longTable], ?_, ?_, ?_, ?_⟩
  · intro row hrow
    simp only [longTable, List.mem_singleton] at hrow
    rw [hrow]
    exact longTerm_length
  · refine ⟨by simp, ?_, Or.inl ?_⟩
    · intro i hi
      rw [hR]
      simp only [List.mem_singleton] at hi
      omega
    · intro i hi
      rw [hR] at hi
      simp only [List.mem_singleton]
      omega
  · rintro rows ⟨h1, h2, h3 | ⟨k, hk1, hk2, _⟩⟩
    · rw [hR] at h2 h3
      have hp := (List.perm_ext_iff_of_nodup h1 (List.nodup_range 1)).2
        (fun i => ⟨fun hi => List.mem_range.2 (h2 i hi), fun hi => h3 i (List.mem_range.1 hi)⟩)
      have hl := hp.length_eq
      rwa [List.length_range] at hl
    · rw [hR] at hk2
      simp only [List.length_nil] at hk2
      omega
  · have hs : selectMin [longTable.Rows.map fun row => row.Term] = [] := by
      apply (selectMin_spec _).1
      intro c hc
      simp only [longTable, List.map_cons, List.map_nil, List.mem_singleton] at hc
      rw [hc, complexity_single, longTerm_length]
    rw [Step5_no_sizes MapOrder.stored longTable [] (by rw [hR]; rfl), hs]

/-! ## Independence from the order of the map iterations -/

theorem hasPartner_congr {S1 S2 : List Term} (h : ∀ t, t ∈ S1 ↔ t ∈ S2) (t : Term) :
    hasPartner S1 t = hasPartner S2 t := by
  rw [Bool.eq_iff_iff]
  unfold hasPartner
  simp only [List.any_eq_true]
  constructor
  · rintro ⟨y, hy, hm⟩
    exact ⟨y, (h y).1 hy, hm⟩
  · rintro ⟨y, hy, hm⟩
    exact ⟨y, (h y).2 hy, hm⟩

/-- The members of the argument of the recursive call depend on the members of
the list only, not on the orders of the two loops. -/
theorem mem_nextImpls_congr (o0 o1 p0 p1 : MapOrder) {S1 S2 : List Term}
    (h : ∀ t, t ∈ S1 ↔ t ∈ S2) (t : Term) :
    t ∈ nextImpls o0 o1 S1 ↔ t ∈ nextImpls p0 p1 S2 := by
  rw [mem_nextImpls, mem_nextImpls, hasPartner_congr h t, h t]
  constructor
  · rintro (hl | ⟨a, ha, b, hb, hm⟩)
    · exact Or.inl hl
    · exact Or.inr ⟨a, (h a).1 ha, b, (h b).1 hb, hm⟩
  · rintro (hl | ⟨a, ha, b, hb, hm⟩)
    · exact Or.inl hl
    · exact Or.inr ⟨a, (h a).2 ha, b, (h b).2 hb, hm⟩

theorem nextImpls_perm (o0 o1 p0 p1 : MapOrder) {S1 S2 : List Term}
    (h : ∀ t, t ∈ S1 ↔ t ∈ S2) :
    (nextImpls o0 o1 S1).Perm (nextImpls p0 p1 S2) :=
  (List.perm_ext_iff_of_nodup (MakeUniqueSet_spec _).2.1 (MakeUniqueSet_spec _).2.1).2
    (mem_nextImpls_congr o0 o1 p0 p1 h)

/-- Two runs of `Step1` on lists that are permutations of one another, in any
two orders of the map iterations, make the same number of calls and return
lists that are permutations of one another. -/
theorem Step1Fuel_perm (n : Nat) :
    ∀ (fuel : Nat) (ord1 ord2 : Nat → MapOrder) (S1 S2 r1 : List Term), S1.Perm S2 →
      (∀ t ∈ S1, t.length = n) → Step1Fuel ord1 fuel S1 = Run.done r1 →
        ∃ r2, Step1Fuel ord2 fuel S2 = Run.done r2 ∧ r1.Perm r2 := by
  intro fuel
  induction fuel with
  | zero =>
    intro ord1 ord2 S1 S2 r1 _ _ h
    simp [Step1Fuel] at h
  | succ fuel ih =>
    intro ord1 ord2 S1 S2 r1 hp hlen h
    have hmem : ∀ t, t ∈ S1 ↔ t ∈ S2 := fun t => hp.mem_iff
    have hlen2 : ∀ t ∈ S2, t.length = n := fun t ht => hlen t ((hmem t).2 ht)
    rw [Step1Fuel_succ ord1 fuel S1 n hlen] at h
    rw [Step1Fuel_succ ord2 fuel S2 n hlen2]
    by_cases hg : (gluedTerms (ord1 0) S1).length = 0
    · have hg2 : (gluedTerms (ord2 0) S2).length = 0 := by
        rw [gluedTerms_length_eq_zero] at hg ⊢
        intro a ha b hb
        exact hg a ((hmem a).2 ha) b ((hmem b).2 hb)
      rw [if_pos hg] at h
      rw [if_pos hg2]
      cases h
      exact ⟨S2, rfl, hp⟩
    · have hg2 : ¬ (gluedTerms (ord2 0) S2).length = 0 := by
        intro h0
        apply hg
        rw [gluedTerms_length_eq_zero] at h0 ⊢
        intro a ha b hb
        exact h0 a ((hmem a).1 ha) b ((hmem b).1 hb)
      rw [if_neg hg] at h
      rw [if_neg hg2]
      exact ih _ _ _ _ r1 (nextImpls_perm _ _ _ _ hmem) (nextImpls_length _ _ S1 n hlen) h

/-- C20. For every list of terms of one length and every two orders of the map
iterations (in the merge loop and in the collection of the unmerged terms, at
every call), the two runs of `Step1` return, and the lists they return are
permutations of one another: a term belongs to one exactly when it belongs to
the other. -/
theorem Step1_order_independent (n : Nat) (ord1 ord2 : Nat → MapOrder) (impls : List Term)
    (hlen : ∀ t ∈ impls, t.length = n) :
    ∃ (fuel : Nat) (r1 r2 : List Term),
      (∀ extra, Step1Fuel ord1 (fuel + extra) impls = Run.done r1) ∧
      (∀ extra, Step1Fuel ord2 (fuel + extra) impls = Run.done r2) ∧
      r1.Perm r2 ∧ ∀ t, t ∈ r1 ↔ t ∈ r2 := by
  obtain ⟨fuel, r1, hr1⟩ := Step1Fuel_returns n ord1 impls hlen
  obtain ⟨r2, hr2, hp⟩ := Step1Fuel_perm n fuel ord1 ord2 impls impls r1 (List.Perm.refl _) hlen hr1
  exact ⟨fuel, r1, r2, fun extra => Step1Fuel_mono n fuel ord1 impls r1 extra hlen hr1,
    fun extra => Step1Fuel_mono n fuel ord2 impls r2 extra hlen hr2, hp, fun t => hp.mem_iff⟩

/-- Witness of C20 on `fourMinterms`, with the groups visited in the stored
order by one run and in the reversed order by the other. -/
theorem Step1_order_independent_witness :
    (∀ t ∈ fourMinterms, t.length = 2) ∧
      ∃ (fuel : Nat) (r1 r2 : List Term),
        (∀ extra, Step1Fuel (fun _ => MapOrder.stored) (fuel + extra) fourMinterms =
          Run.done r1) ∧
        (∀ extra, Step1Fuel (fun _ => MapOrder.reversed) (fuel + extra) fourMinterms =
          Run.done r2) ∧
        r1.Perm r2 ∧ ∀ t, t ∈ r1 ↔ t ∈ r2 :=
  ⟨by decide, Step1_order_independent 2 (fun _ => MapOrder.stored) (fun _ => MapOrder.reversed)
    fourMinterms (by decide)⟩

/-! ## The pipeline within the memory of the machine -/

/-- Rows that cover the first `m` columns of the table, no more than `m` of
them, when every source term is covered by a prime term. -/
theorem exists_cover_rows (prime source : List Term)
    (hcov : ∀ s ∈ source, ∃ p ∈ prime, Term.Covers p s = true) :
    ∀ m, m ≤ source.length →
      ∃ S : List Nat, S.Nodup ∧ (∀ i ∈ S, i < prime.length) ∧ S.length ≤ m ∧
        ∀ j, j < m → ∃ i ∈ S, (Steps2and3and4 prime source).1.mark i j = some true := by
  intro m
  induction m with
  | zero =>
    intro _
    exact ⟨[], List.nodup_nil, by simp, by simp, by simp⟩
  | succ m ih =>
    intro hm
    obtain ⟨S, h1, h2, h3, h4⟩ := ih (by omega)
    have hj : m < source.length := by omega
    obtain ⟨p, hp, hpc⟩ := hcov source[m] (List.getElem_mem _)
    obtain ⟨i, hi, rfl⟩ := List.getElem_of_mem hp
    have hmark : (Steps2and3and4 prime source).1.mark i m = some true := by
      rw [Steps2and3and4_mark, NewTable_mark prime source i m hi hj, hpc]
    by_cases hiS : i ∈ S
    · refine ⟨S, h1, h2, by omega, ?_⟩
      intro j hjm
      by_cases hjeq : j = m
      · subst hjeq
        exact ⟨i, hiS, hmark⟩
      · exact h4 j (by omega)
    · refine ⟨i :: S, List.nodup_cons.2 ⟨hiS, h1⟩, ?_, by simp; omega, ?_⟩
      · intro k hk
        rcases List.mem_cons.1 hk with h | h
        · rw [h]
          exact hi
        · exact h2 k h
      · intro j hjm
        by_cases hjeq : j = m
        · subst hjeq
          exact ⟨i, by simp, hmark⟩
        · obtain ⟨k, hk, hkm⟩ := h4 j (by omega)
          exact ⟨k, List.mem_cons_of_mem _ hk, hkm⟩

/-- A list without repetition of numbers below `R`, shorter than `R`, misses a
number below `R`. -/
theorem exists_not_mem_of_length_lt (S : List Nat) (R : Nat) (hlen : S.length < R) :
    ∃ x, x < R ∧ x ∉ S := by
  by_contra hno
  have hsub : List.range R ⊆ S := by
    intro x hx
    by_contra hxS
    exact hno ⟨x, List.mem_range.1 hx, hxS⟩
  have := (List.subperm_of_subset (List.nodup_range R) hsub).length_le
  rw [List.length_range] at this
  omega

/-- `Step5` on the table of `Steps2and3and4`, when some candidate costs less
than the initial `minComplexity`: the result is made of terms of `prime` and
covers every source term that `prime` covers. -/
theorem Step5_covers_of_candidate (ord : MapOrder) (prime source : List Term)
    (hcov : ∀ s ∈ source, ∃ p ∈ prime, Term.Covers p s = true)
    (hcheap : ∀ rs, possibleResults ord (Steps2and3and4 prime source).1
        (Steps2and3and4 prime source).2
        (List.range' 1 ((Steps2and3and4 prime source).1.Rows.length -
          (Steps2and3and4 prime source).2.length - 1)) = some rs →
      ∃ c ∈ rs ++ [prime], complexity c < MaxInt32) :
    ∃ r, Step5 ord (Steps2and3and4 prime source).1 (Steps2and3and4 prime source).2 = some r ∧
      (∀ q ∈ r, q ∈ prime) ∧ (∀ s ∈ source, ∃ q ∈ r, Term.Covers q s = true) := by
  have hess : ∀ i ∈ (Steps2and3and4 prime source).2,
      i < (Steps2and3and4 prime source).1.Rows.length := by
    intro i hi
    rw [Steps2and3and4_Rows_length]
    exact Steps2and3and4_essentials_lt prime source i hi
  obtain ⟨rs, hrs1, hrs2⟩ := possibleResults_spec ord _ (Steps2and3and4_wellFormed prime source)
    _ hess (List.range' 1 ((Steps2and3and4 prime source).1.Rows.length -
      (Steps2and3and4 prime source).2.length - 1))
  have htriv : (Steps2and3and4 prime source).1.Rows.map (fun row => row.Term) = prime :=
    (Steps2and3and4_table prime source).2.1
  have hstep : Step5 ord (Steps2and3and4 prime source).1 (Steps2and3and4 prime source).2 =
      some (selectMin (rs ++ [prime])) := by
    simp only [Step5, hrs1, htriv]
  obtain ⟨hsel, _⟩ := (selectMin_spec (rs ++ [prime])).2 (hcheap rs hrs1)
  refine ⟨_, hstep, ?_, ?_⟩
  · rcases List.mem_append.1 hsel with h | h
    · obtain ⟨k, _, comb, hcomb, hc, hr⟩ := (hrs2 _).1 h
      have hlt : ∀ i ∈ comb, i < prime.length := by
        intro i hi
        have := mem_GetCombinations_lt _ k _ hess comb hcomb i hi
        rwa [Steps2and3and4_Rows_length] at this
      exact (candidate_covers ord prime source comb _ hlt hc hr).1
    · simp only [List.mem_singleton] at h
      rw [h]
      exact fun q hq => hq
  · rcases List.mem_append.1 hsel with h | h
    · obtain ⟨k, _, comb, hcomb, hc, hr⟩ := (hrs2 _).1 h
      have hlt : ∀ i ∈ comb, i < prime.length := by
        intro i hi
        have := mem_GetCombinations_lt _ k _ hess comb hcomb i hi
        rwa [Steps2and3and4_Rows_length] at this
      exact (candidate_covers ord prime source comb _ hlt hc hr).2
    · simp only [List.mem_singleton] at h
      rw [h]
      exact hcov

/-- The sizes of a table whose marks fit in memory although all its rows cost
at least `math.MaxInt32`: the columns are few, the rows are many. -/
theorem sizes_of_tableBytes (n R C : Nat) (hn : n ≤ 45) (hmem : R * C ≤ heapBytes)
    (hbig : MaxInt32 ≤ n * R) : C + 1 < R ∧ n * (C + 1) < MaxInt32 := by
  unfold heapBytes at hmem
  unfold MaxInt32 at hbig ⊢
  have hR : 47721859 ≤ R := by
    by_contra h
    have h1 : R ≤ 47721858 := by omega
    have h2 : n * R ≤ 45 * 47721858 := Nat.mul_le_mul hn h1
    omega
  have hC : C ≤ 5898239 := by
    by_contra h
    have h1 : 5898240 ≤ C := by omega
    have h2 : 47721859 * 5898240 ≤ R * C := Nat.mul_le_mul hR h1
    norm_num at hmem h2
    omega
  have h3 : n * (C + 1) ≤ 45 * 5898240 := Nat.mul_le_mul hn (by omega)
  constructor
  · omega
  · omega

/-- `Step5` on a table that fits in memory: when every source term is covered
by a prime term, the terms have at most 45 positions and the marks of the table
take no more than `heapBytes` bytes, `Step5` returns terms of `prime` that cover
every source term.  The initial `minComplexity` is then not reached: as many
rows as there are columns, and one more, already form a cheaper candidate. -/
theorem Step5_covers_in_memory (ord : MapOrder) (prime source : List Term) (n : Nat)
    (hcov : ∀ s ∈ source, ∃ p ∈ prime, Term.Covers p s = true)
    (hlen : ∀ t ∈ prime, t.length = n) (hn : n ≤ 45)
    (hmem : tableBytes prime source ≤ heapBytes) :
    ∃ r, Step5 ord (Steps2and3and4 prime source).1 (Steps2and3and4 prime source).2 = some r ∧
      (∀ q ∈ r, q ∈ prime) ∧ (∀ s ∈ source, ∃ q ∈ r, Term.Covers q s = true) := by
  apply Step5_covers_of_candidate ord prime source hcov
  intro rs hrs1
  by_cases hc : complexity prime < MaxInt32
  · exact ⟨prime, by simp, hc⟩
  have hR : (Steps2and3and4 prime source).1.Rows.length = prime.length :=
    Steps2and3and4_Rows_length prime source
  have hC : (Steps2and3and4 prime source).1.Columns.length = source.length :=
    Steps2and3and4_Columns_length prime source
  have hw := Steps2and3and4_wellFormed prime source
  have hess : ∀ i ∈ (Steps2and3and4 prime source).2,
      i < (Steps2and3and4 prime source).1.Rows.length := by
    intro i hi
    rw [hR]
    exact Steps2and3and4_essentials_lt prime source i hi
  have hend : ((Steps2and3and4 prime source).2).Nodup := by
    rw [Steps2and3and4_essentials]
    exact (List.nodup_range _).filter _
  have hrows : ∀ row ∈ (Steps2and3and4 prime source).1.Rows, row.Term.length = n := by
    intro row hrow
    apply hlen
    rw [← (Steps2and3and4_table prime source).2.1]
    exact List.mem_map_of_mem _ hrow
  obtain ⟨rs2, h1, hrs2⟩ := possibleResults_spec ord _ hw _ hess
    (List.range' 1 ((Steps2and3and4 prime source).1.Rows.length -
      (Steps2and3and4 prime source).2.length - 1))
  rw [hrs1] at h1
  cases h1
  have hbig : MaxInt32 ≤ n * prime.length := by
    rw [← complexity_of_length prime n hlen]
    omega
  obtain ⟨hCR, hcost⟩ := sizes_of_tableBytes n prime.length source.length hn hmem hbig
  obtain ⟨S, hS1, hS2, hS3, hS4⟩ := exists_cover_rows prime source hcov source.length
    (Nat.le_refl _)
  obtain ⟨x, hx1, hx2⟩ := exists_not_mem_of_length_lt S prime.length (by omega)
  have hxS : (x :: S).Nodup := List.nodup_cons.2 ⟨hx2, hS1⟩
  have hxlt : ∀ i ∈ x :: S, i < (Steps2and3and4 prime source).1.Rows.length := by
    intro i hi
    rw [hR]
    rcases List.mem_cons.1 hi with h | h
    · rw [h]
      exact hx1
    · exact hS2 i h
  have hcovers : (Steps2and3and4 prime source).1.IsRowsCovers (x :: S) = some true := by
    obtain ⟨b, hb1, hb2⟩ := IsRowsCovers_spec _ hw (x :: S)
    rw [hb1]
    congr 1
    apply hb2.2
    intro j hj
    rw [hC] at hj
    obtain ⟨i, hi, him⟩ := hS4 j hj
    exact ⟨i, hxlt i (List.mem_cons_of_mem _ hi), List.mem_cons_of_mem _ hi, him⟩
  have hsub : ∀ i ∈ (Steps2and3and4 prime source).2, i ∈ x :: S := fun i hi =>
    essential_mem_cover prime source (x :: S) i hi hcovers
  have hElen : ((Steps2and3and4 prime source).2).length ≤ S.length := by
    have hsubS : (Steps2and3and4 prime source).2 ⊆ S := by
      intro i hi
      have hiS := essential_mem_cover prime source S i hi (by
        obtain ⟨b, hb1, hb2⟩ := IsRowsCovers_spec _ hw S
        rw [hb1]
        congr 1
        apply hb2.2
        intro j hj
        rw [hC] at hj
        obtain ⟨k, hk, hkm⟩ := hS4 j hj
        exact ⟨k, by rw [hR]; exact hS2 k hk, hk, hkm⟩)
      exact hiS
    exact (List.subperm_of_subset hend hsubS).length_le
  obtain ⟨comb, hcomb, hcl, hcm⟩ := comb_of_rows (Steps2and3and4 prime source).1
    (Steps2and3and4 prime source).2 hend (x :: S)
    ((x :: S).length - ((Steps2and3and4 prime source).2).length) hxS hxlt hsub
    (by simp only [List.length_cons]; omega)
  have hcombcov : (Steps2and3and4 prime source).1.IsRowsCovers comb = some true := by
    rw [IsRowsCovers_congr _ hw comb (x :: S) hcm]
    exact hcovers
  have hvis : ∀ i ∈ ord.visit comb, i < (Steps2and3and4 prime source).1.Rows.length :=
    fun i hi => hxlt i ((hcm i).1 ((mem_visit ord comb i).1 hi))
  obtain ⟨r2, hr2, _, _⟩ := rowTerms_spec _ (ord.visit comb) hvis
  have hmem2 : r2 ∈ rs := by
    refine (hrs2 r2).2 ⟨_, List.mem_range'_1.2 ⟨?_, ?_⟩, comb, hcomb, hcombcov, hr2⟩
    · simp only [List.length_cons]
      omega
    · simp only [List.length_cons]
      rw [hR]
      omega
  refine ⟨r2, List.mem_append_left _ hmem2, ?_⟩
  rw [(complexity_rowTerms _ n hrows _ _ hr2).2, (ord.perm comb).length_eq, hcl]
  have : (x :: S).length ≤ source.length + 1 := by
    simp only [List.length_cons]
    omega
  calc n * (x :: S).length ≤ n * (source.length + 1) := Nat.mul_le_mul_left n this
    _ < MaxInt32 := hcost

/-- C1. End-to-end equivalence on the machine: for `n ≥ 1` and a truth table `f`
of length `2 ^ n` held in memory, in every order of the map iterations, the run
of `Step1` on `MakeSDNF f` returns a list `p`; and when the marks of the table
of `p` against the minterms fit in memory, `Step5` on the table of
`Steps2and3and4` returns a list `r` such that for every index `i < 2 ^ n` the
entry `f[i]` is 1 exactly when some term of `r` covers the term of the binary
representation of `i`. -/
theorem pipeline_equivalent (n : Nat) (hn : 1 ≤ n) (f : List Int) (hf : f.length = 2 ^ n)
    (hvec : vectorBytes f ≤ heapBytes) (ord : Nat → MapOrder) (ord5 : MapOrder) :
    ∃ (fuel : Nat) (p : List Term),
      (∀ extra, Step1Fuel ord (fuel + extra) (MakeSDNF f) = Run.done p) ∧
      (tableBytes p (MakeSDNF f) ≤ heapBytes →
        ∃ r, Step5 ord5 (Steps2and3and4 p (MakeSDNF f)).1 (Steps2and3and4 p (MakeSDNF f)).2 =
            some r ∧
          ∀ i, i < 2 ^ n →
            (f[i]? = some 1 ↔ ∃ q ∈ r, Term.Covers q (formatBinary n i) = true)) := by
  have hn45 : n ≤ 45 := by
    unfold vectorBytes heapBytes at hvec
    rw [hf] at hvec
    have h2 : 2 ^ n ≤ 2 ^ 45 := by
      have e : (2 : Nat) ^ 48 = 8 * 2 ^ 45 := by norm_num
      omega
    exact (Nat.pow_le_pow_iff_right (by decide)).1 h2
  have hM := MakeSDNF_terms n hn f hf
  have hlen : ∀ t ∈ MakeSDNF f, t.length = n := fun t ht => (hM t ht).1
  obtain ⟨p, hp, hprime⟩ := Step1Fuel_of_mergeState (MakeSDNF f) n n 0 (MakeSDNF f) ord
    (mergeState_zero _ n hM) (by omega)
  have hcov := Step1Fuel_covers n (n + 1) ord (MakeSDNF f) p hlen hp
  refine ⟨n + 1, p, fun extra => Step1Fuel_mono n (n + 1) ord _ p extra hlen hp, ?_⟩
  intro hmem
  obtain ⟨r, hr, hsub, hcovr⟩ := Step5_covers_in_memory ord5 p (MakeSDNF f) n hcov
    (fun t ht => (hprime t ht).1.1) hn45 hmem
  refine ⟨r, hr, ?_⟩
  intro i hi
  constructor
  · intro h1
    exact hcovr _ ((mem_MakeSDNF n f hf _).2 ⟨i, hi, h1, rfl⟩)
  · rintro ⟨q, hq, hqc⟩
    have himp := (hprime q (hsub q hq)).1.2 (formatBinary n i) (formatBinary_length n i hn hi)
      (formatBinary_fullySpecified n i) hqc
    obtain ⟨j, _, hj1, hj2⟩ := (mem_MakeSDNF n f hf _).1 himp
    rw [formatBinary_injective n i j hj2]
    exact hj1

/-- Witness of C1 on `redundantTable`: the run of `Step1` returns
`redundantPrimes`, the marks of the table take 12 bytes, and the result of
`Step5` is 1 exactly where the truth table is. -/
theorem pipeline_equivalent_witness :
    1 ≤ 3 ∧ redundantTable.length = 2 ^ 3 ∧ vectorBytes redundantTable ≤ heapBytes ∧
      tableBytes redundantPrimes (MakeSDNF redundantTable) ≤ heapBytes ∧
      ∃ (fuel : Nat),
        (∀ extra, Step1Fuel (fun _ => MapOrder.stored) (fuel + extra)
          (MakeSDNF redundantTable) = Run.done redundantPrimes) ∧
        ∃ r, Step5 MapOrder.stored
            (Steps2and3and4 redundantPrimes (MakeSDNF redundantTable)).1
            (Steps2and3and4 redundantPrimes (MakeSDNF redundantTable)).2 = some r ∧
          ∀ i, i < 2 ^ 3 →
            (redundantTable[i]? = some 1 ↔
              ∃ q ∈ r, Term.Covers q (formatBinary 3 i) = true) := by
  have hmem : tableBytes redundantPrimes (MakeSDNF redundantTable) ≤ heapBytes := by decide
  refine ⟨by decide, by decide, by decide, hmem, ?_⟩
  obtain ⟨fuel, p, h1, h2⟩ := pipeline_equivalent 3 (by decide) redundantTable (by decide)
    (by decide) (fun _ => MapOrder.stored) MapOrder.stored
  have hrun : Step1Fuel (fun _ => MapOrder.stored) (3 + fuel) (MakeSDNF redundantTable) =
      Run.done redundantPrimes :=
    Step1Fuel_mono 3 3 _ _ _ fuel (by decide) (by decide)
  have hp : p = redundantPrimes := by
    have h3 := h1 3
    rw [Nat.add_comm, hrun] at h3
    cases h3
    rfl
  subst hp
  exact ⟨fuel, h1, h2 hmem⟩

/-- The table of `thirdsTable n` has `(2 ^ n + 2) / 3` rows and as many
columns; for `n = 28` its marks take more than `heapBytes` bytes, so the table
does not fit in memory. -/
theorem thirdsTable_tableBytes :
    (∀ n, tableBytes (MakeSDNF (thirdsTable n)) (MakeSDNF (thirdsTable n)) =
      (2 ^ n + 2) / 3 * ((2 ^ n + 2) / 3)) ∧
      heapBytes < (2 ^ 28 + 2) / 3 * ((2 ^ 28 + 2) / 3) := by
  constructor
  · intro n
    unfold tableBytes
    rw [MakeSDNF_thirdsTable, List.length_map, length_filter_thirds]
  · unfold heapBytes
    norm_num

end MKMK
